import Mathlib

/-!
Verification development for the IR-based dynamic binary translator core:
the RISC-to-IR front-end, the IR builder type contract, the block-level
graph analysis, and the direct x86 translator's branch lowering.

Machine integers (riscv::reg_t, uint64_t) are modelled as natural numbers
with explicit reduction modulo 2^64 where the C++ code performs unsigned
wrap-around arithmetic.
-/

namespace RiscvDbt

/-- Modulus of 64-bit unsigned arithmetic. -/
def M64 : Nat := 2 ^ 64

/-- Wrap-around addition of two uint64 bit patterns. -/
def uadd (a b : Nat) : Nat := (a + b) % M64

/-- Wrap-around subtraction of two uint64 bit patterns. -/
def usub (a b : Nat) : Nat := (a + M64 - b % M64) % M64

/-- IR value types, from ir/node.h (enum class Type). -/
inductive Ty : Type where
  | none
  | i1
  | i8
  | i16
  | i32
  | i64
  | memory
  | control
deriving DecidableEq, Repr

/-- Bit width of an integer type; scheduling tokens are given width 0.
From get_type_size in ir/node.h (integer tags carry their width). -/
def Ty.width : Ty → Nat
  | .none => 0
  | .i1 => 1
  | .i8 => 8
  | .i16 => 16
  | .i32 => 32
  | .i64 => 64
  | .memory => 0
  | .control => 0

/-- Binary arithmetic IR opcodes (the builder's arithmetic group). -/
inductive AOp : Type where
  | add
  | sub
  | i_xor
  | i_or
  | i_and
deriving DecidableEq, Repr

/-- Shift IR opcodes. -/
inductive SOp : Type where
  | shl
  | shr
  | sar
deriving DecidableEq, Repr

/-- Comparison IR opcodes. -/
inductive COp : Type where
  | eq
  | ne
  | lt
  | ge
  | ltu
  | geu
deriving DecidableEq, Repr

/-- Guest (RISC) opcodes, from riscv/opcode.h as used by the front-end
dispatch switch in the front-end translation unit and by the direct x86
translator.  The constructors past sraw are opcodes that fall into the
dispatch switch's default bucket (branches, jumps, system, fences,
multiplication). -/
inductive ROpcode : Type where
  | auipc
  | lui
  | lb
  | lh
  | lw
  | ld
  | lbu
  | lhu
  | lwu
  | sb
  | sh
  | sw
  | sd
  | addi
  | slli
  | slti
  | sltiu
  | xori
  | srli
  | srai
  | ori
  | andi
  | addiw
  | slliw
  | srliw
  | sraiw
  | add
  | sub
  | sll
  | slt
  | sltu
  | i_xor
  | srl
  | sra
  | i_or
  | i_and
  | addw
  | subw
  | sllw
  | srlw
  | sraw
  | jal
  | jalr
  | beq
  | bne
  | blt
  | bge
  | bltu
  | bgeu
  | fence_i
  | mul
  | ecall
deriving DecidableEq, Repr

/-- Decoded guest instruction record (riscv::Instruction): opcode,
destination and source registers, sign-extended immediate (stored as its
uint64 bit pattern) and instruction length in bytes. -/
structure RInst : Type where
  opcode : ROpcode
  rd : Nat
  rs1 : Nat
  rs2 : Nat
  imm : Nat
  length : Nat
deriving DecidableEq, Repr

/-- Decoded basic block (riscv::Basic_block). -/
structure BasicBlock : Type where
  start_pc : Nat
  end_pc : Nat
  instructions : List RInst
deriving DecidableEq, Repr

/-- IR node as emitted by the front-end (the Instruction-style IR of the
front-end translation unit).  Node references are indices into the
emission list; memory dependencies are optional because the front-end's
last_side_effect pointer starts out null.  Value-producing constructors
carry their produced type, exactly as the builder computes it at the
corresponding creation site. -/
inductive FNode : Type where
  | constant (ty : Ty) (val : Nat)
  | cast (ty : Ty) (sext : Bool) (opr : Nat)
  | load_register (dep : Option Nat) (reg : Nat)
  | store_register (dep : Option Nat) (reg : Nat) (val : Nat)
  | load_memory (dep : Option Nat) (ty : Ty) (addr : Nat)
  | store_memory (dep : Option Nat) (addr : Nat) (val : Nat)
  | arith (op : AOp) (ty : Ty) (l : Nat) (r : Nat)
  | shiftN (op : SOp) (ty : Ty) (l : Nat) (r : Nat)
  | cmp (op : COp) (l : Nat) (r : Nat)
  | emulate (dep : Option Nat) (instIdx : Nat)
  | iret (dep : Option Nat)
deriving DecidableEq, Repr

/-- Produced (data) type of a node, mirroring Instruction::type() for the
value output: load_register yields i64, compare yields i1, the builder
stores the left operand's type into arithmetic/shift nodes, memory-only
nodes are typed memory. -/
def FNode.typeOf : FNode → Ty
  | .constant ty _ => ty
  | .cast ty _ _ => ty
  | .load_register _ _ => .i64
  | .store_register _ _ _ => .memory
  | .load_memory _ ty _ => ty
  | .store_memory _ _ _ => .memory
  | .arith _ ty _ _ => ty
  | .shiftN _ ty _ _ => ty
  | .cmp _ _ _ => .i1
  | .emulate _ _ => .memory
  | .iret _ => .none

/-- Memory dependency operand of a node (none for pure nodes). -/
def FNode.dep : FNode → Option Nat
  | .load_register d _ => d
  | .store_register d _ _ => d
  | .load_memory d _ _ => d
  | .store_memory d _ _ => d
  | .emulate d _ => d
  | .iret d => d
  | _ => Option.none

/-- Whether a node is side-effecting (consumes and produces the memory
token). -/
def FNode.isSideEffect : FNode → Bool
  | .load_register _ _ => true
  | .store_register _ _ _ => true
  | .load_memory _ _ _ => true
  | .store_memory _ _ _ => true
  | .emulate _ _ => true
  | _ => false

/-- Front-end state: the list of emitted nodes (the graph, in emission
order), the running last-side-effect reference, and an aborted flag.
The aborted flag models a failed ASSERT; per the spec (section 7) a
structural error aborts translation with no recovery. -/
structure FState : Type where
  nodes : List FNode
  lastSE : Option Nat
  aborted : Bool
deriving DecidableEq, Repr

/-- Initial front-end state (Frontend constructor: empty graph, null
last_side_effect). -/
def FState.init : FState := ⟨[], Option.none, false⟩

/-- Append a node to the graph, returning its reference. -/
def emitN (s : FState) (n : FNode) : FState × Nat :=
  ({ s with nodes := s.nodes ++ [n] }, s.nodes.length)

/-- Type of the value at a reference. -/
def typeAt (nodes : List FNode) (r : Nat) : Ty :=
  ((nodes.get? r).map FNode.typeOf).getD Ty.none

/-- Frontend::emit_load_register.  Register 0 reads as a constant zero of
the requested type without touching the side-effect chain; otherwise a
load_register is emitted (becoming the last side-effect), followed by a
truncating cast when a type narrower than i64 is requested. -/
def emit_load_register (s : FState) (ty : Ty) (reg : Nat) : FState × Nat :=
  if reg = 0 then
    emitN s (.constant ty 0)
  else
    let p := emitN s (.load_register s.lastSE reg)
    let s1 := { p.1 with lastSE := some p.2 }
    if ty ≠ Ty.i64 then emitN s1 (.cast ty false p.2) else (s1, p.2)

/-- Frontend::emit_store_register.  The source asserts reg != 0; a
violation sets the aborted flag (ASSERT semantics modelled from the spec,
section 7: structural errors abort).  Otherwise the value is promoted to
i64 by a cast when needed and a store_register is emitted, becoming the
last side-effect. -/
def emit_store_register (s : FState) (reg : Nat) (value : Nat) (sext : Bool) : FState :=
  if reg = 0 then
    { s with aborted := true }
  else
    let p :=
      if typeAt s.nodes value ≠ Ty.i64 then
        emitN s (.cast Ty.i64 sext value)
      else (s, value)
    let q := emitN p.1 (.store_register p.1.lastSE reg p.2)
    { q.1 with lastSE := some q.2 }

/-- Builder.arithmetic as used by the front-end: the produced type is the
left operand's type (the builder's type-equality assertion holds at every
front-end call site). -/
def emit_arith (s : FState) (op : AOp) (l r : Nat) : FState × Nat :=
  emitN s (.arith op (typeAt s.nodes l) l r)

/-- Builder.shift as used by the front-end: produced type is the left
operand's type. -/
def emit_shiftB (s : FState) (op : SOp) (l r : Nat) : FState × Nat :=
  emitN s (.shiftN op (typeAt s.nodes l) l r)

/-- Frontend::emit_load: address = rs1 + imm, load_memory at the requested
width (becoming the last side-effect), then store into rd. -/
def emit_load (s : FState) (inst : RInst) (ty : Ty) (sext : Bool) : FState :=
  let p1 := emit_load_register s Ty.i64 inst.rs1
  let p2 := emitN p1.1 (.constant Ty.i64 inst.imm)
  let p3 := emit_arith p2.1 .add p1.2 p2.2
  let p4 := emitN p3.1 (.load_memory p3.1.lastSE ty p3.2)
  let s4 := { p4.1 with lastSE := some p4.2 }
  emit_store_register s4 inst.rd p4.2 sext

/-- Frontend::emit_store: load rs2 at the store width, compute the
address, emit store_memory. -/
def emit_store (s : FState) (inst : RInst) (ty : Ty) : FState :=
  let p1 := emit_load_register s ty inst.rs2
  let p2 := emit_load_register p1.1 Ty.i64 inst.rs1
  let p3 := emitN p2.1 (.constant Ty.i64 inst.imm)
  let p4 := emit_arith p3.1 .add p2.2 p3.2
  let p5 := emitN p4.1 (.store_memory p4.1.lastSE p4.2 p1.2)
  { p5.1 with lastSE := some p5.2 }

/-- Frontend::emit_alui. -/
def emit_alui (s : FState) (inst : RInst) (op : AOp) (w : Bool) : FState :=
  if inst.rd = 0 then s
  else
    let ty := if w then Ty.i32 else Ty.i64
    let p1 := emit_load_register s ty inst.rs1
    let p2 := emitN p1.1 (.constant ty inst.imm)
    let p3 := emit_arith p2.1 op p1.2 p2.2
    emit_store_register p3.1 inst.rd p3.2 true

/-- Frontend::emit_shifti. -/
def emit_shifti (s : FState) (inst : RInst) (op : SOp) (w : Bool) : FState :=
  if inst.rd = 0 then s
  else
    let ty := if w then Ty.i32 else Ty.i64
    let p1 := emit_load_register s ty inst.rs1
    let p2 := emitN p1.1 (.constant Ty.i8 inst.imm)
    let p3 := emit_shiftB p2.1 op p1.2 p2.2
    emit_store_register p3.1 inst.rd p3.2 true

/-- Frontend::emit_slti. -/
def emit_slti (s : FState) (inst : RInst) (op : COp) : FState :=
  if inst.rd = 0 then s
  else
    let p1 := emit_load_register s Ty.i64 inst.rs1
    let p2 := emitN p1.1 (.constant Ty.i64 inst.imm)
    let p3 := emitN p2.1 (.cmp op p1.2 p2.2)
    emit_store_register p3.1 inst.rd p3.2 false

/-- Frontend::emit_alu. -/
def emit_alu (s : FState) (inst : RInst) (op : AOp) (w : Bool) : FState :=
  if inst.rd = 0 then s
  else
    let ty := if w then Ty.i32 else Ty.i64
    let p1 := emit_load_register s ty inst.rs1
    let p2 := emit_load_register p1.1 ty inst.rs2
    let p3 := emit_arith p2.1 op p1.2 p2.2
    emit_store_register p3.1 inst.rd p3.2 true

/-- Frontend::emit_shift. -/
def emit_shift (s : FState) (inst : RInst) (op : SOp) (w : Bool) : FState :=
  if inst.rd = 0 then s
  else
    let ty := if w then Ty.i32 else Ty.i64
    let p1 := emit_load_register s ty inst.rs1
    let p2 := emit_load_register p1.1 Ty.i8 inst.rs2
    let p3 := emit_shiftB p2.1 op p1.2 p2.2
    emit_store_register p3.1 inst.rd p3.2 true

/-- Frontend::emit_slt. -/
def emit_slt (s : FState) (inst : RInst) (op : COp) : FState :=
  if inst.rd = 0 then s
  else
    let p1 := emit_load_register s Ty.i64 inst.rs1
    let p2 := emit_load_register p1.1 Ty.i64 inst.rs2
    let p3 := emitN p2.1 (.cmp op p1.2 p2.2)
    emit_store_register p3.1 inst.rd p3.2 false

/-- Whether a guest opcode has a dedicated case in the front-end dispatch
switch; everything else falls into the default bucket. -/
def handledOpcode : ROpcode → Bool
  | .auipc => true
  | .lui => true
  | .lb => true
  | .lh => true
  | .lw => true
  | .ld => true
  | .lbu => true
  | .lhu => true
  | .lwu => true
  | .sb => true
  | .sh => true
  | .sw => true
  | .sd => true
  | .addi => true
  | .slli => true
  | .slti => true
  | .sltiu => true
  | .xori => true
  | .srli => true
  | .srai => true
  | .ori => true
  | .andi => true
  | .addiw => true
  | .slliw => true
  | .srliw => true
  | .sraiw => true
  | .add => true
  | .sub => true
  | .sll => true
  | .slt => true
  | .sltu => true
  | .i_xor => true
  | .srl => true
  | .sra => true
  | .i_or => true
  | .i_and => true
  | .addw => true
  | .subw => true
  | .sllw => true
  | .srlw => true
  | .sraw => true
  | _ => false

/-- Dispatch on one guest instruction (the body of the front-end compile
loop's switch).  off is the running pc_offset (a reg_t), idx the index of
the instruction inside the block (standing in for the raw instruction
pointer carried by an emulate node). -/
def compileStep (s : FState) (off : Nat) (idx : Nat) (inst : RInst) : FState :=
  match inst.opcode with
  | .auipc =>
      if inst.rd = 0 then s
      else
        let p1 := emitN s (.load_register s.lastSE 64)
        let p2 := emitN p1.1 (.constant Ty.i64 (uadd off inst.imm))
        let p3 := emit_arith p2.1 .add p1.2 p2.2
        let p4 := emitN p3.1 (.store_register (some p1.2) inst.rd p3.2)
        { p4.1 with lastSE := some p4.2 }
  | .lui =>
      if inst.rd = 0 then s
      else
        let p1 := emitN s (.constant Ty.i64 inst.imm)
        let p2 := emitN p1.1 (.store_register p1.1.lastSE inst.rd p1.2)
        { p2.1 with lastSE := some p2.2 }
  | .lb => emit_load s inst Ty.i8 true
  | .lh => emit_load s inst Ty.i16 true
  | .lw => emit_load s inst Ty.i32 true
  | .ld => emit_load s inst Ty.i64 false
  | .lbu => emit_load s inst Ty.i8 false
  | .lhu => emit_load s inst Ty.i16 false
  | .lwu => emit_load s inst Ty.i32 false
  | .sb => emit_store s inst Ty.i8
  | .sh => emit_store s inst Ty.i16
  | .sw => emit_store s inst Ty.i32
  | .sd => emit_store s inst Ty.i64
  | .addi => emit_alui s inst .add false
  | .slli => emit_shifti s inst .shl false
  | .slti => emit_slti s inst .lt
  | .sltiu => emit_slti s inst .ltu
  | .xori => emit_alui s inst .i_xor false
  | .srli => emit_shifti s inst .shr false
  | .srai => emit_shifti s inst .sar false
  | .ori => emit_alui s inst .i_or false
  | .andi => emit_alui s inst .i_and false
  | .addiw => emit_alui s inst .add true
  | .slliw => emit_shifti s inst .shl true
  | .srliw => emit_shifti s inst .shr true
  | .sraiw => emit_shifti s inst .sar true
  | .add => emit_alu s inst .add false
  | .sub => emit_alu s inst .sub false
  | .sll => emit_shift s inst .shl false
  | .slt => emit_slt s inst .lt
  | .sltu => emit_slt s inst .ltu
  | .i_xor => emit_alu s inst .i_xor false
  | .srl => emit_shift s inst .shr false
  | .sra => emit_shift s inst .sar false
  | .i_or => emit_alu s inst .i_or false
  | .i_and => emit_alu s inst .i_and false
  | .addw => emit_alu s inst .add true
  | .subw => emit_alu s inst .sub true
  | .sllw => emit_shift s inst .shl true
  | .srlw => emit_shift s inst .shr true
  | .sraw => emit_shift s inst .sar true
  | _ =>
      let p := emitN s (.emulate s.lastSE idx)
      { p.1 with lastSE := some p.2 }

/-- The front-end compile loop over the block's instructions, threading
the pc_offset accumulator (reg_t wrap-around) and the instruction index.
An aborted state is final: the process has died at a failed assertion, so
no further nodes are emitted. -/
def compileInsts (s : FState) (off : Nat) (idx : Nat) : List RInst → FState
  | [] => s
  | inst :: rest =>
      let s1 := if s.aborted then s else compileStep s off idx inst
      compileInsts s1 (uadd off inst.length) (idx + 1) rest

/-- Block prologue of Frontend::compile: advance the guest pc register
(index 64) by end_pc - start_pc and the instret counter (index 65) by the
number of instructions, chained through the side-effect token. -/
def compilePrologue (b : BasicBlock) : FState :=
  let s0 := FState.init
  let p1 := emitN s0 (.load_register s0.lastSE 64)
  let p2 := emitN p1.1 (.constant Ty.i64 (usub b.end_pc b.start_pc))
  let p3 := emit_arith p2.1 .add p1.2 p2.2
  let p4 := emitN p3.1 (.store_register (some p1.2) 64 p3.2)
  let s4 := { p4.1 with lastSE := some p4.2 }
  let q1 := emitN s4 (.load_register s4.lastSE 65)
  let q2 := emitN q1.1 (.constant Ty.i64 b.instructions.length)
  let q3 := emit_arith q2.1 .add q1.2 q2.2
  let q4 := emitN q3.1 (.store_register (some q1.2) 65 q3.2)
  { q4.1 with lastSE := some q4.2 }

/-- Frontend::compile: prologue, instruction loop, then the root return
node anchored on the final side-effect token. -/
def compileFE (b : BasicBlock) : FState :=
  let s := compileInsts (compilePrologue b) (usub b.start_pc b.end_pc) 0 b.instructions
  if s.aborted then s
  else (emitN s (.iret s.lastSE)).1

/-- Memory dependency of the node at a reference. -/
def depAt (nodes : List FNode) (r : Nat) : Option Nat :=
  (nodes.get? r).bind FNode.dep

/-- The memory-effect chain read backwards from a reference: the node, its
memory dependency, that node's dependency, and so on.  Fuelled; a fuel of
nodes.length is exact for front-end output, whose dependencies strictly
decrease. -/
def chainFrom (nodes : List FNode) : Nat → Option Nat → List Nat
  | _, Option.none => []
  | 0, some _ => []
  | fuel + 1, some r => r :: chainFrom nodes fuel (depAt nodes r)

/-- The memory-effect chain of a finished graph, read from the root return
node's side-effect anchor. -/
def rootChain (nodes : List FNode) : List Nat :=
  match nodes.get? (nodes.length - 1) with
  | some (.iret d) => chainFrom nodes nodes.length d
  | _ => []

/-! Evaluation of IR values.  The Evaluator's implementation is not under
src/; these semantics are modelled from the spec (section 4.5): values at
integer type T are bit patterns reduced modulo 2^width(T); binary
operations use two's-complement arithmetic with defined wrap, shift
amounts are masked to the operand width, casts sign- or zero-extend or
truncate per the node's flag. -/

/-- Truncate a bit pattern to the width of a type. -/
def truncTo (ty : Ty) (v : Nat) : Nat := v % 2 ^ ty.width

/-- Sign-extend a wfrom-bit pattern to wto bits (wfrom ≤ wto). -/
def signExtendN (wfrom wto : Nat) (v : Nat) : Nat :=
  let u := v % 2 ^ wfrom
  if u < 2 ^ (wfrom - 1) then u else u + (2 ^ wto - 2 ^ wfrom)

/-- Signed reading of a w-bit pattern. -/
def toSigned (w : Nat) (v : Nat) : Int :=
  let u := v % 2 ^ w
  if u < 2 ^ (w - 1) then (u : Int) else (u : Int) - (2 ^ w : Int)

/-- Cast evaluation: truncate when narrowing, sign- or zero-extend from
the source width when widening. -/
def castEval (target src : Ty) (sext : Bool) (v : Nat) : Nat :=
  if target.width ≤ src.width then v % 2 ^ target.width
  else if sext then signExtendN src.width target.width v
  else v % 2 ^ src.width

/-- Arithmetic evaluation at a type width with wrap-around. -/
def arithEval (op : AOp) (ty : Ty) (a b : Nat) : Nat :=
  let w := ty.width
  match op with
  | .add => (a + b) % 2 ^ w
  | .sub => (a % 2 ^ w + (2 ^ w - b % 2 ^ w)) % 2 ^ w
  | .i_xor => Nat.xor (a % 2 ^ w) (b % 2 ^ w)
  | .i_or => Nat.lor (a % 2 ^ w) (b % 2 ^ w)
  | .i_and => Nat.land (a % 2 ^ w) (b % 2 ^ w)

/-- Shift evaluation at a type width; the amount is masked to the width. -/
def shiftEval (op : SOp) (ty : Ty) (a b : Nat) : Nat :=
  let w := ty.width
  let amt := if w = 0 then 0 else b % w
  match op with
  | .shl => (a <<< amt) % 2 ^ w
  | .shr => (a % 2 ^ w) >>> amt
  | .sar => (signExtendN w (w + amt) a >>> amt) % 2 ^ w

/-- Comparison evaluation; the operand type fixes width and signedness. -/
def cmpEval (op : COp) (ty : Ty) (a b : Nat) : Nat :=
  let w := ty.width
  match op with
  | .eq => if a % 2 ^ w = b % 2 ^ w then 1 else 0
  | .ne => if a % 2 ^ w = b % 2 ^ w then 0 else 1
  | .lt => if toSigned w a < toSigned w b then 1 else 0
  | .ge => if toSigned w a < toSigned w b then 0 else 1
  | .ltu => if a % 2 ^ w < b % 2 ^ w then 1 else 0
  | .geu => if a % 2 ^ w < b % 2 ^ w then 0 else 1

/-! Execution of a front-end graph.  Nodes are executed in emission order
(which coincides with the memory-chain order for front-end output); the
state carries the value of every executed node and the guest register
file.  Memory load results and the register effects of emulate nodes are
oracles, since the guest heap and the interpreter are outside the core. -/

/-- Execution state: per-node (value, type) pairs indexed by emission
position, and the guest register file (values are uint64 bit
patterns). -/
structure EState : Type where
  vals : List (Nat × Ty)
  regs : Nat → Nat

/-- Execute one node.  mem gives the value loaded by the load_memory node
at a position; em gives the register file transformer of the emulate node
at a position.  Each node records its (value, type); memory-token nodes
record a dummy zero. -/
def execNode (mem : Nat → Nat) (em : Nat → (Nat → Nat) → Nat → Nat)
    (st : EState) (n : FNode) : EState :=
  let idx := st.vals.length
  let val := fun r => (st.vals.getD r (0, Ty.none)).1
  let tyOf := fun r => (st.vals.getD r (0, Ty.none)).2
  match n with
  | .constant ty v => ⟨st.vals ++ [(truncTo ty v, ty)], st.regs⟩
  | .cast ty sext opr =>
      ⟨st.vals ++ [(castEval ty (tyOf opr) sext (val opr), ty)], st.regs⟩
  | .load_register _ reg => ⟨st.vals ++ [(st.regs reg % M64, Ty.i64)], st.regs⟩
  | .store_register _ reg v =>
      ⟨st.vals ++ [(0, Ty.memory)], fun r => if r = reg then val v % M64 else st.regs r⟩
  | .load_memory _ ty _ => ⟨st.vals ++ [(truncTo ty (mem idx), ty)], st.regs⟩
  | .store_memory _ _ _ => ⟨st.vals ++ [(0, Ty.memory)], st.regs⟩
  | .arith op ty l r => ⟨st.vals ++ [(arithEval op ty (val l) (val r), ty)], st.regs⟩
  | .shiftN op ty l r => ⟨st.vals ++ [(shiftEval op ty (val l) (val r), ty)], st.regs⟩
  | .cmp op l r => ⟨st.vals ++ [(cmpEval op (tyOf l) (val l) (val r), Ty.i1)], st.regs⟩
  | .emulate _ i => ⟨st.vals ++ [(0, Ty.memory)], fun r => em i st.regs r % M64⟩
  | .iret _ => ⟨st.vals ++ [(0, Ty.none)], st.regs⟩

/-- Execute a whole node list from an initial register file. -/
def execList (nodes : List FNode) (R : Nat → Nat) (mem : Nat → Nat)
    (em : Nat → (Nat → Nat) → Nat → Nat) : EState :=
  nodes.foldl (execNode mem em) ⟨[], R⟩

/-! Register-access elimination.  Its implementation is not under src/
(ir/pass.h only declares the pass and its state vectors), so the pass is
modelled from the spec, section 4.4: per-register last_load / last_store /
has_store_after_exception state; stored-value forwarding into loads,
load-load forwarding, dead-store removal, full invalidation at
exception-capable nodes.  Section 4.4 names emulate as the
exception-capable node and section 8 property 7 requires the sequence of
memory loads/stores to be preserved, so memory accesses leave the state
untouched and are never removed.  Removal is recorded in a removed set;
consumers of a removed node are reparented to its memory predecessor by
the final rewriting step, per section 4.4's closing paragraph. -/

/-- Scan state of the modelled register-access elimination. -/
structure RAES : Type where
  lastLoad : Nat → Option Nat
  lastStore : Nat → Option Nat
  hasEx : Nat → Bool
  sub : Nat → Option Nat
  removed : Nat → Bool

/-- Initial RAE scan state. -/
def RAES.init : RAES :=
  ⟨fun _ => Option.none, fun _ => Option.none, fun _ => false,
   fun _ => Option.none, fun _ => false⟩

/-- Stored-value operand of a store_register node. -/
def storeValOf (nodes : List FNode) (r : Nat) : Option Nat :=
  match nodes.get? r with
  | some (.store_register _ _ v) => some v
  | _ => Option.none

/-- One step of the RAE scan, visiting the node at idx. -/
def raeStep (nodes : List FNode) (st : RAES) (idx : Nat) : RAES :=
  match nodes.get? idx with
  | some (.load_register _ k) =>
      match st.lastStore k with
      | some s =>
          { st with
            sub := fun j => if j = idx then storeValOf nodes s else st.sub j,
            removed := fun j => if j = idx then true else st.removed j }
      | Option.none =>
          match st.lastLoad k with
          | some l =>
              { st with
                sub := fun j => if j = idx then some l else st.sub j,
                removed := fun j => if j = idx then true else st.removed j }
          | Option.none =>
              { st with lastLoad := fun j => if j = k then some idx else st.lastLoad j }
  | some (.store_register _ k _) =>
      let st1 :=
        match st.lastStore k with
        | some s =>
            if st.hasEx k then st
            else { st with removed := fun j => if j = s then true else st.removed j }
        | Option.none => st
      { st1 with
        lastStore := fun j => if j = k then some idx else st1.lastStore j,
        lastLoad := fun j => if j = k then Option.none else st1.lastLoad j,
        hasEx := fun j => if j = k then false else st1.hasEx j }
  | some (.emulate _ _) =>
      { st with hasEx := fun _ => true, lastLoad := fun _ => Option.none }
  | _ => st

/-- The full RAE scan over a graph in chain (emission) order. -/
def raeScan (nodes : List FNode) : RAES :=
  (List.range nodes.length).foldl (raeStep nodes) RAES.init

/-- Resolve a value reference through the forwarding substitution. -/
def resolveVal (st : RAES) : Nat → Nat → Nat
  | 0, r => r
  | fuel + 1, r =>
      match st.sub r with
      | some r2 => resolveVal st fuel r2
      | Option.none => r

/-- Resolve a memory dependency past removed nodes, reparenting consumers
of a removed node to its memory predecessor. -/
def resolveDep (nodes : List FNode) (st : RAES) : Nat → Option Nat → Option Nat
  | _, Option.none => Option.none
  | 0, some r => some r
  | fuel + 1, some r =>
      if st.removed r then resolveDep nodes st fuel (depAt nodes r) else some r

/-- Rewrite every node of the graph through the scan's substitution and
removal maps.  Removed nodes stay in the list but nothing on the chain
references them any more. -/
def raeRewrite (nodes : List FNode) : List FNode :=
  let st := raeScan nodes
  let n := nodes.length
  nodes.map (fun nd =>
    match nd with
    | .constant ty v => .constant ty v
    | .cast ty sx o => .cast ty sx (resolveVal st n o)
    | .load_register d k => .load_register (resolveDep nodes st n d) k
    | .store_register d k v =>
        .store_register (resolveDep nodes st n d) k (resolveVal st n v)
    | .load_memory d ty a => .load_memory (resolveDep nodes st n d) ty (resolveVal st n a)
    | .store_memory d a v =>
        .store_memory (resolveDep nodes st n d) (resolveVal st n a) (resolveVal st n v)
    | .arith op ty l r => .arith op ty (resolveVal st n l) (resolveVal st n r)
    | .shiftN op ty l r => .shiftN op ty (resolveVal st n l) (resolveVal st n r)
    | .cmp op l r => .cmp op (resolveVal st n l) (resolveVal st n r)
    | .emulate d i => .emulate (resolveDep nodes st n d) i
    | .iret d => .iret (resolveDep nodes st n d))

/-! Local value numbering.  Its implementation is not under src/ (only
declared in ir/pass.h), so it is modelled from the spec, section 4.5:
pure opcodes only; structural hashing over opcode, ordered operands and
attribute, with commutative opcodes canonicalised by the order on value
identity; constant folding when all operands are constants. -/

/-- Pure opcodes (is_pure_opcode: constant and everything after it). -/
def isPureF : FNode → Bool
  | .constant _ _ => true
  | .cast _ _ _ => true
  | .arith _ _ _ _ => true
  | .shiftN _ _ _ _ => true
  | .cmp _ _ _ => true
  | _ => false

/-- Commutative arithmetic opcodes (is_commutative_opcode). -/
def isCommutativeA : AOp → Bool
  | .add => true
  | .i_xor => true
  | .i_or => true
  | .i_and => true
  | _ => false

/-- Hashing key of a pure node: commutative opcodes order their operands
by value identity. -/
def lvnKey (n : FNode) : FNode :=
  match n with
  | .arith op ty l r => if isCommutativeA op && decide (r < l) then .arith op ty r l else n
  | .cmp op l r =>
      if (op == COp.eq || op == COp.ne) && decide (r < l) then .cmp op r l else n
  | _ => n

/-- Constant attribute of a node if it is a constant, with its type. -/
def constValOf (out : List FNode) (r : Nat) : Option (Ty × Nat) :=
  match out.get? r with
  | some (.constant ty v) => some (ty, v)
  | _ => Option.none

/-- Constant folding: when every operand of a pure node is a constant,
evaluate at the node's result type and produce a constant. -/
def lvnFold (out : List FNode) (n : FNode) : FNode :=
  match n with
  | .cast ty sx o =>
      match constValOf out o with
      | some p => .constant ty (castEval ty p.1 sx p.2)
      | Option.none => n
  | .arith op ty l r =>
      match constValOf out l, constValOf out r with
      | some p, some q => .constant ty (arithEval op ty p.2 q.2)
      | _, _ => n
  | .shiftN op ty l r =>
      match constValOf out l, constValOf out r with
      | some p, some q => .constant ty (shiftEval op ty p.2 q.2)
      | _, _ => n
  | .cmp op l r =>
      match constValOf out l, constValOf out r with
      | some p, some q => .constant Ty.i1 (cmpEval op p.1 p.2 q.2)
      | _, _ => n
  | _ => n

/-- Rewrite the value operands of a node through a reference map, leaving
memory dependencies alone. -/
def substVals (f : Nat → Nat) : FNode → FNode
  | .constant ty v => .constant ty v
  | .cast ty sx o => .cast ty sx (f o)
  | .load_register d k => .load_register d k
  | .store_register d k v => .store_register d k (f v)
  | .load_memory d ty a => .load_memory d ty (f a)
  | .store_memory d a v => .store_memory d (f a) (f v)
  | .arith op ty l r => .arith op ty (f l) (f r)
  | .shiftN op ty l r => .shiftN op ty (f l) (f r)
  | .cmp op l r => .cmp op (f l) (f r)
  | .emulate d i => .emulate d i
  | .iret d => .iret d

/-- Local value numbering state: rewritten nodes, the table of canonical
keys with their representative, and the replacement map. -/
structure LVNS : Type where
  out : List FNode
  seen : List (FNode × Nat)
  sub : Nat → Option Nat

/-- One LVN visit. -/
def lvnStep (st : LVNS) (nd : FNode) : LVNS :=
  let idx := st.out.length
  let res := fun r => match st.sub r with | some c => c | Option.none => r
  let nd1 := substVals res nd
  if isPureF nd1 then
    let nd2 := lvnFold st.out nd1
    let key := lvnKey nd2
    match st.seen.find? (fun p => p.1 == key) with
    | some p =>
        { out := st.out ++ [nd2], seen := st.seen,
          sub := fun j => if j = idx then some p.2 else st.sub j }
    | Option.none =>
        { out := st.out ++ [nd2], seen := (key, idx) :: st.seen, sub := st.sub }
  else
    { out := st.out ++ [nd1], seen := st.seen, sub := st.sub }

/-- Local value numbering over a whole graph in emission order. -/
def lvnRun (nodes : List FNode) : List FNode :=
  (nodes.foldl lvnStep ⟨[], [], fun _ => Option.none⟩).out

/-- The optimisation pipeline applied after the front-end (main/ir_dbt.cc:
register-access elimination with 66 registers, then local value
numbering). -/
def pipeline (b : BasicBlock) : List FNode :=
  lvnRun (raeRewrite (compileFE b).nodes)

/-! The Builder over the Value-style graph of ir/node.h and ir/builder.h:
nodes own operand values and a list of output types; a Value is a
(node, output index) pair.  Only the structure needed by the builder's
type contract is modelled; a violated assertion is an abort, modelled as
returning nothing. -/

/-- IR opcodes of ir/node.h (enum class Opcode). -/
inductive IROpcode : Type where
  | start
  | i_end
  | block
  | i_if
  | if_true
  | if_false
  | jmp
  | emulate
  | load_register
  | store_register
  | load_memory
  | store_memory
  | fence
  | constant
  | cast
  | neg
  | i_not
  | add
  | sub
  | i_xor
  | i_or
  | i_and
  | shl
  | shr
  | sar
  | eq
  | ne
  | lt
  | ge
  | ltu
  | geu
  | mux
deriving DecidableEq, Repr

/-- Node of the Value-style graph: opcode, output types, operand values.
Operand values are (node index, output index) pairs into the graph's node
list. -/
structure BNode : Type where
  opcode : IROpcode
  types : List Ty
  operands : List (Nat × Nat)
deriving DecidableEq, Repr

/-- Graph as the Builder sees it: the managed node heap, in creation
order. -/
abbrev BGraph := List BNode

/-- Type of a value, Value::type(): the producing node's output type at
the value's index. -/
def bvalType (g : BGraph) (v : Nat × Nat) : Ty :=
  match g.get? v.1 with
  | some n => n.types.getD v.2 Ty.none
  | Option.none => Ty.none

/-- Builder::create followed by value(0): append the node, return its
first value. -/
def bcreate (g : BGraph) (op : IROpcode) (tys : List Ty) (ops : List (Nat × Nat)) :
    BGraph × (Nat × Nat) :=
  (g ++ [⟨op, tys, ops⟩], (g.length, 0))

/-- Builder::arithmetic: asserts equal operand types, produces the left
operand's type. -/
def builder_arithmetic (g : BGraph) (op : IROpcode) (l r : Nat × Nat) :
    Option (BGraph × (Nat × Nat)) :=
  if bvalType g l = bvalType g r then some (bcreate g op [bvalType g l] [l, r])
  else Option.none

/-- Builder::shift: asserts an i8 shift amount, produces the left
operand's type. -/
def builder_shift (g : BGraph) (op : IROpcode) (l r : Nat × Nat) :
    Option (BGraph × (Nat × Nat)) :=
  if bvalType g r = Ty.i8 then some (bcreate g op [bvalType g l] [l, r])
  else Option.none

/-- Builder::compare: asserts equal operand types, produces i1. -/
def builder_compare (g : BGraph) (op : IROpcode) (l r : Nat × Nat) :
    Option (BGraph × (Nat × Nat)) :=
  if bvalType g l = bvalType g r then some (bcreate g op [Ty.i1] [l, r])
  else Option.none

/-- Builder::mux: asserts an i1 condition and equal branch types,
produces the left branch's type. -/
def builder_mux (g : BGraph) (cond l r : Nat × Nat) :
    Option (BGraph × (Nat × Nat)) :=
  if bvalType g cond = Ty.i1 ∧ bvalType g l = bvalType g r then
    some (bcreate g IROpcode.mux [bvalType g l] [cond, l, r])
  else Option.none

/-! Direct x86 translator (Dbt_compiler), branch lowering. -/

/-- x86 condition codes used by emit_branch. -/
inductive CC : Type where
  | equal
  | not_equal
  | less
  | greater_equal
  | below
  | above_equal
  | greater
  | less_equal
  | above
  | below_equal
deriving DecidableEq, Repr

/-- The x86 instructions emit_branch can produce, abstracted to the
operand shapes it uses.  Register operands are guest register context
slots; pc is the guest program counter slot. -/
inductive X86I : Type where
  | add_pc_imm (imm : Nat)
  | add_pc_rax
  | cmp_reg_imm0 (reg : Nat)
  | cmp_rax_reg (reg : Nat)
  | mov_rax_reg (reg : Nat)
  | mov_rdx_imm (v : Nat)
  | mov_rax_imm (v : Nat)
  | cmovcc (cc : CC)
  | pop_rbp
  | ret
deriving DecidableEq, Repr

/-- Condition-code swap used when the left operand is x0 and the compare
is emitted against the right operand. -/
def ccSwap : CC → CC
  | .less => .greater
  | .greater_equal => .less_equal
  | .below => .above
  | .above_equal => .below_equal
  | c => c

/-- Whether an emitted instruction is a comparison. -/
def isCmpInst : X86I → Bool
  | .cmp_reg_imm0 _ => true
  | .cmp_rax_reg _ => true
  | _ => false

/-- Dbt_compiler::emit_branch.  pc_diff is the accumulated in-block pc
advance (a reg_t); the branch-target pc increment is
pc_diff - length + imm in wrap-around uint64 arithmetic. -/
def emit_branch (inst : RInst) (pc_diff : Nat) (cc : CC) : List X86I :=
  let rs1 := inst.rs1
  let rs2 := inst.rs2
  if rs1 = rs2 then
    let result := cc == CC.equal || cc == CC.greater_equal || cc == CC.above_equal
    (if result then [X86I.add_pc_imm (uadd (usub pc_diff inst.length) inst.imm)]
     else [X86I.add_pc_imm (pc_diff % M64)]) ++ [X86I.pop_rbp, X86I.ret]
  else
    (if rs2 = 0 then [X86I.cmp_reg_imm0 rs1]
     else if rs1 = 0 then [X86I.cmp_reg_imm0 rs2]
     else [X86I.mov_rax_reg rs1, X86I.cmp_rax_reg rs2]) ++
    [X86I.mov_rdx_imm (uadd (usub pc_diff inst.length) inst.imm),
     X86I.mov_rax_imm (pc_diff % M64),
     X86I.cmovcc (if rs2 ≠ 0 ∨ rs1 = rs2 then cc else ccSwap cc),
     X86I.add_pc_rax, X86I.pop_rbp, X86I.ret]

/-! Block-level graph analysis (ir/analysis Block), over the Value-style
graph with stored use lists.  Nodes carry opcode, operand values, per-
output use lists and the Paired mate pointer.  The operand mutators
maintaining the use lists are declared in ir/node.h but implemented
outside src/; they are modelled from the spec (section 3, Lifecycle and
invariant 1): linking appends the user to each referenced value's use
list, unlinking removes it symmetrically. -/

/-- Opcodes relevant to the block analysis: the control-flow subset of
ir/node.h plus a stand-in for any non-control node (memory chain nodes
and pure nodes, whose identity the analysis never inspects). -/
inductive GOp : Type where
  | entry
  | exit
  | block
  | jmp
  | i_if
  | if_true
  | if_false
  | effect
deriving DecidableEq, Repr

/-- Node of the analysed graph. -/
structure GNode : Type where
  op : GOp
  operands : List (Nat × Nat)
  refs : List (List Nat)
  mate : Option Nat
deriving DecidableEq, Repr

/-- Analysed graph: node heap plus the distinguished exit node. -/
structure KGraph : Type where
  nodes : List GNode
  exitIdx : Nat
deriving DecidableEq, Repr

/-- Default node for out-of-range access. -/
def defaultGNode : GNode := ⟨.effect, [], [], Option.none⟩

/-- Node lookup. -/
def getN (g : KGraph) (i : Nat) : GNode := g.nodes.getD i defaultGNode

/-- Use list of a value (Value::references). -/
def refsAt (g : KGraph) (v : Nat × Nat) : List Nat :=
  (getN g v.1).refs.getD v.2 []

/-- Use count of a value. -/
def refCount (g : KGraph) (v : Nat × Nat) : Nat := (refsAt g v).length

/-- Replace the node at an index by a transformed copy. -/
def setNode (g : KGraph) (i : Nat) (f : GNode → GNode) : KGraph :=
  { g with nodes := g.nodes.set i (f (getN g i)) }

/-- Append a user to a value's use list. -/
def refAdd (g : KGraph) (v : Nat × Nat) (user : Nat) : KGraph :=
  setNode g v.1 (fun nd => { nd with refs := nd.refs.set v.2 (nd.refs.getD v.2 [] ++ [user]) })

/-- Remove one occurrence of a user from a value's use list. -/
def refRemove (g : KGraph) (v : Nat × Nat) (user : Nat) : KGraph :=
  setNode g v.1 (fun nd => { nd with refs := nd.refs.set v.2 ((nd.refs.getD v.2 []).erase user) })

/-- Node::operand_set: rewrite one operand slot, maintaining use lists. -/
def operand_set (g : KGraph) (n i : Nat) (v : Nat × Nat) : KGraph :=
  let old := (getN g n).operands.getD i (0, 0)
  if old = v then g
  else
    let g1 := refRemove g old n
    let g2 := refAdd g1 v n
    setNode g2 n (fun nd => { nd with operands := nd.operands.set i v })

/-- Node::operand_add: append an operand, maintaining use lists. -/
def operand_add (g : KGraph) (n : Nat) (v : Nat × Nat) : KGraph :=
  let g1 := refAdd g v n
  setNode g1 n (fun nd => { nd with operands := nd.operands ++ [v] })

/-- Node::operands(vector): replace the whole operand list, maintaining
use lists. -/
def operands_set (g : KGraph) (n : Nat) (newOps : List (Nat × Nat)) : KGraph :=
  let olds := (getN g n).operands
  let g1 := olds.foldl (fun h o => refRemove h o n) g
  let g2 := newOps.foldl (fun h o => refAdd h o n) g1
  setNode g2 n (fun nd => { nd with operands := newOps })

/-- Pass::replace, modelled from the spec (section 4.3): every use site
of the old value is rewritten to the new value, and the use lists move
with them, maintaining the coherence invariant. -/
def passReplace (g : KGraph) (oldv newv : Nat × Nat) : KGraph :=
  if oldv = newv then g
  else
    let movedRefs := refsAt g oldv
    let g1 : KGraph :=
      { g with
        nodes := g.nodes.map (fun nd =>
          { nd with operands := nd.operands.map (fun o => if o = oldv then newv else o) }) }
    let g2 := setNode g1 oldv.1 (fun nd => { nd with refs := nd.refs.set oldv.2 [] })
    setNode g2 newv.1 (fun nd =>
      { nd with refs := nd.refs.set newv.2 (nd.refs.getD newv.2 [] ++ movedRefs) })

/-- Set the Paired mate pointer. -/
def setMate (g : KGraph) (n m : Nat) : KGraph :=
  setNode g n (fun nd => { nd with mate := some m })

/-- Block::get_target: under the control-linearity invariant a control
value has one or two users; with two, the exit keepalive user is
skipped. -/
def getTarget (g : KGraph) (v : Nat × Nat) : Option Nat :=
  let refs := refsAt g v
  if refs.length = 1 ∨ refs.length = 2 then
    refs.find? (fun r => !(refs.length == 2 && (getN g r).op == GOp.exit))
  else Option.none

/-- Collect the mates of a node list's operands, skipping entry operands;
nothing if some non-entry operand has no mate (the source would follow a
garbage Paired pointer there). -/
def matesOf (g : KGraph) (ops : List (Nat × Nat)) : Option (List Nat) :=
  ops.foldr
    (fun o acc =>
      match acc with
      | Option.none => Option.none
      | some l =>
          if (getN g o.1).op == GOp.entry then some l
          else
            match (getN g o.1).mate with
            | some m => some (m :: l)
            | Option.none => Option.none)
    (some [])

/-- The worklist walk of Block::update_keepalive: pop a block, erase it
from the unseen list, push the mates of its non-entry operands.  Fuelled;
kaBfsFuel always suffices. -/
def kaBfs (g : KGraph) : Nat → List Nat → List Nat → Option (List Nat)
  | 0, _, _ => Option.none
  | _ + 1, [], unseen => some unseen
  | fuel + 1, n :: rest, unseen =>
      if n ∈ unseen then
        match matesOf g (getN g n).operands with
        | Option.none => Option.none
        | some pushes => kaBfs g fuel (rest ++ pushes) (unseen.erase n)
      else kaBfs g fuel rest unseen

/-- Largest operand count in the graph. -/
def maxOps (g : KGraph) : Nat :=
  g.nodes.foldr (fun nd acc => max nd.operands.length acc) 0

/-- Sufficient fuel for kaBfs: every pop consumes fuel, and pushes only
happen on the at most unseen.length pops that erase a block. -/
def kaBfsFuel (g : KGraph) (q unseen : List Nat) : Nat :=
  q.length + (unseen.length + 1) * (maxOps g + 1) + 1

/-- Keepalive-insertion rounds of Block::update_keepalive: while blocks
remain unseen, add a keepalive edge from exit to the jmp terminator of
the latest unseen block that has one, then walk from it.  Nothing when no
unseen block ends in a jmp (the source asserts). -/
def kaRounds (g : KGraph) : Nat → List Nat → Option KGraph
  | 0, _ => Option.none
  | fuel + 1, unseen =>
      if unseen.isEmpty then some g
      else
        match unseen.reverse.find? (fun b =>
            match (getN g b).mate with
            | some t => (getN g t).op == GOp.jmp
            | Option.none => false) with
        | Option.none => Option.none
        | some b =>
            match (getN g b).mate with
            | Option.none => Option.none
            | some t =>
                let g1 := operand_add g g.exitIdx (t, 0)
                match kaBfs g1 (kaBfsFuel g1 [b] unseen) [b] unseen with
                | Option.none => Option.none
                | some u2 => kaRounds g1 fuel u2

/-- Block::update_keepalive: seed the walk with the mates of exit's
non-keepalive operands (a keepalive operand is one whose value has use
count 2), remove the existing keepalive edges, walk, and insert keepalive
edges until every enumerated block has been seen. -/
def update_keepalive (g : KGraph) (blocks : List Nat) : Option KGraph :=
  let exOps := (getN g g.exitIdx).operands
  match exOps.foldr
      (fun o acc =>
        match acc with
        | Option.none => Option.none
        | some q =>
            if refCount g o = 2 then some q
            else if (getN g o.1).op == GOp.entry then Option.none
            else
              match (getN g o.1).mate with
              | some m => some (m :: q)
              | Option.none => Option.none)
      (some []) with
  | Option.none => Option.none
  | some q0 =>
      let g1 :=
        if exOps.any (fun o => refCount g o == 2) then
          operands_set g g.exitIdx (exOps.filter (fun o => !(refCount g o == 2)))
        else g
      match kaBfs g1 (kaBfsFuel g1 q0 blocks) q0 blocks with
      | Option.none => Option.none
      | some u1 => kaRounds g1 (u1.length + 1) u1

/-- A block is reachable from exit: its terminator's value is an exit
operand, or it is the target of a walk step from a reachable block
through a non-entry operand's mate. -/
inductive ReachExit (g : KGraph) : Nat → Prop where
  | ofExit (v : Nat × Nat) (b : Nat) (hv : v ∈ (getN g g.exitIdx).operands)
      (hb : (getN g v.1).mate = some b) : ReachExit g b
  | step (b bq : Nat) (o : Nat × Nat) (hb : ReachExit g b)
      (ho : o ∈ (getN g b).operands) (hop : (getN g o.1).op ≠ GOp.entry)
      (hm : (getN g o.1).mate = some bq) : ReachExit g bq

/-- The rewriting loop of Block::simplify_graph over the enumerated block
list: fold an empty single-predecessor single-successor block, or merge a
block into its sole predecessor.  Fuelled; blocks.length + 1 - i always
suffices.  Nothing models following a garbage mate pointer. -/
def simplifyLoop (g : KGraph) (blocks : List Nat) (i : Nat) :
    Nat → Option (KGraph × List Nat)
  | 0 => Option.none
  | fuel + 1 =>
      if i < blocks.length then
        let b := blocks.getD i 0
        let blockN := getN g b
        match blockN.mate with
        | Option.none => Option.none
        | some e =>
            let endN := getN g e
            if blockN.operands.length = 1 ∧ endN.op = GOp.jmp ∧ refCount g (e, 0) = 1 ∧
                endN.operands.getD 0 (0, 0) = (b, 0) then
              let g1 := passReplace g (e, 0) (blockN.operands.getD 0 (0, 0))
              let g2 := operand_set g1 b 0 (e, 0)
              simplifyLoop g2 (blocks.eraseIdx i) i fuel
            else if blockN.operands.length = 1 ∧
                (getN g (blockN.operands.getD 0 (0, 0)).1).op = GOp.jmp ∧
                refCount g (blockN.operands.getD 0 (0, 0)) = 1 then
              let pj := (blockN.operands.getD 0 (0, 0)).1
              match (getN g pj).mate with
              | Option.none => Option.none
              | some pb =>
                  let g1 := passReplace g (b, 0) ((getN g pj).operands.getD 0 (0, 0))
                  let g2 := setMate g1 e pb
                  let g3 := setMate g2 pb e
                  simplifyLoop g3 (blocks.eraseIdx i) i fuel
            else simplifyLoop g blocks (i + 1) fuel
      else some (g, blocks)

/-- Block::simplify_graph. -/
def simplify_graph (g : KGraph) (blocks : List Nat) : Option (KGraph × List Nat) :=
  simplifyLoop g blocks 0 (blocks.length + 1)

/-- Coherence check (spec section 8 property 1): every operand edge is in
range and its multiplicity in the user's operand list equals the user's
multiplicity in the value's use list; use lists only name in-range
nodes. -/
def coherentB (g : KGraph) : Bool :=
  (List.range g.nodes.length).all (fun n =>
    (getN g n).operands.all (fun v =>
      decide (v.1 < g.nodes.length) && decide (v.2 < (getN g v.1).refs.length)) &&
    (getN g n).refs.all (fun l => l.all (fun u => decide (u < g.nodes.length))) &&
    (List.range g.nodes.length).all (fun m =>
      (List.range (getN g m).refs.length).all (fun k =>
        decide ((getN g n).operands.count (m, k) = ((getN g m).refs.getD k []).count n))))

/-- Block/terminator pairing check (spec section 3 invariant 5): every
enumerated block is a block node mated to a jmp or if terminator whose
mate is the block. -/
def pairInvB (g : KGraph) (blocks : List Nat) : Bool :=
  blocks.all (fun b =>
    (getN g b).op == GOp.block &&
    match (getN g b).mate with
    | some t =>
        ((getN g t).op == GOp.jmp || (getN g t).op == GOp.i_if) &&
        ((getN g t).mate == some b)
    | Option.none => false)

/-- Operand/use coherence as a proposition (the contents of coherentB):
operand edges are in range, use lists name in-range nodes, and operand
multiplicity equals use multiplicity. -/
def Coherent (g : KGraph) : Prop :=
  ∀ n, n < g.nodes.length →
    (∀ v ∈ (getN g n).operands,
      v.1 < g.nodes.length ∧ v.2 < (getN g v.1).refs.length) ∧
    (∀ l ∈ (getN g n).refs, ∀ u ∈ l, u < g.nodes.length) ∧
    ∀ m, m < g.nodes.length → ∀ k, k < (getN g m).refs.length →
      (getN g n).operands.count (m, k) = ((getN g m).refs.getD k []).count n

/-- Block/terminator pairing as a proposition (the contents of
pairInvB). -/
def PairInv (g : KGraph) (blocks : List Nat) : Prop :=
  ∀ b ∈ blocks, (getN g b).op = GOp.block ∧
    ∃ t, (getN g b).mate = some t ∧
      ((getN g t).op = GOp.jmp ∨ (getN g t).op = GOp.i_if) ∧
      (getN g t).mate = some b

/-- Every jmp value consumed by an enumerated block belongs to a proper
block/terminator pair: its node is mated to a block node mated back. -/
def PredPair (g : KGraph) (blocks : List Nat) : Prop :=
  ∀ bq ∈ blocks, ∀ o ∈ (getN g bq).operands, (getN g o.1).op = GOp.jmp →
    ∀ pbq, (getN g o.1).mate = some pbq →
      (getN g pbq).op = GOp.block ∧ (getN g pbq).mate = some o.1

/-- Control edges out of jmp terminators are consumed only by block or
exit nodes (the successor-block edge and keepalive edges). -/
def ControlEdges (g : KGraph) : Prop :=
  ∀ n, ∀ o ∈ (getN g n).operands, (getN g o.1).op = GOp.jmp →
    (getN g n).op = GOp.block ∨ (getN g n).op = GOp.exit

/-- Structural shape of jmp nodes: at least one operand (the consumed
control chain) and a single produced value. -/
def JmpWf (g : KGraph) : Prop :=
  ∀ n, (getN g n).op = GOp.jmp →
    (getN g n).operands ≠ [] ∧ (getN g n).refs.length ≤ 1

/-- Bool checker for PredPair. -/
def predPairB (g : KGraph) (blocks : List Nat) : Bool :=
  blocks.all (fun bq =>
    (getN g bq).operands.all (fun o =>
      !((getN g o.1).op == GOp.jmp) ||
      match (getN g o.1).mate with
      | some pbq =>
          ((getN g pbq).op == GOp.block) && ((getN g pbq).mate == some o.1)
      | Option.none => true))

/-- Bool checker for ControlEdges. -/
def controlEdgesB (g : KGraph) : Bool :=
  (List.range g.nodes.length).all (fun n =>
    (getN g n).operands.all (fun o =>
      !((getN g o.1).op == GOp.jmp) ||
      ((getN g n).op == GOp.block || (getN g n).op == GOp.exit)))

/-- Bool checker for JmpWf. -/
def jmpWfB (g : KGraph) : Bool :=
  (List.range g.nodes.length).all (fun n =>
    !((getN g n).op == GOp.jmp) ||
    (!(getN g n).operands.isEmpty && decide ((getN g n).refs.length ≤ 1)))

/-- Monotone graph evolution as performed by the keepalive-insertion
rounds: same shape, same ops and mates, operand lists only appended to
(only the exit node ever gains keepalive operands). -/
def KMono (g h : KGraph) : Prop :=
  g.exitIdx = h.exitIdx ∧ g.nodes.length = h.nodes.length ∧
  ∀ n, (getN g n).op = (getN h n).op ∧ (getN g n).mate = (getN h n).mate ∧
    ∃ ext, (getN h n).operands = (getN g n).operands ++ ext

/-- Invariant package carried through the simplify_graph loop: coherence,
a duplicate-free block list, block/terminator pairing, predecessor
pairing for consumed jmp values, control edges consumed only by block or
exit nodes, and structural shape of jmp nodes. -/
def SGInv (g : KGraph) (blocks : List Nat) : Prop :=
  Coherent g ∧ blocks.Nodup ∧ PairInv g blocks ∧ PredPair g blocks ∧
    ControlEdges g ∧ JmpWf g

/-! Predicates and concrete inputs used by the statements. -/

/-- References a node makes to earlier nodes: memory dependency and value
operands. -/
def FNode.refsList : FNode → List Nat
  | .constant _ _ => []
  | .cast _ _ o => [o]
  | .load_register d _ => d.toList
  | .store_register d _ v => d.toList ++ [v]
  | .load_memory d _ a => d.toList ++ [a]
  | .store_memory d a v => d.toList ++ [a, v]
  | .arith _ _ l r => [l, r]
  | .shiftN _ _ l r => [l, r]
  | .cmp _ l r => [l, r]
  | .emulate d _ => d.toList
  | .iret d => d.toList

/-- Well-formed emission list: every node only references strictly
earlier nodes. -/
def WfRefs (nodes : List FNode) : Prop :=
  ∀ i n, nodes.get? i = some n → ∀ r ∈ n.refsList, r < i

/-- Invariant carried by the front-end after the block prologue: not
aborted in the part this invariant tracks the chain of, references
decreasing, and the memory chain from the last side-effect ends in the
four prologue side-effect nodes 7, 4, 3, 0 with only per-instruction
nodes (indices at least 8) before them. -/
def ChainInv (s : FState) : Prop :=
  ∃ r l, s.lastSE = some r ∧ r < s.nodes.length ∧ WfRefs s.nodes ∧
    chainFrom s.nodes (r + 1) (some r) = l ++ [7, 4, 3, 0] ∧ ∀ x ∈ l, 8 ≤ x

/-- The eight prologue nodes emitted by Frontend::compile before any
instruction. -/
def prologueNodes (b : BasicBlock) : List FNode :=
  [.load_register Option.none 64,
   .constant Ty.i64 (usub b.end_pc b.start_pc),
   .arith .add Ty.i64 0 1,
   .store_register (some 0) 64 2,
   .load_register (some 3) 65,
   .constant Ty.i64 b.instructions.length,
   .arith .add Ty.i64 4 5,
   .store_register (some 4) 65 6]

/-- Sum of instruction lengths. -/
def sumLen (insts : List RInst) : Nat :=
  insts.foldr (fun i acc => i.length + acc) 0

/-- Running pc_offset after a list of instructions. -/
def offAfter (off : Nat) (insts : List RInst) : Nat :=
  insts.foldl (fun o i => uadd o i.length) off

/-- Front-end state after the prologue and the first i instructions. -/
def compilePrefix (b : BasicBlock) (i : Nat) : FState :=
  compileInsts (compilePrologue b) (usub b.start_pc b.end_pc) 0 (b.instructions.take i)

/-- Load opcodes of the guest ISA. -/
def isLoadOp : ROpcode → Bool
  | .lb => true
  | .lh => true
  | .lw => true
  | .ld => true
  | .lbu => true
  | .lhu => true
  | .lwu => true
  | _ => false

/-- Conditions on a prefix of a block under which translation of the
prefix is abort-free and no per-instruction node writes guest register
64: every opcode is handled, destinations are architectural registers
(below 32), and loads do not target x0. -/
def okPrefix (insts : List RInst) : Prop :=
  ∀ inst ∈ insts, handledOpcode inst.opcode = true ∧ inst.rd < 32 ∧
    (isLoadOp inst.opcode = true → inst.rd ≠ 0)

/-- A node that neither stores to guest register 64 nor is an emulate
node (whose register effect is opaque). -/
def noWrite64 : FNode → Bool
  | .store_register _ k _ => !(k == 64)
  | .emulate _ _ => false
  | _ => true

/-- Abort-free state extension: the second state's emission list extends
the first's by nodes none of which writes guest register 64 (and none of
which is an emulate node), with the aborted flag unchanged.  Every
per-instruction emitter satisfies this relation under the okPrefix
side conditions. -/
def NWext (s t : FState) : Prop :=
  ∃ ext, t.nodes = s.nodes ++ ext ∧ (∀ n ∈ ext, noWrite64 n = true) ∧
    t.aborted = s.aborted

/-- The C3 witness instruction: auipc x3, 4096 (4 bytes long). -/
def instC3 : RInst := ⟨.auipc, 3, 0, 0, 4096, 4⟩

/-- The C3 witness block at guest pc 16: addi x1, x1, 1 followed by
auipc x3, 4096. -/
def blockC3 : BasicBlock := ⟨16, 24, [⟨.addi, 1, 1, 0, 1, 4⟩, instC3]⟩

/-- The C1 failing input: a one-instruction block holding lb x0, 0(x1). -/
def blockC1 : BasicBlock := ⟨0, 4, [⟨.lb, 0, 1, 0, 0, 4⟩]⟩

/-- The S5 scenario block: sw x5, 0(x6) ; sw x7, 0(x6). -/
def blockS5 : BasicBlock := ⟨0, 8, [⟨.sw, 0, 6, 5, 0, 4⟩, ⟨.sw, 0, 6, 7, 0, 4⟩]⟩

/-- The C8 witness graph: entry feeds two blocks; block 1 jumps to exit,
block 2's jmp (node 4) is unreferenced, so update_keepalive must insert a
keepalive edge to it. -/
def keepaliveG : KGraph :=
  ⟨[⟨.entry, [], [[1, 2]], Option.none⟩,
    ⟨.block, [(0, 0)], [[3]], some 3⟩,
    ⟨.block, [(0, 0)], [[4]], some 4⟩,
    ⟨.jmp, [(1, 0)], [[5]], some 1⟩,
    ⟨.jmp, [(2, 0)], [[]], some 2⟩,
    ⟨.exit, [(3, 0)], [], Option.none⟩], 5⟩

/-- Result of update_keepalive on keepaliveG: exit gains the operand
(4, 0). -/
def keepaliveGq : KGraph :=
  ⟨[⟨.entry, [], [[1, 2]], Option.none⟩,
    ⟨.block, [(0, 0)], [[3]], some 3⟩,
    ⟨.block, [(0, 0)], [[4]], some 4⟩,
    ⟨.jmp, [(1, 0)], [[5]], some 1⟩,
    ⟨.jmp, [(2, 0)], [[5]], some 2⟩,
    ⟨.exit, [(3, 0), (4, 0)], [], Option.none⟩], 5⟩

/-- The C9 witness graph: entry, two non-empty blocks in a chain to exit;
block 3 is the sole successor of block 1's jmp, so simplify_graph merges
them. -/
def simplifyG : KGraph :=
  ⟨[⟨.entry, [], [[1]], Option.none⟩,
    ⟨.block, [(0, 0)], [[2]], some 3⟩,
    ⟨.effect, [(1, 0)], [[3]], Option.none⟩,
    ⟨.jmp, [(2, 0)], [[4]], some 1⟩,
    ⟨.block, [(3, 0)], [[5]], some 6⟩,
    ⟨.effect, [(4, 0)], [[6]], Option.none⟩,
    ⟨.jmp, [(5, 0)], [[7]], some 4⟩,
    ⟨.exit, [(6, 0)], [], Option.none⟩], 7⟩

/-- Result of simplify_graph on simplifyG with blocks [1, 4]: block 4 is
merged into block 1, whose terminator becomes node 6. -/
def simplifyGres : KGraph :=
  ⟨[⟨.entry, [], [[1]], Option.none⟩,
    ⟨.block, [(0, 0)], [[2]], some 6⟩,
    ⟨.effect, [(1, 0)], [[3, 5]], Option.none⟩,
    ⟨.jmp, [(2, 0)], [[4]], some 1⟩,
    ⟨.block, [(3, 0)], [[]], some 6⟩,
    ⟨.effect, [(2, 0)], [[6]], Option.none⟩,
    ⟨.jmp, [(5, 0)], [[7]], some 1⟩,
    ⟨.exit, [(6, 0)], [], Option.none⟩], 7⟩

/-! Theorems. -/

/-- Claim C1 (code evidence): on the block holding lb x0, 0(x1) the
front-end emits the address computation and the load_memory node, but
then reaches emit_store_register with rd = 0 and fails its assertion:
translation aborts instead of completing, contradicting the claim that
loads to x0 translate without aborting. -/
theorem c1_load_x0_asserts :
    (compileFE blockC1).aborted = true ∧
    (compileFE blockC1).nodes =
      prologueNodes blockC1 ++
        [.load_register (some 7) 1, .constant Ty.i64 0,
         .arith .add Ty.i64 8 9, .load_memory (some 8) Ty.i8 10] ∧
    (compileFE blockC1).nodes.all
      (fun n => match n with | .store_register _ k _ => !(k == 0) | _ => true) = true := by
  decide

/-- Claim C2 (counterexample): on the S5 block sw x5, 0(x6) ; sw x7,
0(x6), after the front-end, register-access elimination and local value
numbering, the first store_memory (node 13) is still on the memory-effect
chain, so it is false that only the second store_memory remains. -/
theorem c2_counterexample :
    (compileFE blockS5).nodes.get? 13 = some (.store_memory (some 10) 12 9) ∧
    (compileFE blockS5).nodes.get? 19 = some (.store_memory (some 16) 18 15) ∧
    ¬ (13 ∉ rootChain (pipeline blockS5) ∧ 19 ∈ rootChain (pipeline blockS5)) := by
  decide

/-- Claim C2 (amended): on the S5 block, register-access elimination and
local value numbering leave both store_memory nodes on the memory-effect
chain, the second after the first; the passes only forward the redundant
second load_register of x6 and merge the duplicated constants. -/
theorem c2_amended_both_stores_remain :
    rootChain (pipeline blockS5) = [19, 14, 13, 10, 8, 7, 4, 3, 0] ∧
    (pipeline blockS5).get? 13 = some (.store_memory (some 10) 12 9) ∧
    (pipeline blockS5).get? 19 = some (.store_memory (some 14) 12 15) := by
  decide

/-- Claim C5: a guest instruction whose opcode falls outside the handled
set makes the front-end emit exactly one emulate node carrying the
instruction reference; the node consumes the current memory token and
becomes the new last side-effect, and the aborted flag is untouched, so
translation of the block proceeds. -/
theorem c5_default_emulate (s : FState) (off idx : Nat) (inst : RInst)
    (h : handledOpcode inst.opcode = false) :
    compileStep s off idx inst =
      { nodes := s.nodes ++ [.emulate s.lastSE idx],
        lastSE := some s.nodes.length, aborted := s.aborted } := by
  rcases inst with ⟨op, rd, rs1, rs2, imm, len⟩
  cases op <;> simp_all [compileStep, emitN, handledOpcode]

/-- Claim C5 witness: a jal instruction (unhandled by the front-end) from
the initial state emits exactly the emulate node. -/
theorem c5_default_emulate_witness :
    handledOpcode ROpcode.jal = false ∧
    compileStep FState.init 0 0 ⟨.jal, 1, 0, 0, 8, 4⟩ =
      { nodes := [.emulate Option.none 0], lastSE := some 0, aborted := false } :=
  ⟨by decide, c5_default_emulate FState.init 0 0 ⟨.jal, 1, 0, 0, 8, 4⟩ (by decide)⟩

/-- Claim C7: reading guest register rs with rs = 0 yields a constant
zero of the requested type, emitting no load_register and leaving the
side-effect chain unchanged; with rs nonzero a load_register is emitted
and becomes the last side-effect, followed by a truncating cast exactly
when a type narrower than i64 is requested. -/
theorem c7_emit_load_register (s : FState) (ty : Ty) (reg : Nat) :
    (reg = 0 →
      emit_load_register s ty reg =
        ({ s with nodes := s.nodes ++ [.constant ty 0] }, s.nodes.length)) ∧
    (reg ≠ 0 → ty = Ty.i64 →
      emit_load_register s ty reg =
        ({ nodes := s.nodes ++ [.load_register s.lastSE reg],
           lastSE := some s.nodes.length, aborted := s.aborted }, s.nodes.length)) ∧
    (reg ≠ 0 → ty ≠ Ty.i64 →
      emit_load_register s ty reg =
        ({ nodes := s.nodes ++ [.load_register s.lastSE reg, .cast ty false s.nodes.length],
           lastSE := some s.nodes.length, aborted := s.aborted }, s.nodes.length + 1)) := by
  refine ⟨fun h0 => ?_, fun h0 hty => ?_, fun h0 hty => ?_⟩
  · simp [emit_load_register, h0, emitN]
  · simp [emit_load_register, h0, hty, emitN]
  · simp [emit_load_register, h0, hty, emitN]

/-- Claim C7 witness: concrete instances of all three shapes from the
initial state. -/
theorem c7_emit_load_register_witness :
    emit_load_register FState.init Ty.i32 0 =
      ({ nodes := [.constant Ty.i32 0], lastSE := Option.none, aborted := false }, 0) ∧
    emit_load_register FState.init Ty.i64 6 =
      ({ nodes := [.load_register Option.none 6], lastSE := some 0, aborted := false }, 0) ∧
    emit_load_register FState.init Ty.i32 6 =
      ({ nodes := [.load_register Option.none 6, .cast Ty.i32 false 0],
         lastSE := some 0, aborted := false }, 1) :=
  ⟨(c7_emit_load_register FState.init Ty.i32 0).1 rfl,
   ((c7_emit_load_register FState.init Ty.i64 6).2.1 (by decide) rfl),
   ((c7_emit_load_register FState.init Ty.i32 6).2.2 (by decide) (by decide))⟩

/-- Claim C10: in the direct x86 translator, a conditional branch whose
source registers coincide is resolved statically: no comparison is
emitted, and the program counter is advanced by the branch-target offset
exactly for the equal, greater_equal and above_equal condition codes
(beq, bge, bgeu), by the fall-through offset otherwise. -/
theorem c10_branch_same_registers (inst : RInst) (pc_diff : Nat) (cc : CC)
    (h : inst.rs1 = inst.rs2) :
    emit_branch inst pc_diff cc =
      [X86I.add_pc_imm
        (if cc = CC.equal ∨ cc = CC.greater_equal ∨ cc = CC.above_equal
          then uadd (usub pc_diff inst.length) inst.imm else pc_diff % M64),
       X86I.pop_rbp, X86I.ret] ∧
    ∀ x ∈ emit_branch inst pc_diff cc, isCmpInst x = false := by
  have hmain : emit_branch inst pc_diff cc =
      [X86I.add_pc_imm
        (if cc = CC.equal ∨ cc = CC.greater_equal ∨ cc = CC.above_equal
          then uadd (usub pc_diff inst.length) inst.imm else pc_diff % M64),
       X86I.pop_rbp, X86I.ret] := by
    unfold emit_branch
    rw [if_pos h]
    cases cc <;> simp
  refine ⟨hmain, ?_⟩
  rw [hmain]
  intro x hx
  simp only [List.mem_cons, List.not_mem_nil, or_false] at hx
  rcases hx with rfl | rfl | rfl <;> rfl

/-- Claim C10 witness: beq x3, x3 with a 4-byte instruction at block
offset 8 and immediate 0x100 statically takes the branch; bne on the same
registers falls through. -/
theorem c10_branch_same_registers_witness :
    emit_branch ⟨.beq, 0, 3, 3, 256, 4⟩ 8 CC.equal =
      [X86I.add_pc_imm 260, X86I.pop_rbp, X86I.ret] ∧
    emit_branch ⟨.bne, 0, 3, 3, 256, 4⟩ 8 CC.not_equal =
      [X86I.add_pc_imm 8, X86I.pop_rbp, X86I.ret] := by
  refine ⟨?_, ?_⟩
  · have h := (c10_branch_same_registers ⟨.beq, 0, 3, 3, 256, 4⟩ 8 CC.equal rfl).1
    rw [h]
    decide
  · have h := (c10_branch_same_registers ⟨.bne, 0, 3, 3, 256, 4⟩ 8 CC.not_equal rfl).1
    rw [h]
    decide

/-- Claim C6 helper: the value returned by create has the first declared
output type. -/
theorem bvalType_bcreate (g : BGraph) (op : IROpcode) (t : Ty) (ops : List (Nat × Nat)) :
    bvalType (bcreate g op [t] ops).1 (bcreate g op [t] ops).2 = t := by
  simp [bcreate, bvalType, List.getElem?_concat_length]

/-- Claim C6: the builder enforces its per-opcode type preconditions and
otherwise returns a value of the declared type: arithmetic requires equal
operand types and produces that type; shift requires an i8 amount and
produces the left type; compare requires equal operand types and produces
i1; mux requires an i1 condition and equal branch types and produces the
left type.  A violated precondition aborts (returns nothing) rather than
returning a value. -/
theorem c6_builder_type_contract :
    (∀ (g : BGraph) (op : IROpcode) (l r : Nat × Nat),
      (bvalType g l ≠ bvalType g r → builder_arithmetic g op l r = Option.none) ∧
      (∀ gq v, builder_arithmetic g op l r = some (gq, v) →
        bvalType g l = bvalType g r ∧ bvalType gq v = bvalType g l)) ∧
    (∀ (g : BGraph) (op : IROpcode) (l r : Nat × Nat),
      (bvalType g r ≠ Ty.i8 → builder_shift g op l r = Option.none) ∧
      (∀ gq v, builder_shift g op l r = some (gq, v) →
        bvalType g r = Ty.i8 ∧ bvalType gq v = bvalType g l)) ∧
    (∀ (g : BGraph) (op : IROpcode) (l r : Nat × Nat),
      (bvalType g l ≠ bvalType g r → builder_compare g op l r = Option.none) ∧
      (∀ gq v, builder_compare g op l r = some (gq, v) →
        bvalType g l = bvalType g r ∧ bvalType gq v = Ty.i1)) ∧
    (∀ (g : BGraph) (cond l r : Nat × Nat),
      (¬ (bvalType g cond = Ty.i1 ∧ bvalType g l = bvalType g r) →
        builder_mux g cond l r = Option.none) ∧
      (∀ gq v, builder_mux g cond l r = some (gq, v) →
        bvalType g cond = Ty.i1 ∧ bvalType g l = bvalType g r ∧
        bvalType gq v = bvalType g l)) := by
  refine ⟨fun g op l r => ⟨fun hne => ?_, fun gq v hsome => ?_⟩,
          fun g op l r => ⟨fun hne => ?_, fun gq v hsome => ?_⟩,
          fun g op l r => ⟨fun hne => ?_, fun gq v hsome => ?_⟩,
          fun g cond l r => ⟨fun hne => ?_, fun gq v hsome => ?_⟩⟩
  · simp [builder_arithmetic, hne]
  · unfold builder_arithmetic at hsome
    split at hsome
    · rename_i heq
      rcases Option.some.inj hsome with h2
      have h3 := congrArg Prod.fst h2
      have h4 := congrArg Prod.snd h2
      simp only at h3 h4
      subst h3; subst h4
      exact ⟨heq, bvalType_bcreate g op (bvalType g l) [l, r]⟩
    · exact absurd hsome (by simp)
  · simp [builder_shift, hne]
  · unfold builder_shift at hsome
    split at hsome
    · rename_i heq
      have h2 := Option.some.inj hsome
      have h3 := congrArg Prod.fst h2
      have h4 := congrArg Prod.snd h2
      simp only at h3 h4
      subst h3; subst h4
      exact ⟨heq, bvalType_bcreate g op (bvalType g l) [l, r]⟩
    · exact absurd hsome (by simp)
  · simp [builder_compare, hne]
  · unfold builder_compare at hsome
    split at hsome
    · rename_i heq
      have h2 := Option.some.inj hsome
      have h3 := congrArg Prod.fst h2
      have h4 := congrArg Prod.snd h2
      simp only at h3 h4
      subst h3; subst h4
      exact ⟨heq, bvalType_bcreate g op Ty.i1 [l, r]⟩
    · exact absurd hsome (by simp)
  · simp [builder_mux, hne]
  · unfold builder_mux at hsome
    split at hsome
    · rename_i heq
      have h2 := Option.some.inj hsome
      have h3 := congrArg Prod.fst h2
      have h4 := congrArg Prod.snd h2
      simp only at h3 h4
      subst h3; subst h4
      exact ⟨heq.1, heq.2, bvalType_bcreate g IROpcode.mux (bvalType g l) [cond, l, r]⟩
    · exact absurd hsome (by simp)

/-- Claim C6 witness: on a graph of one i64 constant and one i32
constant, arithmetic on matching types succeeds at type i64, and
arithmetic on mismatched types aborts. -/
theorem c6_builder_type_contract_witness :
    builder_arithmetic [BNode.mk .constant [Ty.i64] [], BNode.mk .constant [Ty.i32] []]
      IROpcode.add (0, 0) (1, 0) = Option.none ∧
    (bvalType [BNode.mk .constant [Ty.i64] [], BNode.mk .constant [Ty.i64] []] (0, 0) =
      bvalType [BNode.mk .constant [Ty.i64] [], BNode.mk .constant [Ty.i64] []] (1, 0)) ∧
    bvalType
      (bcreate [BNode.mk .constant [Ty.i64] [], BNode.mk .constant [Ty.i64] []]
        IROpcode.add [Ty.i64] [(0, 0), (1, 0)]).1
      (2, 0) = Ty.i64 := by
  refine ⟨?_, ?_, ?_⟩
  · exact (c6_builder_type_contract.1 [BNode.mk .constant [Ty.i64] [],
      BNode.mk .constant [Ty.i32] []] IROpcode.add (0, 0) (1, 0)).1 (by decide)
  · have := (c6_builder_type_contract.1 [BNode.mk .constant [Ty.i64] [],
      BNode.mk .constant [Ty.i64] []] IROpcode.add (0, 0) (1, 0)).2
      (bcreate [BNode.mk .constant [Ty.i64] [], BNode.mk .constant [Ty.i64] []]
        IROpcode.add [Ty.i64] [(0, 0), (1, 0)]).1 (2, 0)
    exact (this (by decide)).1
  · have := (c6_builder_type_contract.1 [BNode.mk .constant [Ty.i64] [],
      BNode.mk .constant [Ty.i64] []] IROpcode.add (0, 0) (1, 0)).2
      (bcreate [BNode.mk .constant [Ty.i64] [], BNode.mk .constant [Ty.i64] []]
        IROpcode.add [Ty.i64] [(0, 0), (1, 0)]).1 (2, 0)
    have h2 := (this (by decide)).2
    simpa using h2

/-! Infrastructure for the memory-chain invariant (claims C3, C4). -/

theorem emitN_nodes (s : FState) (n : FNode) : (emitN s n).1.nodes = s.nodes ++ [n] := rfl

theorem emitN_lastSE (s : FState) (n : FNode) : (emitN s n).1.lastSE = s.lastSE := rfl

theorem emitN_aborted (s : FState) (n : FNode) : (emitN s n).1.aborted = s.aborted := rfl

theorem emitN_ret (s : FState) (n : FNode) : (emitN s n).2 = s.nodes.length := rfl

theorem dep_mem_refsList (n : FNode) (d : Nat) (h : n.dep = some d) : d ∈ n.refsList := by
  cases n <;> simp_all [FNode.dep, FNode.refsList]

theorem wfRefs_append (l : List FNode) (n : FNode) (hl : WfRefs l)
    (hn : ∀ r ∈ n.refsList, r < l.length) : WfRefs (l ++ [n]) := by
  intro i m hget r hr
  by_cases hi : i < l.length
  · exact hl i m (by rwa [List.get?_append hi] at hget) r hr
  · have hlen : i < l.length + 1 := by
      have := List.get?_eq_some.mp hget
      simpa using this.1
    have hieq : i = l.length := by omega
    subst hieq
    have : (l ++ [n]).get? l.length = some n := by
      simpa using List.getElem?_concat_length l n
    rw [this] at hget
    cases hget
    exact hn r hr

theorem chainFrom_none (nodes : List FNode) (fuel : Nat) :
    chainFrom nodes fuel Option.none = [] := by
  cases fuel <;> rfl

theorem depAt_append (l ext : List FNode) (r : Nat) (h : r < l.length) :
    depAt (l ++ ext) r = depAt l r := by
  have hg : (l ++ ext)[r]? = l[r]? := List.getElem?_append_left h
  simp [depAt, hg]

theorem depAt_concat (l : List FNode) (n : FNode) : depAt (l ++ [n]) l.length = n.dep := by
  have : (l ++ [n]).get? l.length = some n := by
    simpa using List.getElem?_concat_length l n
  simp [depAt, this]

theorem wf_depAt (l : List FNode) (r d : Nat) (h : WfRefs l) (hd : depAt l r = some d) :
    d < r := by
  unfold depAt at hd
  rcases hget : l.get? r with _ | n
  · rw [hget] at hd; cases hd
  · rw [hget] at hd
    exact h r n hget d (dep_mem_refsList n d hd)

theorem chainFrom_append (l ext : List FNode) (h : WfRefs l) :
    ∀ (fuel r : Nat), r < l.length →
      chainFrom (l ++ ext) fuel (some r) = chainFrom l fuel (some r) := by
  intro fuel
  induction fuel with
  | zero => intro r _; rfl
  | succ f ih =>
      intro r hr
      simp only [chainFrom]
      rw [depAt_append l ext r hr]
      rcases hd : depAt l r with _ | d
      · rw [chainFrom_none, chainFrom_none]
      · have hdr : d < r := wf_depAt l r d h hd
        rw [ih d (by omega)]

theorem chainFrom_fuel (l : List FNode) (h : WfRefs l) :
    ∀ (r f : Nat), r < f → chainFrom l f (some r) = chainFrom l (r + 1) (some r) := by
  intro r
  induction r using Nat.strong_induction_on with
  | _ r ih =>
      intro f hf
      rcases f with _ | f
      · omega
      · simp only [chainFrom]
        rcases hd : depAt l r with _ | d
        · rw [chainFrom_none, chainFrom_none]
        · have hdr : d < r := wf_depAt l r d h hd
          rw [ih d hdr f (by omega), ih d hdr r (by omega)]

theorem chain_head_ge (nodes : List FNode) (r : Nat) (li : List Nat)
    (hc : chainFrom nodes (r + 1) (some r) = li ++ [7, 4, 3, 0])
    (hl : ∀ x ∈ li, 8 ≤ x) : 7 ≤ r := by
  simp only [chainFrom] at hc
  rcases li with _ | ⟨a, t⟩
  · simp at hc
    omega
  · have : r = a := by
      have := congrArg List.head? hc
      simpa using this
    subst this
    have := hl r (by simp)
    omega

theorem chainInv_append_keep (s : FState) (n : FNode)
    (hrefs : ∀ r ∈ n.refsList, r < s.nodes.length) (h : ChainInv s) :
    ChainInv (emitN s n).1 := by
  obtain ⟨r, l, hse, hr, hwf, hchain, hl⟩ := h
  refine ⟨r, l, hse, ?_, wfRefs_append s.nodes n hwf hrefs, ?_, hl⟩
  · simp [emitN]; omega
  · show chainFrom (s.nodes ++ [n]) (r + 1) (some r) = l ++ [7, 4, 3, 0]
    rw [chainFrom_append s.nodes [n] hwf (r + 1) r hr]
    exact hchain

theorem chainInv_append_se (s : FState) (n : FNode)
    (hdep : n.dep = s.lastSE) (hrefs : ∀ r ∈ n.refsList, r < s.nodes.length)
    (h : ChainInv s) :
    ChainInv { (emitN s n).1 with lastSE := some s.nodes.length } := by
  obtain ⟨r, l, hse, hr, hwf, hchain, hl⟩ := h
  have h7 : 7 ≤ r := chain_head_ge s.nodes r l hchain hl
  refine ⟨s.nodes.length, s.nodes.length :: l, rfl, ?_,
    wfRefs_append s.nodes n hwf hrefs, ?_, ?_⟩
  · simp [emitN]
  · show chainFrom (s.nodes ++ [n]) (s.nodes.length + 1) (some s.nodes.length)
      = (s.nodes.length :: l) ++ [7, 4, 3, 0]
    simp only [chainFrom]
    rw [depAt_concat s.nodes n, hdep, hse]
    rw [chainFrom_append s.nodes [n] hwf s.nodes.length r hr]
    rw [chainFrom_fuel s.nodes hwf r s.nodes.length hr]
    rw [hchain]
    rfl
  · intro x hx
    rcases List.mem_cons.mp hx with rfl | hx
    · omega
    · exact hl x hx

theorem chainInv_aborted (s : FState) (h : ChainInv s) :
    ChainInv { s with aborted := true } := by
  obtain ⟨r, l, hse, hr, hwf, hchain, hl⟩ := h
  exact ⟨r, l, hse, hr, hwf, hchain, hl⟩

theorem chainInv_lastSE_some (s : FState) (h : ChainInv s) :
    ∃ r, s.lastSE = some r ∧ r < s.nodes.length := by
  obtain ⟨r, _, hse, hr, _, _, _⟩ := h
  exact ⟨r, hse, hr⟩

theorem prefix_emitN (s : FState) (n : FNode) : s.nodes <+: (emitN s n).1.nodes :=
  List.prefix_append _ _

theorem prefix_emit_arith (s : FState) (op : AOp) (l r : Nat) :
    s.nodes <+: (emit_arith s op l r).1.nodes :=
  List.prefix_append _ _

theorem prefix_emit_shiftB (s : FState) (op : SOp) (l r : Nat) :
    s.nodes <+: (emit_shiftB s op l r).1.nodes :=
  List.prefix_append _ _

theorem chainInv_emit_load_register (s : FState) (ty : Ty) (reg : Nat) (h : ChainInv s) :
    ChainInv (emit_load_register s ty reg).1 ∧
    (emit_load_register s ty reg).2 < (emit_load_register s ty reg).1.nodes.length ∧
    s.nodes.length ≤ (emit_load_register s ty reg).1.nodes.length ∧
    s.nodes <+: (emit_load_register s ty reg).1.nodes := by
  obtain ⟨r0, hse0, hr0⟩ := chainInv_lastSE_some s h
  unfold emit_load_register
  by_cases h0 : reg = 0
  · rw [if_pos h0]
    refine ⟨chainInv_append_keep s _ (by simp [FNode.refsList]) h, ?_, ?_,
      prefix_emitN s (FNode.constant ty 0)⟩ <;>
      simp [emitN]
  · rw [if_neg h0]
    have hload : ChainInv { (emitN s (.load_register s.lastSE reg)).1
        with lastSE := some s.nodes.length } := by
      refine chainInv_append_se s _ rfl ?_ h
      intro r hr
      simp only [FNode.refsList, hse0, Option.toList] at hr
      simp at hr
      omega
    by_cases hty : ty ≠ Ty.i64
    · rw [if_pos hty]
      refine ⟨?_, ?_, ?_, ?_⟩
      · refine chainInv_append_keep _ _ ?_ hload
        intro r hr
        simp only [FNode.refsList, List.mem_singleton] at hr
        subst hr
        simp [emitN]
      · simp [emitN]
      · simp [emitN]
      · exact (prefix_emitN s (FNode.load_register s.lastSE reg)).trans
          (prefix_emitN { (emitN s (FNode.load_register s.lastSE reg)).1
            with lastSE := some s.nodes.length }
            (FNode.cast ty false (emitN s (FNode.load_register s.lastSE reg)).2))
    · rw [if_neg hty]
      exact ⟨hload, by simp [emitN], by simp [emitN],
        prefix_emitN s (FNode.load_register s.lastSE reg)⟩

theorem chainInv_emit_store_register (s : FState) (reg value : Nat) (sext : Bool)
    (hv : value < s.nodes.length) (h : ChainInv s) :
    ChainInv (emit_store_register s reg value sext) ∧
    s.nodes <+: (emit_store_register s reg value sext).nodes := by
  obtain ⟨r0, hse0, hr0⟩ := chainInv_lastSE_some s h
  unfold emit_store_register
  by_cases h0 : reg = 0
  · rw [if_pos h0]
    exact ⟨chainInv_aborted s h, List.prefix_refl _⟩
  · rw [if_neg h0]
    by_cases hty : typeAt s.nodes value ≠ Ty.i64
    · rw [if_pos hty]
      have hcast : ChainInv (emitN s (.cast Ty.i64 sext value)).1 :=
        chainInv_append_keep s _ (by simpa [FNode.refsList] using hv) h
      refine ⟨?_, ?_⟩
      · refine chainInv_append_se _ _ rfl ?_ hcast
        intro rr hrr
        simp only [FNode.refsList, emitN_lastSE, emitN_ret, hse0] at hrr
        simp only [emitN_nodes, List.length_append, List.length_singleton]
        simp at hrr
        rcases hrr with rfl | rfl <;> omega
      · exact (prefix_emitN s (FNode.cast Ty.i64 sext value)).trans
          (prefix_emitN (emitN s (FNode.cast Ty.i64 sext value)).1
            (FNode.store_register (emitN s (FNode.cast Ty.i64 sext value)).1.lastSE reg
              (emitN s (FNode.cast Ty.i64 sext value)).2))
    · rw [if_neg hty]
      refine ⟨?_, ?_⟩
      · refine chainInv_append_se _ _ rfl ?_ h
        intro rr hrr
        simp only [FNode.refsList, hse0] at hrr
        simp at hrr
        rcases hrr with rfl | rfl
        · exact hr0
        · exact hv
      · exact prefix_emitN s (FNode.store_register s.lastSE reg value)

theorem chainInv_append_pure2 (s : FState) (n : FNode)
    (hrefs : ∀ r ∈ n.refsList, r < s.nodes.length) (h : ChainInv s) :
    ChainInv (emitN s n).1 ∧ (emitN s n).2 < (emitN s n).1.nodes.length ∧
    s.nodes.length ≤ (emitN s n).1.nodes.length ∧ (emitN s n).1.lastSE = s.lastSE :=
  ⟨chainInv_append_keep s n hrefs h, by simp [emitN], by simp [emitN], rfl⟩

theorem chainInv_emit_arith (s : FState) (op : AOp) (l r : Nat)
    (hl : l < s.nodes.length) (hr : r < s.nodes.length) (h : ChainInv s) :
    ChainInv (emit_arith s op l r).1 ∧
    (emit_arith s op l r).2 < (emit_arith s op l r).1.nodes.length ∧
    s.nodes.length ≤ (emit_arith s op l r).1.nodes.length ∧
    (emit_arith s op l r).1.lastSE = s.lastSE := by
  unfold emit_arith
  refine chainInv_append_pure2 s _ ?_ h
  intro x hx
  simp [FNode.refsList] at hx
  rcases hx with rfl | rfl
  exacts [hl, hr]

theorem chainInv_emit_shiftB (s : FState) (op : SOp) (l r : Nat)
    (hl : l < s.nodes.length) (hr : r < s.nodes.length) (h : ChainInv s) :
    ChainInv (emit_shiftB s op l r).1 ∧
    (emit_shiftB s op l r).2 < (emit_shiftB s op l r).1.nodes.length ∧
    s.nodes.length ≤ (emit_shiftB s op l r).1.nodes.length ∧
    (emit_shiftB s op l r).1.lastSE = s.lastSE := by
  unfold emit_shiftB
  refine chainInv_append_pure2 s _ ?_ h
  intro x hx
  simp [FNode.refsList] at hx
  rcases hx with rfl | rfl
  exacts [hl, hr]

theorem chainInv_emit_cmp (s : FState) (op : COp) (l r : Nat)
    (hl : l < s.nodes.length) (hr : r < s.nodes.length) (h : ChainInv s) :
    ChainInv (emitN s (.cmp op l r)).1 ∧
    (emitN s (.cmp op l r)).2 < (emitN s (.cmp op l r)).1.nodes.length ∧
    s.nodes.length ≤ (emitN s (.cmp op l r)).1.nodes.length ∧
    (emitN s (.cmp op l r)).1.lastSE = s.lastSE := by
  refine chainInv_append_pure2 s _ ?_ h
  intro x hx
  simp [FNode.refsList] at hx
  rcases hx with rfl | rfl
  exacts [hl, hr]

theorem chainInv_emit_load (s : FState) (inst : RInst) (ty : Ty) (sext : Bool)
    (h : ChainInv s) :
    ChainInv (emit_load s inst ty sext) ∧
    s.nodes <+: (emit_load s inst ty sext).nodes := by
  unfold emit_load
  dsimp only
  set s1 := emit_load_register s Ty.i64 inst.rs1 with hs1
  obtain ⟨h1, hret1, hmono1, hpre1⟩ := chainInv_emit_load_register s Ty.i64 inst.rs1 h
  rw [← hs1] at h1 hret1 hmono1 hpre1
  set s2 := emitN s1.1 (FNode.constant Ty.i64 inst.imm) with hs2
  obtain ⟨h2, hret2, hmono2, -⟩ :=
    chainInv_append_pure2 s1.1 (FNode.constant Ty.i64 inst.imm) (by simp [FNode.refsList]) h1
  rw [← hs2] at h2 hret2 hmono2
  set s3 := emit_arith s2.1 AOp.add s1.2 s2.2 with hs3
  obtain ⟨h3, hret3, hmono3, -⟩ :=
    chainInv_emit_arith s2.1 AOp.add s1.2 s2.2 (lt_of_lt_of_le hret1 hmono2) hret2 h2
  rw [← hs3] at h3 hret3 hmono3
  obtain ⟨rl, hsel, hrl⟩ := chainInv_lastSE_some s3.1 h3
  set n4 := FNode.load_memory s3.1.lastSE ty s3.2 with hn4
  set s4p := emitN s3.1 n4 with hs4p
  have h4 : ChainInv { s4p.1 with lastSE := some s3.1.nodes.length } := by
    rw [hs4p]
    refine chainInv_append_se s3.1 n4 rfl ?_ h3
    intro x hx
    rw [hn4] at hx
    simp only [FNode.refsList, hsel] at hx
    simp at hx
    rcases hx with rfl | rfl
    exacts [hrl, hret3]
  have hlen4 : ({ s4p.1 with lastSE := some s3.1.nodes.length } : FState).nodes.length
      = s3.1.nodes.length + 1 := by
    rw [hs4p]; simp [emitN]
  have hv : s4p.2 < ({ s4p.1 with lastSE := some s3.1.nodes.length } : FState).nodes.length := by
    rw [hs4p, hlen4]; simp [emitN]
  obtain ⟨hfin, hpst⟩ :=
    chainInv_emit_store_register { s4p.1 with lastSE := some s3.1.nodes.length }
      inst.rd s4p.2 sext hv h4
  refine ⟨hfin, ?_⟩
  have q2 := hpre1.trans (prefix_emitN s1.1 (FNode.constant Ty.i64 inst.imm))
  rw [← hs2] at q2
  have q3 := q2.trans (prefix_emit_arith s2.1 AOp.add s1.2 s2.2)
  rw [← hs3] at q3
  have q4 := q3.trans (prefix_emitN s3.1 n4)
  rw [← hs4p] at q4
  exact q4.trans hpst

theorem chainInv_emit_store (s : FState) (inst : RInst) (ty : Ty)
    (h : ChainInv s) :
    ChainInv (emit_store s inst ty) ∧
    s.nodes <+: (emit_store s inst ty).nodes := by
  unfold emit_store
  dsimp only
  set s1 := emit_load_register s ty inst.rs2 with hs1
  obtain ⟨h1, hret1, hmono1, hpre1⟩ := chainInv_emit_load_register s ty inst.rs2 h
  rw [← hs1] at h1 hret1 hmono1 hpre1
  set s2 := emit_load_register s1.1 Ty.i64 inst.rs1 with hs2
  obtain ⟨h2, hret2, hmono2, hpre2⟩ := chainInv_emit_load_register s1.1 Ty.i64 inst.rs1 h1
  rw [← hs2] at h2 hret2 hmono2 hpre2
  set s3 := emitN s2.1 (FNode.constant Ty.i64 inst.imm) with hs3
  obtain ⟨h3, hret3, hmono3, -⟩ :=
    chainInv_append_pure2 s2.1 (FNode.constant Ty.i64 inst.imm) (by simp [FNode.refsList]) h2
  rw [← hs3] at h3 hret3 hmono3
  set s4 := emit_arith s3.1 AOp.add s2.2 s3.2 with hs4
  obtain ⟨h4, hret4, hmono4, -⟩ :=
    chainInv_emit_arith s3.1 AOp.add s2.2 s3.2 (lt_of_lt_of_le hret2 hmono3) hret3 h3
  rw [← hs4] at h4 hret4 hmono4
  obtain ⟨rl, hsel, hrl⟩ := chainInv_lastSE_some s4.1 h4
  set n5 := FNode.store_memory s4.1.lastSE s4.2 s1.2 with hn5
  set s5p := emitN s4.1 n5 with hs5p
  have h5 : ChainInv { s5p.1 with lastSE := some s4.1.nodes.length } := by
    rw [hs5p]
    refine chainInv_append_se s4.1 n5 rfl ?_ h4
    intro x hx
    rw [hn5] at hx
    simp only [FNode.refsList, hsel] at hx
    simp at hx
    rcases hx with rfl | rfl | rfl
    · exact hrl
    · exact hret4
    · exact lt_of_lt_of_le hret1 (le_trans hmono2 (le_trans hmono3 hmono4))
  refine ⟨h5, ?_⟩
  have q2 := hpre1.trans hpre2
  have q3 := q2.trans (prefix_emitN s2.1 (FNode.constant Ty.i64 inst.imm))
  rw [← hs3] at q3
  have q4 := q3.trans (prefix_emit_arith s3.1 AOp.add s2.2 s3.2)
  rw [← hs4] at q4
  have q5 := q4.trans (prefix_emitN s4.1 n5)
  rw [← hs5p] at q5
  exact q5

theorem chainInv_emit_alui (s : FState) (inst : RInst) (op : AOp) (w : Bool)
    (h : ChainInv s) :
    ChainInv (emit_alui s inst op w) ∧
    s.nodes <+: (emit_alui s inst op w).nodes := by
  unfold emit_alui
  by_cases hrd : inst.rd = 0
  · rw [if_pos hrd]; exact ⟨h, List.prefix_refl _⟩
  · rw [if_neg hrd]
    dsimp only
    set ty := if w then Ty.i32 else Ty.i64 with hty
    set s1 := emit_load_register s ty inst.rs1 with hs1
    obtain ⟨h1, hret1, hmono1, hpre1⟩ := chainInv_emit_load_register s ty inst.rs1 h
    rw [← hs1] at h1 hret1 hmono1 hpre1
    set s2 := emitN s1.1 (FNode.constant ty inst.imm) with hs2
    obtain ⟨h2, hret2, hmono2, -⟩ :=
      chainInv_append_pure2 s1.1 (FNode.constant ty inst.imm) (by simp [FNode.refsList]) h1
    rw [← hs2] at h2 hret2 hmono2
    set s3 := emit_arith s2.1 op s1.2 s2.2 with hs3
    obtain ⟨h3, hret3, hmono3, -⟩ :=
      chainInv_emit_arith s2.1 op s1.2 s2.2 (lt_of_lt_of_le hret1 hmono2) hret2 h2
    rw [← hs3] at h3 hret3 hmono3
    obtain ⟨hfin, hpst⟩ := chainInv_emit_store_register s3.1 inst.rd s3.2 true hret3 h3
    refine ⟨hfin, ?_⟩
    have q2 := hpre1.trans (prefix_emitN s1.1 (FNode.constant ty inst.imm))
    rw [← hs2] at q2
    have q3 := q2.trans (prefix_emit_arith s2.1 op s1.2 s2.2)
    rw [← hs3] at q3
    exact q3.trans hpst

theorem chainInv_emit_shifti (s : FState) (inst : RInst) (op : SOp) (w : Bool)
    (h : ChainInv s) :
    ChainInv (emit_shifti s inst op w) ∧
    s.nodes <+: (emit_shifti s inst op w).nodes := by
  unfold emit_shifti
  by_cases hrd : inst.rd = 0
  · rw [if_pos hrd]; exact ⟨h, List.prefix_refl _⟩
  · rw [if_neg hrd]
    dsimp only
    set ty := if w then Ty.i32 else Ty.i64 with hty
    set s1 := emit_load_register s ty inst.rs1 with hs1
    obtain ⟨h1, hret1, hmono1, hpre1⟩ := chainInv_emit_load_register s ty inst.rs1 h
    rw [← hs1] at h1 hret1 hmono1 hpre1
    set s2 := emitN s1.1 (FNode.constant Ty.i8 inst.imm) with hs2
    obtain ⟨h2, hret2, hmono2, -⟩ :=
      chainInv_append_pure2 s1.1 (FNode.constant Ty.i8 inst.imm) (by simp [FNode.refsList]) h1
    rw [← hs2] at h2 hret2 hmono2
    set s3 := emit_shiftB s2.1 op s1.2 s2.2 with hs3
    obtain ⟨h3, hret3, hmono3, -⟩ :=
      chainInv_emit_shiftB s2.1 op s1.2 s2.2 (lt_of_lt_of_le hret1 hmono2) hret2 h2
    rw [← hs3] at h3 hret3 hmono3
    obtain ⟨hfin, hpst⟩ := chainInv_emit_store_register s3.1 inst.rd s3.2 true hret3 h3
    refine ⟨hfin, ?_⟩
    have q2 := hpre1.trans (prefix_emitN s1.1 (FNode.constant Ty.i8 inst.imm))
    rw [← hs2] at q2
    have q3 := q2.trans (prefix_emit_shiftB s2.1 op s1.2 s2.2)
    rw [← hs3] at q3
    exact q3.trans hpst

theorem chainInv_emit_slti (s : FState) (inst : RInst) (op : COp)
    (h : ChainInv s) :
    ChainInv (emit_slti s inst op) ∧
    s.nodes <+: (emit_slti s inst op).nodes := by
  unfold emit_slti
  by_cases hrd : inst.rd = 0
  · rw [if_pos hrd]; exact ⟨h, List.prefix_refl _⟩
  · rw [if_neg hrd]
    dsimp only
    set s1 := emit_load_register s Ty.i64 inst.rs1 with hs1
    obtain ⟨h1, hret1, hmono1, hpre1⟩ := chainInv_emit_load_register s Ty.i64 inst.rs1 h
    rw [← hs1] at h1 hret1 hmono1 hpre1
    set s2 := emitN s1.1 (FNode.constant Ty.i64 inst.imm) with hs2
    obtain ⟨h2, hret2, hmono2, -⟩ :=
      chainInv_append_pure2 s1.1 (FNode.constant Ty.i64 inst.imm) (by simp [FNode.refsList]) h1
    rw [← hs2] at h2 hret2 hmono2
    set s3 := emitN s2.1 (FNode.cmp op s1.2 s2.2) with hs3
    obtain ⟨h3, hret3, hmono3, -⟩ :=
      chainInv_emit_cmp s2.1 op s1.2 s2.2 (lt_of_lt_of_le hret1 hmono2) hret2 h2
    rw [← hs3] at h3 hret3 hmono3
    obtain ⟨hfin, hpst⟩ := chainInv_emit_store_register s3.1 inst.rd s3.2 false hret3 h3
    refine ⟨hfin, ?_⟩
    have q2 := hpre1.trans (prefix_emitN s1.1 (FNode.constant Ty.i64 inst.imm))
    rw [← hs2] at q2
    have q3 := q2.trans (prefix_emitN s2.1 (FNode.cmp op s1.2 s2.2))
    rw [← hs3] at q3
    exact q3.trans hpst

theorem chainInv_emit_alu (s : FState) (inst : RInst) (op : AOp) (w : Bool)
    (h : ChainInv s) :
    ChainInv (emit_alu s inst op w) ∧
    s.nodes <+: (emit_alu s inst op w).nodes := by
  unfold emit_alu
  by_cases hrd : inst.rd = 0
  · rw [if_pos hrd]; exact ⟨h, List.prefix_refl _⟩
  · rw [if_neg hrd]
    dsimp only
    set ty := if w then Ty.i32 else Ty.i64 with hty
    set s1 := emit_load_register s ty inst.rs1 with hs1
    obtain ⟨h1, hret1, hmono1, hpre1⟩ := chainInv_emit_load_register s ty inst.rs1 h
    rw [← hs1] at h1 hret1 hmono1 hpre1
    set s2 := emit_load_register s1.1 ty inst.rs2 with hs2
    obtain ⟨h2, hret2, hmono2, hpre2⟩ := chainInv_emit_load_register s1.1 ty inst.rs2 h1
    rw [← hs2] at h2 hret2 hmono2 hpre2
    set s3 := emit_arith s2.1 op s1.2 s2.2 with hs3
    obtain ⟨h3, hret3, hmono3, -⟩ :=
      chainInv_emit_arith s2.1 op s1.2 s2.2 (lt_of_lt_of_le hret1 hmono2) hret2 h2
    rw [← hs3] at h3 hret3 hmono3
    obtain ⟨hfin, hpst⟩ := chainInv_emit_store_register s3.1 inst.rd s3.2 true hret3 h3
    refine ⟨hfin, ?_⟩
    have q2 := hpre1.trans hpre2
    have q3 := q2.trans (prefix_emit_arith s2.1 op s1.2 s2.2)
    rw [← hs3] at q3
    exact q3.trans hpst

theorem chainInv_emit_shift (s : FState) (inst : RInst) (op : SOp) (w : Bool)
    (h : ChainInv s) :
    ChainInv (emit_shift s inst op w) ∧
    s.nodes <+: (emit_shift s inst op w).nodes := by
  unfold emit_shift
  by_cases hrd : inst.rd = 0
  · rw [if_pos hrd]; exact ⟨h, List.prefix_refl _⟩
  · rw [if_neg hrd]
    dsimp only
    set ty := if w then Ty.i32 else Ty.i64 with hty
    set s1 := emit_load_register s ty inst.rs1 with hs1
    obtain ⟨h1, hret1, hmono1, hpre1⟩ := chainInv_emit_load_register s ty inst.rs1 h
    rw [← hs1] at h1 hret1 hmono1 hpre1
    set s2 := emit_load_register s1.1 Ty.i8 inst.rs2 with hs2
    obtain ⟨h2, hret2, hmono2, hpre2⟩ := chainInv_emit_load_register s1.1 Ty.i8 inst.rs2 h1
    rw [← hs2] at h2 hret2 hmono2 hpre2
    set s3 := emit_shiftB s2.1 op s1.2 s2.2 with hs3
    obtain ⟨h3, hret3, hmono3, -⟩ :=
      chainInv_emit_shiftB s2.1 op s1.2 s2.2 (lt_of_lt_of_le hret1 hmono2) hret2 h2
    rw [← hs3] at h3 hret3 hmono3
    obtain ⟨hfin, hpst⟩ := chainInv_emit_store_register s3.1 inst.rd s3.2 true hret3 h3
    refine ⟨hfin, ?_⟩
    have q2 := hpre1.trans hpre2
    have q3 := q2.trans (prefix_emit_shiftB s2.1 op s1.2 s2.2)
    rw [← hs3] at q3
    exact q3.trans hpst

theorem chainInv_emit_slt (s : FState) (inst : RInst) (op : COp)
    (h : ChainInv s) :
    ChainInv (emit_slt s inst op) ∧
    s.nodes <+: (emit_slt s inst op).nodes := by
  unfold emit_slt
  by_cases hrd : inst.rd = 0
  · rw [if_pos hrd]; exact ⟨h, List.prefix_refl _⟩
  · rw [if_neg hrd]
    dsimp only
    set s1 := emit_load_register s Ty.i64 inst.rs1 with hs1
    obtain ⟨h1, hret1, hmono1, hpre1⟩ := chainInv_emit_load_register s Ty.i64 inst.rs1 h
    rw [← hs1] at h1 hret1 hmono1 hpre1
    set s2 := emit_load_register s1.1 Ty.i64 inst.rs2 with hs2
    obtain ⟨h2, hret2, hmono2, hpre2⟩ := chainInv_emit_load_register s1.1 Ty.i64 inst.rs2 h1
    rw [← hs2] at h2 hret2 hmono2 hpre2
    set s3 := emitN s2.1 (FNode.cmp op s1.2 s2.2) with hs3
    obtain ⟨h3, hret3, hmono3, -⟩ :=
      chainInv_emit_cmp s2.1 op s1.2 s2.2 (lt_of_lt_of_le hret1 hmono2) hret2 h2
    rw [← hs3] at h3 hret3 hmono3
    obtain ⟨hfin, hpst⟩ := chainInv_emit_store_register s3.1 inst.rd s3.2 false hret3 h3
    refine ⟨hfin, ?_⟩
    have q2 := hpre1.trans hpre2
    have q3 := q2.trans (prefix_emitN s2.1 (FNode.cmp op s1.2 s2.2))
    rw [← hs3] at q3
    exact q3.trans hpst

theorem chainInv_auipc_pattern (s : FState) (rd cval : Nat) (h : ChainInv s) :
    ChainInv
      (let p1 := emitN s (FNode.load_register s.lastSE 64)
       let p2 := emitN p1.1 (FNode.constant Ty.i64 cval)
       let p3 := emit_arith p2.1 AOp.add p1.2 p2.2
       let p4 := emitN p3.1 (FNode.store_register (some p1.2) rd p3.2)
       { p4.1 with lastSE := some p4.2 }) ∧
    s.nodes <+:
      (let p1 := emitN s (FNode.load_register s.lastSE 64)
       let p2 := emitN p1.1 (FNode.constant Ty.i64 cval)
       let p3 := emit_arith p2.1 AOp.add p1.2 p2.2
       let p4 := emitN p3.1 (FNode.store_register (some p1.2) rd p3.2)
       ({ p4.1 with lastSE := some p4.2 } : FState)).nodes := by
  obtain ⟨r, l, hse, hr, hwf, hchain, hl⟩ := h
  have h7 : 7 ≤ r := chain_head_ge s.nodes r l hchain hl
  dsimp only
  set ld := FNode.load_register s.lastSE 64 with hld
  set cn := FNode.constant Ty.i64 cval with hcn
  have hnodes1 : (emitN s ld).1.nodes = s.nodes ++ [ld] := rfl
  have hlen1 : (emitN s ld).1.nodes.length = s.nodes.length + 1 := by
    rw [hnodes1]; simp
  set an := FNode.arith AOp.add
    (typeAt (emitN (emitN s ld).1 cn).1.nodes (emitN s ld).2) (emitN s ld).2
    (emitN (emitN s ld).1 cn).2 with han
  have hnodes2 : (emitN (emitN s ld).1 cn).1.nodes = s.nodes ++ [ld] ++ [cn] := rfl
  have hlen2 : (emitN (emitN s ld).1 cn).1.nodes.length = s.nodes.length + 2 := by
    rw [hnodes2]; simp
  have harith : emit_arith (emitN (emitN s ld).1 cn).1 AOp.add (emitN s ld).2
      (emitN (emitN s ld).1 cn).2
      = emitN (emitN (emitN s ld).1 cn).1 an := rfl
  rw [harith]
  set st := FNode.store_register (some (emitN s ld).2) rd
    (emitN (emitN (emitN s ld).1 cn).1 an).2 with hst
  have hnodes3 : (emitN (emitN (emitN s ld).1 cn).1 an).1.nodes
      = s.nodes ++ [ld] ++ [cn] ++ [an] := rfl
  have hlen3 : (emitN (emitN (emitN s ld).1 cn).1 an).1.nodes.length = s.nodes.length + 3 := by
    rw [hnodes3]; simp
  have hnodes4 : (emitN (emitN (emitN (emitN s ld).1 cn).1 an).1 st).1.nodes
      = s.nodes ++ [ld] ++ [cn] ++ [an] ++ [st] := rfl
  have hwf1 : WfRefs (s.nodes ++ [ld]) := by
    refine wfRefs_append s.nodes ld hwf ?_
    intro x hx
    rw [hld] at hx
    simp only [FNode.refsList, hse] at hx
    simp at hx
    subst hx
    exact hr
  have hwf2 : WfRefs (s.nodes ++ [ld] ++ [cn]) := by
    refine wfRefs_append _ cn hwf1 ?_
    rw [hcn]
    simp [FNode.refsList]
  have hwf3 : WfRefs (s.nodes ++ [ld] ++ [cn] ++ [an]) := by
    refine wfRefs_append _ an hwf2 ?_
    intro x hx
    rw [han] at hx
    simp only [FNode.refsList] at hx
    simp at hx
    simp only [List.length_append, List.length_singleton]
    rcases hx with rfl | rfl
    · simp only [emitN_ret]; omega
    · simp only [emitN_ret, hlen1]; omega
  have hwf4 : WfRefs (s.nodes ++ [ld] ++ [cn] ++ [an] ++ [st]) := by
    refine wfRefs_append _ st hwf3 ?_
    intro x hx
    rw [hst] at hx
    simp only [FNode.refsList] at hx
    simp at hx
    simp only [List.length_append, List.length_singleton]
    rcases hx with rfl | rfl
    · simp only [emitN_ret]; omega
    · simp only [emitN_ret, hlen2]; omega
  refine ⟨⟨s.nodes.length + 3, (s.nodes.length + 3) :: s.nodes.length :: l, ?_, ?_, ?_, ?_, ?_⟩, ?_⟩
  · show some (emitN (emitN (emitN (emitN s ld).1 cn).1 an).1 st).2 = _
    simp only [emitN_ret, hlen3]
  · show s.nodes.length + 3 <
      (emitN (emitN (emitN (emitN s ld).1 cn).1 an).1 st).1.nodes.length
    rw [hnodes4]; simp
  · show WfRefs (emitN (emitN (emitN (emitN s ld).1 cn).1 an).1 st).1.nodes
    rw [hnodes4]; exact hwf4
  · show chainFrom (emitN (emitN (emitN (emitN s ld).1 cn).1 an).1 st).1.nodes
      (s.nodes.length + 3 + 1) (some (s.nodes.length + 3)) = _
    rw [hnodes4]
    simp only [chainFrom]
    have hdep4 : depAt (s.nodes ++ [ld] ++ [cn] ++ [an] ++ [st]) (s.nodes.length + 3)
        = some s.nodes.length := by
      have hlenA : (s.nodes ++ [ld] ++ [cn] ++ [an]).length = s.nodes.length + 3 := by simp
      have := depAt_concat (s.nodes ++ [ld] ++ [cn] ++ [an]) st
      rw [hlenA] at this
      rw [this, hst]
      simp [FNode.dep, emitN_ret]
    rw [hdep4]
    have hassoc : s.nodes ++ [ld] ++ [cn] ++ [an] ++ [st]
        = (s.nodes ++ [ld]) ++ [cn, an, st] := by simp
    rw [hassoc]
    rw [chainFrom_append (s.nodes ++ [ld]) [cn, an, st] hwf1 (s.nodes.length + 3)
      s.nodes.length (by simp)]
    rw [chainFrom_fuel (s.nodes ++ [ld]) hwf1 s.nodes.length (s.nodes.length + 3) (by omega)]
    simp only [chainFrom]
    rw [depAt_concat s.nodes ld, hld]
    show (s.nodes.length + 3) :: s.nodes.length ::
      chainFrom (s.nodes ++ [ld]) s.nodes.length s.lastSE = _
    rw [hse]
    rw [chainFrom_append s.nodes [ld] hwf s.nodes.length r hr]
    rw [chainFrom_fuel s.nodes hwf r s.nodes.length hr]
    rw [hchain]
    rfl
  · intro x hx
    rcases List.mem_cons.mp hx with rfl | hx
    · omega
    · rcases List.mem_cons.mp hx with rfl | hx
      · omega
      · exact hl x hx
  · show s.nodes <+: (emitN (emitN (emitN (emitN s ld).1 cn).1 an).1 st).1.nodes
    rw [hnodes4]
    exact ⟨[ld] ++ [cn] ++ [an] ++ [st], by simp⟩

theorem chainInv_lui_pattern (s : FState) (rd cval : Nat) (h : ChainInv s) :
    ChainInv
      (let p1 := emitN s (FNode.constant Ty.i64 cval)
       let p2 := emitN p1.1 (FNode.store_register p1.1.lastSE rd p1.2)
       { p2.1 with lastSE := some p2.2 }) ∧
    s.nodes <+:
      (let p1 := emitN s (FNode.constant Ty.i64 cval)
       let p2 := emitN p1.1 (FNode.store_register p1.1.lastSE rd p1.2)
       ({ p2.1 with lastSE := some p2.2 } : FState)).nodes := by
  obtain ⟨r0, hse0, hr0⟩ := chainInv_lastSE_some s h
  dsimp only
  have h1 : ChainInv (emitN s (FNode.constant Ty.i64 cval)).1 :=
    chainInv_append_keep s _ (by simp [FNode.refsList]) h
  constructor
  · refine chainInv_append_se (emitN s (FNode.constant Ty.i64 cval)).1 _ rfl ?_ h1
    intro x hx
    simp only [FNode.refsList, emitN_lastSE, emitN_ret, hse0] at hx
    simp at hx
    have hlen1 : (emitN s (FNode.constant Ty.i64 cval)).1.nodes.length
        = s.nodes.length + 1 := by
      show (s.nodes ++ [FNode.constant Ty.i64 cval]).length = _
      simp
    rcases hx with rfl | rfl
    · rw [hlen1]; omega
    · rw [hlen1]; omega
  · exact (prefix_emitN s (FNode.constant Ty.i64 cval)).trans
      (prefix_emitN (emitN s (FNode.constant Ty.i64 cval)).1
        (FNode.store_register (emitN s (FNode.constant Ty.i64 cval)).1.lastSE rd
          (emitN s (FNode.constant Ty.i64 cval)).2))

theorem chainInv_emulate (s : FState) (idx : Nat) (h : ChainInv s) :
    ChainInv
      (let p := emitN s (FNode.emulate s.lastSE idx)
       { p.1 with lastSE := some p.2 }) ∧
    s.nodes <+:
      (let p := emitN s (FNode.emulate s.lastSE idx)
       ({ p.1 with lastSE := some p.2 } : FState)).nodes := by
  obtain ⟨r0, hse0, hr0⟩ := chainInv_lastSE_some s h
  dsimp only
  constructor
  · refine chainInv_append_se s _ rfl ?_ h
    intro x hx
    simp only [FNode.refsList, hse0] at hx
    simp at hx
    subst hx
    exact hr0
  · exact prefix_emitN s (FNode.emulate s.lastSE idx)

theorem chainInv_compileStep (s : FState) (off idx : Nat) (inst : RInst)
    (h : ChainInv s) :
    ChainInv (compileStep s off idx inst) ∧
    s.nodes <+: (compileStep s off idx inst).nodes := by
  rcases hop : inst.opcode with
      _ | _ | _ | _ | _ | _ | _ | _ | _ | _ | _ | _ | _ | _ | _ | _ | _ | _ | _ | _ |
      _ | _ | _ | _ | _ | _ | _ | _ | _ | _ | _ | _ | _ | _ | _ | _ | _ | _ | _ | _ |
      _ | _ | _ | _ | _ | _ | _ | _ | _ | _ | _
  case auipc =>
    unfold compileStep
    rw [hop]
    dsimp only
    by_cases hrd : inst.rd = 0
    · rw [if_pos hrd]; exact ⟨h, List.prefix_refl _⟩
    · rw [if_neg hrd]
      obtain ⟨hP, hQ⟩ := chainInv_auipc_pattern s inst.rd (uadd off inst.imm) h
      dsimp only at hP hQ
      exact ⟨hP, hQ⟩
  case lui =>
    unfold compileStep
    rw [hop]
    dsimp only
    by_cases hrd : inst.rd = 0
    · rw [if_pos hrd]; exact ⟨h, List.prefix_refl _⟩
    · rw [if_neg hrd]
      obtain ⟨hP, hQ⟩ := chainInv_lui_pattern s inst.rd inst.imm h
      dsimp only at hP hQ
      exact ⟨hP, hQ⟩
  case lb => unfold compileStep; rw [hop]; exact chainInv_emit_load s inst Ty.i8 true h
  case lh => unfold compileStep; rw [hop]; exact chainInv_emit_load s inst Ty.i16 true h
  case lw => unfold compileStep; rw [hop]; exact chainInv_emit_load s inst Ty.i32 true h
  case ld => unfold compileStep; rw [hop]; exact chainInv_emit_load s inst Ty.i64 false h
  case lbu => unfold compileStep; rw [hop]; exact chainInv_emit_load s inst Ty.i8 false h
  case lhu => unfold compileStep; rw [hop]; exact chainInv_emit_load s inst Ty.i16 false h
  case lwu => unfold compileStep; rw [hop]; exact chainInv_emit_load s inst Ty.i32 false h
  case sb => unfold compileStep; rw [hop]; exact chainInv_emit_store s inst Ty.i8 h
  case sh => unfold compileStep; rw [hop]; exact chainInv_emit_store s inst Ty.i16 h
  case sw => unfold compileStep; rw [hop]; exact chainInv_emit_store s inst Ty.i32 h
  case sd => unfold compileStep; rw [hop]; exact chainInv_emit_store s inst Ty.i64 h
  case addi => unfold compileStep; rw [hop]; exact chainInv_emit_alui s inst .add false h
  case slli => unfold compileStep; rw [hop]; exact chainInv_emit_shifti s inst .shl false h
  case slti => unfold compileStep; rw [hop]; exact chainInv_emit_slti s inst .lt h
  case sltiu => unfold compileStep; rw [hop]; exact chainInv_emit_slti s inst .ltu h
  case xori => unfold compileStep; rw [hop]; exact chainInv_emit_alui s inst .i_xor false h
  case srli => unfold compileStep; rw [hop]; exact chainInv_emit_shifti s inst .shr false h
  case srai => unfold compileStep; rw [hop]; exact chainInv_emit_shifti s inst .sar false h
  case ori => unfold compileStep; rw [hop]; exact chainInv_emit_alui s inst .i_or false h
  case andi => unfold compileStep; rw [hop]; exact chainInv_emit_alui s inst .i_and false h
  case addiw => unfold compileStep; rw [hop]; exact chainInv_emit_alui s inst .add true h
  case slliw => unfold compileStep; rw [hop]; exact chainInv_emit_shifti s inst .shl true h
  case srliw => unfold compileStep; rw [hop]; exact chainInv_emit_shifti s inst .shr true h
  case sraiw => unfold compileStep; rw [hop]; exact chainInv_emit_shifti s inst .sar true h
  case add => unfold compileStep; rw [hop]; exact chainInv_emit_alu s inst .add false h
  case sub => unfold compileStep; rw [hop]; exact chainInv_emit_alu s inst .sub false h
  case sll => unfold compileStep; rw [hop]; exact chainInv_emit_shift s inst .shl false h
  case slt => unfold compileStep; rw [hop]; exact chainInv_emit_slt s inst .lt h
  case sltu => unfold compileStep; rw [hop]; exact chainInv_emit_slt s inst .ltu h
  case i_xor => unfold compileStep; rw [hop]; exact chainInv_emit_alu s inst .i_xor false h
  case srl => unfold compileStep; rw [hop]; exact chainInv_emit_shift s inst .shr false h
  case sra => unfold compileStep; rw [hop]; exact chainInv_emit_shift s inst .sar false h
  case i_or => unfold compileStep; rw [hop]; exact chainInv_emit_alu s inst .i_or false h
  case i_and => unfold compileStep; rw [hop]; exact chainInv_emit_alu s inst .i_and false h
  case addw => unfold compileStep; rw [hop]; exact chainInv_emit_alu s inst .add true h
  case subw => unfold compileStep; rw [hop]; exact chainInv_emit_alu s inst .sub true h
  case sllw => unfold compileStep; rw [hop]; exact chainInv_emit_shift s inst .shl true h
  case srlw => unfold compileStep; rw [hop]; exact chainInv_emit_shift s inst .shr true h
  case sraw => unfold compileStep; rw [hop]; exact chainInv_emit_shift s inst .sar true h
  case jal => unfold compileStep; rw [hop]; exact chainInv_emulate s idx h
  case jalr => unfold compileStep; rw [hop]; exact chainInv_emulate s idx h
  case beq => unfold compileStep; rw [hop]; exact chainInv_emulate s idx h
  case bne => unfold compileStep; rw [hop]; exact chainInv_emulate s idx h
  case blt => unfold compileStep; rw [hop]; exact chainInv_emulate s idx h
  case bge => unfold compileStep; rw [hop]; exact chainInv_emulate s idx h
  case bltu => unfold compileStep; rw [hop]; exact chainInv_emulate s idx h
  case bgeu => unfold compileStep; rw [hop]; exact chainInv_emulate s idx h
  case fence_i => unfold compileStep; rw [hop]; exact chainInv_emulate s idx h
  case mul => unfold compileStep; rw [hop]; exact chainInv_emulate s idx h
  case ecall => unfold compileStep; rw [hop]; exact chainInv_emulate s idx h

theorem compilePrologue_eq (b : BasicBlock) :
    compilePrologue b = ⟨prologueNodes b, some 7, false⟩ := rfl

theorem prologue_chain (b : BasicBlock) :
    chainFrom (prologueNodes b) 8 (some 7) = [7, 4, 3, 0] := rfl

theorem prologue_wf (b : BasicBlock) : WfRefs (prologueNodes b) := by
  intro i n hget x hx
  have hlen : i < 8 := by
    have := List.get?_eq_some.mp hget
    simpa [prologueNodes] using this.1
  interval_cases i <;>
    (simp [prologueNodes] at hget; subst hget; simp [FNode.refsList] at hx) <;>
    omega

theorem chainInv_prologue (b : BasicBlock) : ChainInv (compilePrologue b) := by
  rw [compilePrologue_eq]
  refine ⟨7, [], rfl, by simp [prologueNodes], prologue_wf b, ?_, by simp⟩
  exact prologue_chain b

theorem chainInv_compileInsts (insts : List RInst) :
    ∀ (s : FState) (off idx : Nat), ChainInv s →
      ChainInv (compileInsts s off idx insts) ∧
      s.nodes <+: (compileInsts s off idx insts).nodes := by
  induction insts with
  | nil => intro s off idx h; exact ⟨h, List.prefix_refl _⟩
  | cons inst rest ih =>
      intro s off idx h
      show ChainInv (compileInsts (if s.aborted then s else compileStep s off idx inst)
          (uadd off inst.length) (idx + 1) rest) ∧
        s.nodes <+: (compileInsts (if s.aborted then s else compileStep s off idx inst)
          (uadd off inst.length) (idx + 1) rest).nodes
      by_cases hab : s.aborted
      · rw [if_pos hab]
        exact ih s _ _ h
      · rw [if_neg hab]
        obtain ⟨h1, hp1⟩ := chainInv_compileStep s off idx inst h
        obtain ⟨h2, hpre⟩ := ih (compileStep s off idx inst) _ _ h1
        exact ⟨h2, hp1.trans hpre⟩

theorem chainInv_compileFE (b : BasicBlock) :
    ChainInv (compileFE b) ∧ prologueNodes b <+: (compileFE b).nodes := by
  obtain ⟨h1, hpre⟩ :=
    chainInv_compileInsts b.instructions (compilePrologue b)
      (usub b.start_pc b.end_pc) 0 (chainInv_prologue b)
  have hpn : (compilePrologue b).nodes = prologueNodes b := by
    rw [compilePrologue_eq]
  rw [hpn] at hpre
  unfold compileFE
  by_cases hab : (compileInsts (compilePrologue b) (usub b.start_pc b.end_pc) 0
      b.instructions).aborted
  · rw [if_pos hab]
    exact ⟨h1, hpre⟩
  · rw [if_neg hab]
    obtain ⟨r, hse, hr⟩ := chainInv_lastSE_some _ h1
    refine ⟨chainInv_append_keep _ _ ?_ h1, hpre.trans (prefix_emitN _ _)⟩
    intro x hx
    simp only [FNode.refsList, hse] at hx
    simp at hx
    subst hx
    exact hr

/-- Claim C4: for every basic block the front-end first emits the eight
prologue nodes: a load of guest register 64 (the pc), a constant
end_pc - start_pc, their sum and the store back to register 64, then the
same load/add/store around register 65 (instret) with the instruction
count, all chained through the running side-effect token; and the memory
chain read back from the final last-side-effect ends in exactly these
four side-effecting nodes (indices 7, 4, 3, 0), every other chain entry
being a per-instruction node of index at least 8. -/
theorem c4_prologue_first_on_chain (b : BasicBlock) :
    (compileFE b).nodes.take 8 = prologueNodes b ∧
    ∃ r li, (compileFE b).lastSE = some r ∧
      chainFrom (compileFE b).nodes (compileFE b).nodes.length (some r)
        = li ++ [7, 4, 3, 0] ∧ ∀ x ∈ li, 8 ≤ x := by
  obtain ⟨⟨r, li, hse, hr, hwf, hchain, hli⟩, hpre⟩ := chainInv_compileFE b
  constructor
  · have := List.prefix_iff_eq_take.mp hpre
    have hlen : (prologueNodes b).length = 8 := by simp [prologueNodes]
    rw [hlen] at this
    exact this.symm
  · refine ⟨r, li, hse, ?_, hli⟩
    rw [chainFrom_fuel (compileFE b).nodes hwf r (compileFE b).nodes.length hr]
    exact hchain

/-! Arithmetic helpers for uint64 wrap-around reasoning. -/

theorem M64_pos : 0 < M64 := Nat.two_pow_pos 64

theorem mod_lt64 (a : Nat) : a % M64 < M64 := Nat.mod_lt _ M64_pos

theorem uadd_lt (a b : Nat) : uadd a b < M64 := mod_lt64 _

theorem usub_lt (a b : Nat) : usub a b < M64 := mod_lt64 _

theorem addMod_right (a b : Nat) : (a + b % M64) % M64 = (a + b) % M64 := by
  conv_lhs => rw [Nat.add_mod]
  conv_rhs => rw [Nat.add_mod]
  rw [Nat.mod_mod_of_dvd _ dvd_rfl]

theorem addMod_left (a b : Nat) : (a % M64 + b) % M64 = (a + b) % M64 := by
  conv_lhs => rw [Nat.add_mod]
  conv_rhs => rw [Nat.add_mod]
  rw [Nat.mod_mod_of_dvd _ dvd_rfl]

/-- The uint64 identity behind the pc advance: adding back the wrapped
difference usub b a to a recovers b modulo 2^64. -/
theorem add_usub (a b : Nat) : (a % M64 + usub b a) % M64 = b % M64 := by
  unfold usub
  rw [addMod_right]
  have h1 : a % M64 < M64 := mod_lt64 a
  have h2 : a % M64 + (b + M64 - a % M64) = b + M64 := by omega
  rw [h2]
  exact Nat.add_mod_right b M64

theorem truncTo_i64 (v : Nat) : truncTo Ty.i64 v = v % M64 := rfl

/-- Closed form of the running pc_offset accumulator. -/
theorem offAfter_eq (l : List RInst) :
    ∀ off, off < M64 → offAfter off l = (off + sumLen l) % M64 := by
  induction l with
  | nil =>
      intro off h
      show off = (off + 0) % M64
      rw [Nat.add_zero, Nat.mod_eq_of_lt h]
  | cons a t ih =>
      intro off h
      show offAfter (uadd off a.length) t = _
      rw [ih _ (uadd_lt _ _)]
      unfold uadd
      rw [addMod_left]
      congr 1
      show off + a.length + sumLen t = off + (a.length + sumLen t)
      omega

/-! List indexing helpers. -/

theorem getD_at_len {α : Type} (l : List α) (a : α) (t : List α) (d : α) :
    (l ++ a :: t).getD l.length d = a := by
  rw [List.getD_eq_getElem?_getD, List.getElem?_append_right (le_refl _)]
  simp

theorem getD_at_len1 {α : Type} (l : List α) (a b : α) (t : List α) (d : α) :
    (l ++ a :: b :: t).getD (l.length + 1) d = b := by
  have h : l ++ a :: b :: t = (l ++ [a]) ++ b :: t := by simp
  have h2 : l.length + 1 = (l ++ [a]).length := by simp
  rw [h, h2, getD_at_len]

theorem getD_at_len2 {α : Type} (l : List α) (a b c : α) (t : List α) (d : α) :
    (l ++ a :: b :: c :: t).getD (l.length + 2) d = c := by
  have h : l ++ a :: b :: c :: t = (l ++ [a, b]) ++ c :: t := by simp
  have h2 : l.length + 2 = (l ++ [a, b]).length := by simp
  rw [h, h2, getD_at_len]

theorem get?_middle {α : Type} (l m t : List α) (k : Nat) (hk : k < m.length) :
    ((l ++ m) ++ t).get? (l.length + k) = m.get? k := by
  rw [List.get?_eq_getElem?, List.getElem?_append_left (by simp; omega),
    List.getElem?_append_right (by omega)]
  simp

/-! Basic facts about the NWext relation and the emitters. -/

theorem NWext.refl (s : FState) : NWext s s :=
  ⟨[], by simp, by simp, rfl⟩

theorem NWext.trans {s t u : FState} (h1 : NWext s t) (h2 : NWext t u) :
    NWext s u := by
  obtain ⟨e1, hn1, hw1, ha1⟩ := h1
  obtain ⟨e2, hn2, hw2, ha2⟩ := h2
  refine ⟨e1 ++ e2, ?_, ?_, ha2.trans ha1⟩
  · rw [hn2, hn1, List.append_assoc]
  · intro n hn
    rcases List.mem_append.mp hn with h | h
    exacts [hw1 n h, hw2 n h]

theorem NWext_emitN (s : FState) (n : FNode) (h : noWrite64 n = true) :
    NWext s (emitN s n).1 :=
  ⟨[n], rfl, by intro x hx; simp at hx; subst hx; exact h, rfl⟩

theorem NWext_setSE (s t : FState) (x : Option Nat) (h : NWext s t) :
    NWext s { t with lastSE := x } := by
  obtain ⟨e, hn, hw, ha⟩ := h
  exact ⟨e, hn, hw, ha⟩

/-- Branch equations of emit_load_register (helper form of the C7
analysis, shared by the downstream proofs). -/
theorem elr_eq (s : FState) (ty : Ty) (reg : Nat) :
    (reg = 0 →
      emit_load_register s ty reg =
        ({ s with nodes := s.nodes ++ [.constant ty 0] }, s.nodes.length)) ∧
    (reg ≠ 0 → ty = Ty.i64 →
      emit_load_register s ty reg =
        ({ nodes := s.nodes ++ [.load_register s.lastSE reg],
           lastSE := some s.nodes.length, aborted := s.aborted }, s.nodes.length)) ∧
    (reg ≠ 0 → ty ≠ Ty.i64 →
      emit_load_register s ty reg =
        ({ nodes := s.nodes ++ [.load_register s.lastSE reg, .cast ty false s.nodes.length],
           lastSE := some s.nodes.length, aborted := s.aborted }, s.nodes.length + 1)) := by
  refine ⟨fun h0 => ?_, fun h0 hty => ?_, fun h0 hty => ?_⟩
  · simp [emit_load_register, h0, emitN]
  · simp [emit_load_register, h0, hty, emitN]
  · simp [emit_load_register, h0, hty, emitN]

/-- Branch equations of emit_store_register for a nonzero register. -/
theorem esr_eq (s : FState) (reg value : Nat) (sext : Bool) (h0 : reg ≠ 0) :
    (typeAt s.nodes value = Ty.i64 →
      emit_store_register s reg value sext =
        { nodes := s.nodes ++ [.store_register s.lastSE reg value],
          lastSE := some s.nodes.length, aborted := s.aborted }) ∧
    (typeAt s.nodes value ≠ Ty.i64 →
      emit_store_register s reg value sext =
        { nodes := s.nodes ++ [.cast Ty.i64 sext value,
            .store_register s.lastSE reg s.nodes.length],
          lastSE := some (s.nodes.length + 1), aborted := s.aborted }) := by
  refine ⟨fun hty => ?_, fun hty => ?_⟩
  · simp [emit_store_register, h0, hty, emitN]
  · simp [emit_store_register, h0, hty, emitN]

theorem NWext_elr (s : FState) (ty : Ty) (reg : Nat) :
    NWext s (emit_load_register s ty reg).1 := by
  by_cases h0 : reg = 0
  · rw [(elr_eq s ty reg).1 h0]
    exact ⟨[.constant ty 0], rfl, by intro n hn; simp at hn; subst hn; rfl, rfl⟩
  · by_cases hty : ty = Ty.i64
    · rw [(elr_eq s ty reg).2.1 h0 hty]
      exact ⟨[.load_register s.lastSE reg], rfl,
        by intro n hn; simp at hn; subst hn; rfl, rfl⟩
    · rw [(elr_eq s ty reg).2.2 h0 hty]
      refine ⟨[.load_register s.lastSE reg, .cast ty false s.nodes.length], rfl, ?_, rfl⟩
      intro n hn
      simp only [List.mem_cons, List.not_mem_nil, or_false] at hn
      rcases hn with rfl | rfl <;> rfl

theorem NWext_esr (s : FState) (reg value : Nat) (sext : Bool)
    (h0 : reg ≠ 0) (h32 : reg < 32) :
    NWext s (emit_store_register s reg value sext) := by
  have hreg : noWrite64 (FNode.store_register s.lastSE reg value) = true := by
    simp [noWrite64]; omega
  by_cases hty : typeAt s.nodes value = Ty.i64
  · rw [(esr_eq s reg value sext h0).1 hty]
    exact ⟨[.store_register s.lastSE reg value], rfl,
      by intro n hn; simp at hn; subst hn; simp [noWrite64]; omega, rfl⟩
  · rw [(esr_eq s reg value sext h0).2 hty]
    refine ⟨[.cast Ty.i64 sext value, .store_register s.lastSE reg s.nodes.length],
      rfl, ?_, rfl⟩
    intro n hn
    simp only [List.mem_cons, List.not_mem_nil, or_false] at hn
    rcases hn with rfl | rfl
    · rfl
    · simp [noWrite64]; omega

theorem NWext_emit_arith (s : FState) (op : AOp) (l r : Nat) :
    NWext s (emit_arith s op l r).1 :=
  NWext_emitN s _ rfl

theorem NWext_emit_shiftB (s : FState) (op : SOp) (l r : Nat) :
    NWext s (emit_shiftB s op l r).1 :=
  NWext_emitN s _ rfl

theorem NWext_emit_load (s : FState) (inst : RInst) (ty : Ty) (sext : Bool)
    (hrd : inst.rd ≠ 0) (h32 : inst.rd < 32) :
    NWext s (emit_load s inst ty sext) := by
  unfold emit_load
  dsimp only
  set s1 := emit_load_register s Ty.i64 inst.rs1 with hs1
  have h1 : NWext s s1.1 := by rw [hs1]; exact NWext_elr s Ty.i64 inst.rs1
  set s2 := emitN s1.1 (FNode.constant Ty.i64 inst.imm) with hs2
  have h2 : NWext s s2.1 := by rw [hs2]; exact h1.trans (NWext_emitN s1.1 _ rfl)
  set s3 := emit_arith s2.1 AOp.add s1.2 s2.2 with hs3
  have h3 : NWext s s3.1 := by
    rw [hs3]; exact h2.trans (NWext_emit_arith s2.1 .add s1.2 s2.2)
  set s4p := emitN s3.1 (FNode.load_memory s3.1.lastSE ty s3.2) with hs4p
  have h4 : NWext s { s4p.1 with lastSE := some s4p.2 } := by
    rw [hs4p]
    exact NWext_setSE _ _ _ (h3.trans (NWext_emitN s3.1 _ rfl))
  exact h4.trans (NWext_esr _ inst.rd s4p.2 sext hrd h32)

theorem NWext_emit_store (s : FState) (inst : RInst) (ty : Ty) :
    NWext s (emit_store s inst ty) := by
  unfold emit_store
  dsimp only
  set s1 := emit_load_register s ty inst.rs2 with hs1
  have h1 : NWext s s1.1 := by rw [hs1]; exact NWext_elr s ty inst.rs2
  set s2 := emit_load_register s1.1 Ty.i64 inst.rs1 with hs2
  have h2 : NWext s s2.1 := by
    rw [hs2]; exact h1.trans (NWext_elr s1.1 Ty.i64 inst.rs1)
  set s3 := emitN s2.1 (FNode.constant Ty.i64 inst.imm) with hs3
  have h3 : NWext s s3.1 := by rw [hs3]; exact h2.trans (NWext_emitN s2.1 _ rfl)
  set s4 := emit_arith s3.1 AOp.add s2.2 s3.2 with hs4
  have h4 : NWext s s4.1 := by
    rw [hs4]; exact h3.trans (NWext_emit_arith s3.1 .add s2.2 s3.2)
  set s5p := emitN s4.1 (FNode.store_memory s4.1.lastSE s4.2 s1.2) with hs5p
  show NWext s { s5p.1 with lastSE := some s5p.2 }
  rw [hs5p]
  exact NWext_setSE _ _ _ (h4.trans (NWext_emitN s4.1 _ rfl))

theorem NWext_emit_alui (s : FState) (inst : RInst) (op : AOp) (w : Bool)
    (h32 : inst.rd < 32) :
    NWext s (emit_alui s inst op w) := by
  unfold emit_alui
  by_cases hrd : inst.rd = 0
  · rw [if_pos hrd]; exact NWext.refl s
  · rw [if_neg hrd]
    dsimp only
    set ty := if w then Ty.i32 else Ty.i64 with hty
    set s1 := emit_load_register s ty inst.rs1 with hs1
    have h1 : NWext s s1.1 := by rw [hs1]; exact NWext_elr s ty inst.rs1
    set s2 := emitN s1.1 (FNode.constant ty inst.imm) with hs2
    have h2 : NWext s s2.1 := by rw [hs2]; exact h1.trans (NWext_emitN s1.1 _ rfl)
    set s3 := emit_arith s2.1 op s1.2 s2.2 with hs3
    have h3 : NWext s s3.1 := by
      rw [hs3]; exact h2.trans (NWext_emit_arith s2.1 op s1.2 s2.2)
    exact h3.trans (NWext_esr s3.1 inst.rd s3.2 true hrd h32)

theorem NWext_emit_shifti (s : FState) (inst : RInst) (op : SOp) (w : Bool)
    (h32 : inst.rd < 32) :
    NWext s (emit_shifti s inst op w) := by
  unfold emit_shifti
  by_cases hrd : inst.rd = 0
  · rw [if_pos hrd]; exact NWext.refl s
  · rw [if_neg hrd]
    dsimp only
    set ty := if w then Ty.i32 else Ty.i64 with hty
    set s1 := emit_load_register s ty inst.rs1 with hs1
    have h1 : NWext s s1.1 := by rw [hs1]; exact NWext_elr s ty inst.rs1
    set s2 := emitN s1.1 (FNode.constant Ty.i8 inst.imm) with hs2
    have h2 : NWext s s2.1 := by rw [hs2]; exact h1.trans (NWext_emitN s1.1 _ rfl)
    set s3 := emit_shiftB s2.1 op s1.2 s2.2 with hs3
    have h3 : NWext s s3.1 := by
      rw [hs3]; exact h2.trans (NWext_emit_shiftB s2.1 op s1.2 s2.2)
    exact h3.trans (NWext_esr s3.1 inst.rd s3.2 true hrd h32)

theorem NWext_emit_slti (s : FState) (inst : RInst) (op : COp)
    (h32 : inst.rd < 32) :
    NWext s (emit_slti s inst op) := by
  unfold emit_slti
  by_cases hrd : inst.rd = 0
  · rw [if_pos hrd]; exact NWext.refl s
  · rw [if_neg hrd]
    dsimp only
    set s1 := emit_load_register s Ty.i64 inst.rs1 with hs1
    have h1 : NWext s s1.1 := by rw [hs1]; exact NWext_elr s Ty.i64 inst.rs1
    set s2 := emitN s1.1 (FNode.constant Ty.i64 inst.imm) with hs2
    have h2 : NWext s s2.1 := by rw [hs2]; exact h1.trans (NWext_emitN s1.1 _ rfl)
    set s3 := emitN s2.1 (FNode.cmp op s1.2 s2.2) with hs3
    have h3 : NWext s s3.1 := by rw [hs3]; exact h2.trans (NWext_emitN s2.1 _ rfl)
    exact h3.trans (NWext_esr s3.1 inst.rd s3.2 false hrd h32)

theorem NWext_emit_alu (s : FState) (inst : RInst) (op : AOp) (w : Bool)
    (h32 : inst.rd < 32) :
    NWext s (emit_alu s inst op w) := by
  unfold emit_alu
  by_cases hrd : inst.rd = 0
  · rw [if_pos hrd]; exact NWext.refl s
  · rw [if_neg hrd]
    dsimp only
    set ty := if w then Ty.i32 else Ty.i64 with hty
    set s1 := emit_load_register s ty inst.rs1 with hs1
    have h1 : NWext s s1.1 := by rw [hs1]; exact NWext_elr s ty inst.rs1
    set s2 := emit_load_register s1.1 ty inst.rs2 with hs2
    have h2 : NWext s s2.1 := by
      rw [hs2]; exact h1.trans (NWext_elr s1.1 ty inst.rs2)
    set s3 := emit_arith s2.1 op s1.2 s2.2 with hs3
    have h3 : NWext s s3.1 := by
      rw [hs3]; exact h2.trans (NWext_emit_arith s2.1 op s1.2 s2.2)
    exact h3.trans (NWext_esr s3.1 inst.rd s3.2 true hrd h32)

theorem NWext_emit_shift (s : FState) (inst : RInst) (op : SOp) (w : Bool)
    (h32 : inst.rd < 32) :
    NWext s (emit_shift s inst op w) := by
  unfold emit_shift
  by_cases hrd : inst.rd = 0
  · rw [if_pos hrd]; exact NWext.refl s
  · rw [if_neg hrd]
    dsimp only
    set ty := if w then Ty.i32 else Ty.i64 with hty
    set s1 := emit_load_register s ty inst.rs1 with hs1
    have h1 : NWext s s1.1 := by rw [hs1]; exact NWext_elr s ty inst.rs1
    set s2 := emit_load_register s1.1 Ty.i8 inst.rs2 with hs2
    have h2 : NWext s s2.1 := by
      rw [hs2]; exact h1.trans (NWext_elr s1.1 Ty.i8 inst.rs2)
    set s3 := emit_shiftB s2.1 op s1.2 s2.2 with hs3
    have h3 : NWext s s3.1 := by
      rw [hs3]; exact h2.trans (NWext_emit_shiftB s2.1 op s1.2 s2.2)
    exact h3.trans (NWext_esr s3.1 inst.rd s3.2 true hrd h32)

theorem NWext_emit_slt (s : FState) (inst : RInst) (op : COp)
    (h32 : inst.rd < 32) :
    NWext s (emit_slt s inst op) := by
  unfold emit_slt
  by_cases hrd : inst.rd = 0
  · rw [if_pos hrd]; exact NWext.refl s
  · rw [if_neg hrd]
    dsimp only
    set s1 := emit_load_register s Ty.i64 inst.rs1 with hs1
    have h1 : NWext s s1.1 := by rw [hs1]; exact NWext_elr s Ty.i64 inst.rs1
    set s2 := emit_load_register s1.1 Ty.i64 inst.rs2 with hs2
    have h2 : NWext s s2.1 := by
      rw [hs2]; exact h1.trans (NWext_elr s1.1 Ty.i64 inst.rs2)
    set s3 := emitN s2.1 (FNode.cmp op s1.2 s2.2) with hs3
    have h3 : NWext s s3.1 := by rw [hs3]; exact h2.trans (NWext_emitN s2.1 _ rfl)
    exact h3.trans (NWext_esr s3.1 inst.rd s3.2 false hrd h32)

theorem NWext_compileStep (s : FState) (off idx : Nat) (inst : RInst)
    (hh : handledOpcode inst.opcode = true) (h32 : inst.rd < 32)
    (hl : isLoadOp inst.opcode = true → inst.rd ≠ 0) :
    NWext s (compileStep s off idx inst) := by
  have hsr : ∀ (d : Option Nat) (v : Nat),
      noWrite64 (FNode.store_register d inst.rd v) = true := by
    intro d v; simp [noWrite64]; omega
  rcases hop : inst.opcode with
      _ | _ | _ | _ | _ | _ | _ | _ | _ | _ | _ | _ | _ | _ | _ | _ | _ | _ | _ | _ |
      _ | _ | _ | _ | _ | _ | _ | _ | _ | _ | _ | _ | _ | _ | _ | _ | _ | _ | _ | _ |
      _ | _ | _ | _ | _ | _ | _ | _ | _ | _ | _
  case auipc =>
    unfold compileStep
    rw [hop]
    dsimp only
    by_cases hrd : inst.rd = 0
    · rw [if_pos hrd]; exact NWext.refl s
    · rw [if_neg hrd]
      set p1 := emitN s (FNode.load_register s.lastSE 64) with hp1
      have h1 : NWext s p1.1 := by rw [hp1]; exact NWext_emitN s _ rfl
      set p2 := emitN p1.1 (FNode.constant Ty.i64 (uadd off inst.imm)) with hp2
      have h2 : NWext s p2.1 := by rw [hp2]; exact h1.trans (NWext_emitN p1.1 _ rfl)
      set p3 := emit_arith p2.1 AOp.add p1.2 p2.2 with hp3
      have h3 : NWext s p3.1 := by
        rw [hp3]; exact h2.trans (NWext_emit_arith p2.1 .add p1.2 p2.2)
      set p4 := emitN p3.1 (FNode.store_register (some p1.2) inst.rd p3.2) with hp4
      show NWext s { p4.1 with lastSE := some p4.2 }
      rw [hp4]
      exact NWext_setSE _ _ _ (h3.trans (NWext_emitN p3.1 _ (hsr _ _)))
  case lui =>
    unfold compileStep
    rw [hop]
    dsimp only
    by_cases hrd : inst.rd = 0
    · rw [if_pos hrd]; exact NWext.refl s
    · rw [if_neg hrd]
      set p1 := emitN s (FNode.constant Ty.i64 inst.imm) with hp1
      have h1 : NWext s p1.1 := by rw [hp1]; exact NWext_emitN s _ rfl
      set p2 := emitN p1.1 (FNode.store_register p1.1.lastSE inst.rd p1.2) with hp2
      show NWext s { p2.1 with lastSE := some p2.2 }
      rw [hp2]
      exact NWext_setSE _ _ _ (h1.trans (NWext_emitN p1.1 _ (hsr _ _)))
  case lb =>
    unfold compileStep; rw [hop]
    exact NWext_emit_load s inst Ty.i8 true (hl (by rw [hop]; rfl)) h32
  case lh =>
    unfold compileStep; rw [hop]
    exact NWext_emit_load s inst Ty.i16 true (hl (by rw [hop]; rfl)) h32
  case lw =>
    unfold compileStep; rw [hop]
    exact NWext_emit_load s inst Ty.i32 true (hl (by rw [hop]; rfl)) h32
  case ld =>
    unfold compileStep; rw [hop]
    exact NWext_emit_load s inst Ty.i64 false (hl (by rw [hop]; rfl)) h32
  case lbu =>
    unfold compileStep; rw [hop]
    exact NWext_emit_load s inst Ty.i8 false (hl (by rw [hop]; rfl)) h32
  case lhu =>
    unfold compileStep; rw [hop]
    exact NWext_emit_load s inst Ty.i16 false (hl (by rw [hop]; rfl)) h32
  case lwu =>
    unfold compileStep; rw [hop]
    exact NWext_emit_load s inst Ty.i32 false (hl (by rw [hop]; rfl)) h32
  case sb => unfold compileStep; rw [hop]; exact NWext_emit_store s inst Ty.i8
  case sh => unfold compileStep; rw [hop]; exact NWext_emit_store s inst Ty.i16
  case sw => unfold compileStep; rw [hop]; exact NWext_emit_store s inst Ty.i32
  case sd => unfold compileStep; rw [hop]; exact NWext_emit_store s inst Ty.i64
  case addi => unfold compileStep; rw [hop]; exact NWext_emit_alui s inst .add false h32
  case slli => unfold compileStep; rw [hop]; exact NWext_emit_shifti s inst .shl false h32
  case slti => unfold compileStep; rw [hop]; exact NWext_emit_slti s inst .lt h32
  case sltiu => unfold compileStep; rw [hop]; exact NWext_emit_slti s inst .ltu h32
  case xori => unfold compileStep; rw [hop]; exact NWext_emit_alui s inst .i_xor false h32
  case srli => unfold compileStep; rw [hop]; exact NWext_emit_shifti s inst .shr false h32
  case srai => unfold compileStep; rw [hop]; exact NWext_emit_shifti s inst .sar false h32
  case ori => unfold compileStep; rw [hop]; exact NWext_emit_alui s inst .i_or false h32
  case andi => unfold compileStep; rw [hop]; exact NWext_emit_alui s inst .i_and false h32
  case addiw => unfold compileStep; rw [hop]; exact NWext_emit_alui s inst .add true h32
  case slliw => unfold compileStep; rw [hop]; exact NWext_emit_shifti s inst .shl true h32
  case srliw => unfold compileStep; rw [hop]; exact NWext_emit_shifti s inst .shr true h32
  case sraiw => unfold compileStep; rw [hop]; exact NWext_emit_shifti s inst .sar true h32
  case add => unfold compileStep; rw [hop]; exact NWext_emit_alu s inst .add false h32
  case sub => unfold compileStep; rw [hop]; exact NWext_emit_alu s inst .sub false h32
  case sll => unfold compileStep; rw [hop]; exact NWext_emit_shift s inst .shl false h32
  case slt => unfold compileStep; rw [hop]; exact NWext_emit_slt s inst .lt h32
  case sltu => unfold compileStep; rw [hop]; exact NWext_emit_slt s inst .ltu h32
  case i_xor => unfold compileStep; rw [hop]; exact NWext_emit_alu s inst .i_xor false h32
  case srl => unfold compileStep; rw [hop]; exact NWext_emit_shift s inst .shr false h32
  case sra => unfold compileStep; rw [hop]; exact NWext_emit_shift s inst .sar false h32
  case i_or => unfold compileStep; rw [hop]; exact NWext_emit_alu s inst .i_or false h32
  case i_and => unfold compileStep; rw [hop]; exact NWext_emit_alu s inst .i_and false h32
  case addw => unfold compileStep; rw [hop]; exact NWext_emit_alu s inst .add true h32
  case subw => unfold compileStep; rw [hop]; exact NWext_emit_alu s inst .sub true h32
  case sllw => unfold compileStep; rw [hop]; exact NWext_emit_shift s inst .shl true h32
  case srlw => unfold compileStep; rw [hop]; exact NWext_emit_shift s inst .shr true h32
  case sraw => unfold compileStep; rw [hop]; exact NWext_emit_shift s inst .sar true h32
  case jal => rw [hop] at hh; exact absurd hh (by decide)
  case jalr => rw [hop] at hh; exact absurd hh (by decide)
  case beq => rw [hop] at hh; exact absurd hh (by decide)
  case bne => rw [hop] at hh; exact absurd hh (by decide)
  case blt => rw [hop] at hh; exact absurd hh (by decide)
  case bge => rw [hop] at hh; exact absurd hh (by decide)
  case bltu => rw [hop] at hh; exact absurd hh (by decide)
  case bgeu => rw [hop] at hh; exact absurd hh (by decide)
  case fence_i => rw [hop] at hh; exact absurd hh (by decide)
  case mul => rw [hop] at hh; exact absurd hh (by decide)
  case ecall => rw [hop] at hh; exact absurd hh (by decide)

theorem NWext_compileInsts :
    ∀ (insts : List RInst), okPrefix insts →
      ∀ (s : FState) (off idx : Nat), s.aborted = false →
        NWext s (compileInsts s off idx insts) := by
  intro insts
  induction insts with
  | nil => intro hok s off idx hab; exact NWext.refl s
  | cons a t ih =>
      intro hok s off idx hab
      obtain ⟨hh, h32, hl⟩ := hok a (List.mem_cons_self a t)
      show NWext s (compileInsts (if s.aborted then s else compileStep s off idx a)
        (uadd off a.length) (idx + 1) t)
      rw [if_neg (by simp [hab])]
      have h1 : NWext s (compileStep s off idx a) :=
        NWext_compileStep s off idx a hh h32 hl
      have hab1 : (compileStep s off idx a).aborted = false := by
        obtain ⟨e, hn, hw, ha⟩ := h1; rw [ha, hab]
      exact h1.trans (ih (fun x hx => hok x (List.mem_cons_of_mem a hx)) _ _ _ hab1)

/-! Execution lemmas: value-list growth, prefix stability, and guest
register 64 under noWrite64 nodes. -/

theorem execNode_vals_len (mem : Nat → Nat) (em : Nat → (Nat → Nat) → Nat → Nat)
    (st : EState) (n : FNode) :
    (execNode mem em st n).vals.length = st.vals.length + 1 := by
  cases n <;> simp [execNode]

theorem execNode_vals_ext (mem : Nat → Nat) (em : Nat → (Nat → Nat) → Nat → Nat)
    (st : EState) (n : FNode) :
    st.vals <+: (execNode mem em st n).vals := by
  cases n <;> exact List.prefix_append _ _

theorem execNode_regs_nw (mem : Nat → Nat) (em : Nat → (Nat → Nat) → Nat → Nat)
    (st : EState) (n : FNode) (h : noWrite64 n = true) :
    (execNode mem em st n).regs 64 = st.regs 64 := by
  cases n with
  | constant ty v => rfl
  | cast ty sext opr => rfl
  | load_register d reg => rfl
  | store_register d reg v =>
      have hk : ¬reg = 64 := by simpa [noWrite64] using h
      show (if (64 : Nat) = reg then ((st.vals.getD v (0, Ty.none)).1 % M64)
          else st.regs 64) = st.regs 64
      rw [if_neg (fun hh => hk hh.symm)]
  | load_memory d ty a => rfl
  | store_memory d a v => rfl
  | arith op ty l r => rfl
  | shiftN op ty l r => rfl
  | cmp op l r => rfl
  | emulate d i => simp [noWrite64] at h
  | iret d => rfl

theorem execNode_regs_lt (mem : Nat → Nat) (em : Nat → (Nat → Nat) → Nat → Nat)
    (st : EState) (n : FNode) (h : ∀ x, st.regs x < M64) :
    ∀ x, (execNode mem em st n).regs x < M64 := by
  cases n with
  | constant ty v => exact h
  | cast ty sext opr => exact h
  | load_register d reg => exact h
  | store_register d reg v =>
      intro x
      show (if x = reg then ((st.vals.getD v (0, Ty.none)).1 % M64)
          else st.regs x) < M64
      by_cases hx : x = reg
      · rw [if_pos hx]; exact mod_lt64 _
      · rw [if_neg hx]; exact h x
  | load_memory d ty a => exact h
  | store_memory d a v => exact h
  | arith op ty l r => exact h
  | shiftN op ty l r => exact h
  | cmp op l r => exact h
  | emulate d i => intro x; exact mod_lt64 _
  | iret d => exact h

theorem foldl_vals_len (mem : Nat → Nat) (em : Nat → (Nat → Nat) → Nat → Nat) :
    ∀ (l : List FNode) (st : EState),
      (l.foldl (execNode mem em) st).vals.length = st.vals.length + l.length := by
  intro l
  induction l with
  | nil => intro st; simp
  | cons a t ih =>
      intro st
      show (t.foldl _ (execNode mem em st a)).vals.length = _
      rw [ih, execNode_vals_len, List.length_cons]
      omega

theorem foldl_vals_ext (mem : Nat → Nat) (em : Nat → (Nat → Nat) → Nat → Nat) :
    ∀ (l : List FNode) (st : EState),
      st.vals <+: (l.foldl (execNode mem em) st).vals := by
  intro l
  induction l with
  | nil => intro st; exact List.prefix_refl _
  | cons a t ih =>
      intro st
      exact (execNode_vals_ext mem em st a).trans (ih (execNode mem em st a))

theorem foldl_regs_nw (mem : Nat → Nat) (em : Nat → (Nat → Nat) → Nat → Nat) :
    ∀ (l : List FNode) (st : EState), (∀ n ∈ l, noWrite64 n = true) →
      (l.foldl (execNode mem em) st).regs 64 = st.regs 64 := by
  intro l
  induction l with
  | nil => intro st h; rfl
  | cons a t ih =>
      intro st h
      show (t.foldl _ (execNode mem em st a)).regs 64 = _
      rw [ih _ (fun n hn => h n (List.mem_cons_of_mem a hn)),
        execNode_regs_nw mem em st a (h a (List.mem_cons_self a t))]

theorem foldl_regs_lt (mem : Nat → Nat) (em : Nat → (Nat → Nat) → Nat → Nat) :
    ∀ (l : List FNode) (st : EState), (∀ x, st.regs x < M64) →
      ∀ x, (l.foldl (execNode mem em) st).regs x < M64 := by
  intro l
  induction l with
  | nil => intro st h; exact h
  | cons a t ih =>
      intro st h
      exact ih (execNode mem em st a) (execNode_regs_lt mem em st a h)

theorem execList_append (l1 l2 : List FNode) (R : Nat → Nat) (mem : Nat → Nat)
    (em : Nat → (Nat → Nat) → Nat → Nat) :
    execList (l1 ++ l2) R mem em
      = l2.foldl (execNode mem em) (execList l1 R mem em) := by
  simp [execList, List.foldl_append]

theorem execList_vals_len (nodes : List FNode) (R : Nat → Nat) (mem : Nat → Nat)
    (em : Nat → (Nat → Nat) → Nat → Nat) :
    (execList nodes R mem em).vals.length = nodes.length := by
  show (nodes.foldl (execNode mem em) (⟨[], R⟩ : EState)).vals.length = _
  rw [foldl_vals_len]
  simp

theorem execList_regs_lt (nodes : List FNode) (R : Nat → Nat) (mem : Nat → Nat)
    (em : Nat → (Nat → Nat) → Nat → Nat) (hR : ∀ x, R x < M64) :
    ∀ x, (execList nodes R mem em).regs x < M64 :=
  foldl_regs_lt mem em nodes (⟨[], R⟩ : EState) hR

theorem prefix_getD {α : Type} {l1 l2 : List α} (h : l1 <+: l2) (k : Nat)
    (hk : k < l1.length) (d : α) : l2.getD k d = l1.getD k d := by
  obtain ⟨t, rfl⟩ := h
  rw [List.getD_eq_getElem?_getD, List.getD_eq_getElem?_getD,
    List.getElem?_append_left hk]

/-- Executing the prologue advances guest register 64 from start_pc to
end_pc (dataflow mirror of the pc-update store). -/
theorem prologue_exec (b : BasicBlock) (R : Nat → Nat) (mem : Nat → Nat)
    (em : Nat → (Nat → Nat) → Nat → Nat) (hR64 : R 64 = b.start_pc % M64) :
    (execList (prologueNodes b) R mem em).regs 64 = b.end_pc % M64 := by
  have hval : (execList (prologueNodes b) R mem em).regs 64
      = arithEval .add Ty.i64 (R 64 % M64)
          (truncTo Ty.i64 (usub b.end_pc b.start_pc)) % M64 := rfl
  have harith : ∀ a c : Nat, arithEval .add Ty.i64 a c = (a + c) % M64 :=
    fun a c => rfl
  rw [hval, harith, hR64, truncTo_i64,
    Nat.mod_mod_of_dvd _ dvd_rfl, Nat.mod_mod_of_dvd _ dvd_rfl,
    Nat.mod_eq_of_lt (usub_lt _ _)]
  exact add_usub b.start_pc b.end_pc

/-- The compile loop splits over list append, threading the pc_offset and
the instruction index. -/
theorem compileInsts_append (l1 l2 : List RInst) :
    ∀ (s : FState) (off idx : Nat),
      compileInsts s off idx (l1 ++ l2)
        = compileInsts (compileInsts s off idx l1) (offAfter off l1)
            (idx + l1.length) l2 := by
  induction l1 with
  | nil => intro s off idx; simp [compileInsts, offAfter]
  | cons a t ih =>
      intro s off idx
      show compileInsts (if s.aborted then s else compileStep s off idx a)
        (uadd off a.length) (idx + 1) (t ++ l2) = _
      rw [ih]
      have h2 : idx + (a :: t).length = (idx + 1) + t.length := by
        rw [List.length_cons]; omega
      rw [h2]
      rfl

theorem typeAt_append_at (l : List FNode) (n : FNode) (t : List FNode) :
    typeAt (l ++ n :: t) l.length = n.typeOf := by
  unfold typeAt
  rw [List.get?_eq_getElem?, List.getElem?_append_right (le_refl _)]
  simp

/-- Node-level equation of the auipc case of the dispatch: a fresh pc
load, the folded offset constant, the add, and the store to rd, with the
store becoming the last side-effect. -/
theorem compileStep_auipc (s : FState) (off idx : Nat) (inst : RInst)
    (hop : inst.opcode = ROpcode.auipc) (hrd : inst.rd ≠ 0) :
    compileStep s off idx inst =
      { nodes := s.nodes ++
          [.load_register s.lastSE 64,
           .constant Ty.i64 (uadd off inst.imm),
           .arith .add Ty.i64 s.nodes.length (s.nodes.length + 1),
           .store_register (some s.nodes.length) inst.rd (s.nodes.length + 2)],
        lastSE := some (s.nodes.length + 3), aborted := s.aborted } := by
  unfold compileStep
  rw [hop]
  dsimp only
  rw [if_neg hrd]
  simp [emit_arith, emitN, typeAt_append_at, FNode.typeOf]

/-- Dataflow of the four auipc nodes when executed after an arbitrary
prefix: the pc load captures the current value of guest register 64, the
constant truncates to 64 bits, and the add records their uint64 sum. -/
theorem exec_auipc_chunk (mem : Nat → Nat) (em : Nat → (Nat → Nat) → Nat → Nat)
    (st : EState) (d : Option Nat) (C rd : Nat) :
    ([FNode.load_register d 64, FNode.constant Ty.i64 C,
      FNode.arith .add Ty.i64 st.vals.length (st.vals.length + 1),
      FNode.store_register (some st.vals.length) rd (st.vals.length + 2)].foldl
        (execNode mem em) st).vals
      = st.vals ++ [(st.regs 64 % M64, Ty.i64), (truncTo Ty.i64 C, Ty.i64),
          (arithEval .add Ty.i64 (st.regs 64 % M64) (truncTo Ty.i64 C), Ty.i64),
          (0, Ty.memory)] := by
  simp only [List.foldl_cons, List.foldl_nil, execNode]
  simp only [List.append_assoc, List.cons_append, List.nil_append]
  rw [getD_at_len, getD_at_len1]

/-- Claim C3: an auipc instruction with rd different from 0, sitting at
position i of a block whose earlier instructions are all handled,
non-pc-writing forms, compiles to a fresh load_register of the pc
(register 64), a constant equal to start_pc - end_pc (the folded
pc_offset) plus the lengths of the preceding instructions plus the
immediate, an add, and a store to rd; and since the prologue already
advanced the guest pc to end_pc, executing the graph stores
start_pc + (lengths of preceding instructions) + imm - the instruction's
own address plus its immediate - into rd (all arithmetic uint64). -/
theorem c3_auipc_pc_plus_imm (b : BasicBlock) (i : Nat) (inst : RInst)
    (hi : b.instructions.get? i = some inst)
    (hop : inst.opcode = ROpcode.auipc) (hrd : inst.rd ≠ 0)
    (hok : okPrefix (b.instructions.take i))
    (R : Nat → Nat) (mem : Nat → Nat) (em : Nat → (Nat → Nat) → Nat → Nat)
    (hR : ∀ x, R x < M64) (hR64 : R 64 = b.start_pc % M64) :
    (compileFE b).nodes.get? (compilePrefix b i).nodes.length
        = some (.load_register (compilePrefix b i).lastSE 64) ∧
    (compileFE b).nodes.get? ((compilePrefix b i).nodes.length + 1)
        = some (.constant Ty.i64
            ((usub b.start_pc b.end_pc + sumLen (b.instructions.take i)
              + inst.imm) % M64)) ∧
    (compileFE b).nodes.get? ((compilePrefix b i).nodes.length + 2)
        = some (.arith .add Ty.i64 (compilePrefix b i).nodes.length
            ((compilePrefix b i).nodes.length + 1)) ∧
    (compileFE b).nodes.get? ((compilePrefix b i).nodes.length + 3)
        = some (.store_register (some (compilePrefix b i).nodes.length) inst.rd
            ((compilePrefix b i).nodes.length + 2)) ∧
    ((execList (compileFE b).nodes R mem em).vals.getD
        ((compilePrefix b i).nodes.length + 2) (0, Ty.none)).1
      = (b.start_pc + sumLen (b.instructions.take i) + inst.imm) % M64 := by
  set sp := compilePrologue b with hsp
  set off0 := usub b.start_pc b.end_pc with hoff0
  set si := compilePrefix b i with hsi0
  have hsi : si = compileInsts sp off0 0 (b.instructions.take i) := rfl
  set offi := offAfter off0 (b.instructions.take i) with hoffi
  obtain ⟨hlt, hgv⟩ := List.get?_eq_some.mp hi
  have hspab : sp.aborted = false := by rw [hsp, compilePrologue_eq]
  have hnwp : NWext sp si := by
    rw [hsi]; exact NWext_compileInsts _ hok sp off0 0 hspab
  obtain ⟨ext1, hn1, hw1, hab1⟩ := hnwp
  have habi : si.aborted = false := by rw [hab1, hspab]
  have hCIi : ChainInv si := by
    rw [hsi]
    exact (chainInv_compileInsts (b.instructions.take i) sp off0 0
      (by rw [hsp]; exact chainInv_prologue b)).1
  set sc := compileStep si offi i inst with hsc
  have hCIc : ChainInv sc := by
    rw [hsc]; exact (chainInv_compileStep si offi i inst hCIi).1
  set chunk := [FNode.load_register si.lastSE 64,
    FNode.constant Ty.i64 (uadd offi inst.imm),
    FNode.arith AOp.add Ty.i64 si.nodes.length (si.nodes.length + 1),
    FNode.store_register (some si.nodes.length) inst.rd (si.nodes.length + 2)]
    with hchunk
  have hscEq : sc =
      { nodes := si.nodes ++ chunk,
        lastSE := some (si.nodes.length + 3), aborted := si.aborted } := by
    rw [hsc, hchunk]; exact compileStep_auipc si offi i inst hop hrd
  have hchlen : chunk.length = 4 := by rw [hchunk]; rfl
  have hti : (b.instructions.take i).length = i := by rw [List.length_take]; omega
  have hdrop : b.instructions.drop i = inst :: b.instructions.drop (i + 1) := by
    rw [List.drop_eq_getElem_cons hlt]
    congr 1
  have hsplit : compileInsts sp off0 0 b.instructions
      = compileInsts sc (uadd offi inst.length) (i + 1)
          (b.instructions.drop (i + 1)) := by
    conv_lhs => rw [← List.take_append_drop i b.instructions]
    rw [compileInsts_append, hdrop, hti, Nat.zero_add, ← hoffi, ← hsi]
    show compileInsts (if si.aborted then si else compileStep si offi i inst)
      _ _ _ = _
    rw [if_neg (by simp [habi]), ← hsc]
  obtain ⟨-, hpre2⟩ := chainInv_compileInsts (b.instructions.drop (i + 1)) sc
      (uadd offi inst.length) (i + 1) hCIc
  obtain ⟨tail0, htail0⟩ := hpre2
  have hfe : ∃ tail, (compileFE b).nodes = sc.nodes ++ tail := by
    unfold compileFE
    dsimp only
    rw [← hsp, ← hoff0, hsplit]
    by_cases hfin : (compileInsts sc (uadd offi inst.length) (i + 1)
        (b.instructions.drop (i + 1))).aborted
    · rw [if_pos hfin]
      exact ⟨tail0, htail0.symm⟩
    · rw [if_neg hfin]
      refine ⟨tail0 ++ [.iret (compileInsts sc (uadd offi inst.length) (i + 1)
          (b.instructions.drop (i + 1))).lastSE], ?_⟩
      show (compileInsts sc (uadd offi inst.length) (i + 1)
          (b.instructions.drop (i + 1))).nodes ++ _ = _
      rw [← htail0, List.append_assoc]
  obtain ⟨tail, htail⟩ := hfe
  have hnodes : (compileFE b).nodes = (si.nodes ++ chunk) ++ tail := by
    rw [htail, hscEq]
  have hCval : uadd offi inst.imm
      = (usub b.start_pc b.end_pc + sumLen (b.instructions.take i)
          + inst.imm) % M64 := by
    show (offi + inst.imm) % M64 = _
    rw [hoffi, offAfter_eq (b.instructions.take i) off0
      (by rw [hoff0]; exact usub_lt _ _), addMod_left, hoff0]
  refine ⟨?_, ?_, ?_, ?_, ?_⟩
  · rw [hnodes]
    have g := get?_middle si.nodes chunk tail 0 (by rw [hchlen]; omega)
    rw [Nat.add_zero] at g
    rw [g, hchunk]
    rfl
  · rw [hnodes]
    have g := get?_middle si.nodes chunk tail 1 (by rw [hchlen]; omega)
    rw [g, ← hCval, hchunk]
    rfl
  · rw [hnodes]
    have g := get?_middle si.nodes chunk tail 2 (by rw [hchlen]; omega)
    rw [g, hchunk]
    rfl
  · rw [hnodes]
    have g := get?_middle si.nodes chunk tail 3 (by rw [hchlen]; omega)
    rw [g, hchunk]
    rfl
  · rw [hnodes, execList_append]
    set stc := execList (si.nodes ++ chunk) R mem em with hstc
    have hstcLen : stc.vals.length = si.nodes.length + 4 := by
      rw [hstc, execList_vals_len, List.length_append, hchlen]
    rw [prefix_getD (foldl_vals_ext mem em tail stc) _
      (by rw [hstcLen]; omega)]
    set sti := execList si.nodes R mem em with hsti
    have hstiLen : sti.vals.length = si.nodes.length := by
      rw [hsti, execList_vals_len]
    have hstc2 : stc = chunk.foldl (execNode mem em) sti := by
      rw [hstc, execList_append, hsti]
    have hchv : stc.vals = sti.vals ++
        [(sti.regs 64 % M64, Ty.i64),
         (truncTo Ty.i64 (uadd offi inst.imm), Ty.i64),
         (arithEval .add Ty.i64 (sti.regs 64 % M64)
            (truncTo Ty.i64 (uadd offi inst.imm)), Ty.i64),
         (0, Ty.memory)] := by
      rw [hstc2, hchunk]
      rw [show si.nodes.length = sti.vals.length from hstiLen.symm]
      exact exec_auipc_chunk mem em sti si.lastSE (uadd offi inst.imm) inst.rd
    rw [hchv, show si.nodes.length + 2 = sti.vals.length + 2 from by rw [hstiLen]]
    rw [getD_at_len2]
    show arithEval AOp.add Ty.i64 (sti.regs 64 % M64)
      (truncTo Ty.i64 (uadd offi inst.imm))
      = (b.start_pc + sumLen (b.instructions.take i) + inst.imm) % M64
    have hreg : sti.regs 64 = b.end_pc % M64 := by
      rw [hsti, hn1, execList_append, foldl_regs_nw mem em ext1 _ hw1]
      rw [show sp.nodes = prologueNodes b from by rw [hsp, compilePrologue_eq]]
      exact prologue_exec b R mem em hR64
    rw [hreg, Nat.mod_mod_of_dvd _ dvd_rfl, truncTo_i64,
      Nat.mod_eq_of_lt (uadd_lt _ _)]
    rw [show ∀ a c : Nat, arithEval AOp.add Ty.i64 a c = (a + c) % M64 from
      fun a c => rfl]
    rw [hCval, addMod_right]
    rw [show b.end_pc % M64 + (usub b.start_pc b.end_pc
          + sumLen (b.instructions.take i) + inst.imm)
        = (b.end_pc % M64 + usub b.start_pc b.end_pc)
          + (sumLen (b.instructions.take i) + inst.imm) from by omega]
    rw [← addMod_left, add_usub, addMod_left]
    congr 1
    omega

/-- Claim C3 witness: the two-instruction block blockC3 at pc 16, whose
second instruction is auipc x3, 4096; with the guest pc register holding
16 the add node evaluates to 16 + 4 + 4096 (the auipc's own address plus
its immediate). -/
theorem c3_auipc_pc_plus_imm_witness :
    (compileFE blockC3).nodes.get? (compilePrefix blockC3 1).nodes.length
        = some (.load_register (compilePrefix blockC3 1).lastSE 64) ∧
    (compileFE blockC3).nodes.get? ((compilePrefix blockC3 1).nodes.length + 1)
        = some (.constant Ty.i64
            ((usub blockC3.start_pc blockC3.end_pc
              + sumLen (blockC3.instructions.take 1) + instC3.imm) % M64)) ∧
    (compileFE blockC3).nodes.get? ((compilePrefix blockC3 1).nodes.length + 2)
        = some (.arith .add Ty.i64 (compilePrefix blockC3 1).nodes.length
            ((compilePrefix blockC3 1).nodes.length + 1)) ∧
    (compileFE blockC3).nodes.get? ((compilePrefix blockC3 1).nodes.length + 3)
        = some (.store_register (some (compilePrefix blockC3 1).nodes.length)
            instC3.rd ((compilePrefix blockC3 1).nodes.length + 2)) ∧
    ((execList (compileFE blockC3).nodes (fun _ => 16) (fun _ => 0)
        (fun _ r => r)).vals.getD
        ((compilePrefix blockC3 1).nodes.length + 2) (0, Ty.none)).1
      = (blockC3.start_pc + sumLen (blockC3.instructions.take 1)
          + instC3.imm) % M64 :=
  c3_auipc_pc_plus_imm blockC3 1 instC3 rfl rfl (by decide)
    (by
      intro inst2 hins
      rw [show blockC3.instructions.take 1
          = [(⟨.addi, 1, 1, 0, 1, 4⟩ : RInst)] from rfl] at hins
      rw [List.mem_singleton] at hins
      subst hins
      exact ⟨rfl, by decide, fun _ => by decide⟩)
    (fun _ => 16) (fun _ => 0) (fun _ r => r)
    (fun x => (by decide : (16 : Nat) < M64)) (by decide)

/-! Node-heap surgery lemmas for the Block analysis. -/

theorem setNode_len (g : KGraph) (i : Nat) (f : GNode → GNode) :
    (setNode g i f).nodes.length = g.nodes.length := by
  simp [setNode]

theorem setNode_exit (g : KGraph) (i : Nat) (f : GNode → GNode) :
    (setNode g i f).exitIdx = g.exitIdx := rfl

theorem getN_setNode_ne (g : KGraph) (i : Nat) (f : GNode → GNode) (j : Nat)
    (h : j ≠ i) : getN (setNode g i f) j = getN g j := by
  simp only [getN, setNode]
  rw [List.getD_eq_getElem?_getD, List.getElem?_set_ne (fun hh => h hh.symm)]
  simp

theorem getN_setNode_self (g : KGraph) (i : Nat) (f : GNode → GNode)
    (h : i < g.nodes.length) : getN (setNode g i f) i = f (getN g i) := by
  simp only [getN, setNode]
  rw [List.getD_eq_getElem?_getD, List.getElem?_set_self h]
  rfl

theorem setNode_oob (g : KGraph) (i : Nat) (f : GNode → GNode)
    (h : ¬ i < g.nodes.length) : setNode g i f = g := by
  simp [setNode, List.set_eq_of_length_le (Nat.le_of_not_lt h)]

theorem getN_refAdd (g : KGraph) (v : Nat × Nat) (user j : Nat) :
    (getN (refAdd g v user) j).op = (getN g j).op ∧
    (getN (refAdd g v user) j).mate = (getN g j).mate ∧
    (getN (refAdd g v user) j).operands = (getN g j).operands := by
  unfold refAdd
  by_cases hj : j = v.1
  · subst hj
    by_cases hr : v.1 < g.nodes.length
    · rw [getN_setNode_self _ _ _ hr]; exact ⟨rfl, rfl, rfl⟩
    · rw [setNode_oob _ _ _ hr]; exact ⟨rfl, rfl, rfl⟩
  · rw [getN_setNode_ne _ _ _ _ hj]; exact ⟨rfl, rfl, rfl⟩

theorem getN_refRemove (g : KGraph) (v : Nat × Nat) (user j : Nat) :
    (getN (refRemove g v user) j).op = (getN g j).op ∧
    (getN (refRemove g v user) j).mate = (getN g j).mate ∧
    (getN (refRemove g v user) j).operands = (getN g j).operands := by
  unfold refRemove
  by_cases hj : j = v.1
  · subst hj
    by_cases hr : v.1 < g.nodes.length
    · rw [getN_setNode_self _ _ _ hr]; exact ⟨rfl, rfl, rfl⟩
    · rw [setNode_oob _ _ _ hr]; exact ⟨rfl, rfl, rfl⟩
  · rw [getN_setNode_ne _ _ _ _ hj]; exact ⟨rfl, rfl, rfl⟩

theorem foldRemove_pres (n : Nat) :
    ∀ (os : List (Nat × Nat)) (g : KGraph),
      (os.foldl (fun h o => refRemove h o n) g).nodes.length = g.nodes.length ∧
      (os.foldl (fun h o => refRemove h o n) g).exitIdx = g.exitIdx ∧
      ∀ j, (getN (os.foldl (fun h o => refRemove h o n) g) j).op = (getN g j).op ∧
        (getN (os.foldl (fun h o => refRemove h o n) g) j).mate = (getN g j).mate ∧
        (getN (os.foldl (fun h o => refRemove h o n) g) j).operands
          = (getN g j).operands := by
  intro os
  induction os with
  | nil => intro g; exact ⟨rfl, rfl, fun j => ⟨rfl, rfl, rfl⟩⟩
  | cons o t ih =>
      intro g
      obtain ⟨h1, h2, h3⟩ := ih (refRemove g o n)
      simp only [List.foldl_cons]
      refine ⟨?_, ?_, fun j => ?_⟩
      · rw [h1]; simp [refRemove, setNode]
      · rw [h2]; rfl
      · obtain ⟨p1, p2, p3⟩ := h3 j
        obtain ⟨q1, q2, q3⟩ := getN_refRemove g o n j
        exact ⟨p1.trans q1, p2.trans q2, p3.trans q3⟩

theorem foldAdd_pres (n : Nat) :
    ∀ (os : List (Nat × Nat)) (g : KGraph),
      (os.foldl (fun h o => refAdd h o n) g).nodes.length = g.nodes.length ∧
      (os.foldl (fun h o => refAdd h o n) g).exitIdx = g.exitIdx ∧
      ∀ j, (getN (os.foldl (fun h o => refAdd h o n) g) j).op = (getN g j).op ∧
        (getN (os.foldl (fun h o => refAdd h o n) g) j).mate = (getN g j).mate ∧
        (getN (os.foldl (fun h o => refAdd h o n) g) j).operands
          = (getN g j).operands := by
  intro os
  induction os with
  | nil => intro g; exact ⟨rfl, rfl, fun j => ⟨rfl, rfl, rfl⟩⟩
  | cons o t ih =>
      intro g
      obtain ⟨h1, h2, h3⟩ := ih (refAdd g o n)
      simp only [List.foldl_cons]
      refine ⟨?_, ?_, fun j => ?_⟩
      · rw [h1]; simp [refAdd, setNode]
      · rw [h2]; rfl
      · obtain ⟨p1, p2, p3⟩ := h3 j
        obtain ⟨q1, q2, q3⟩ := getN_refAdd g o n j
        exact ⟨p1.trans q1, p2.trans q2, p3.trans q3⟩

theorem operand_add_pres (g : KGraph) (n : Nat) (v : Nat × Nat) :
    (operand_add g n v).nodes.length = g.nodes.length ∧
    (operand_add g n v).exitIdx = g.exitIdx ∧
    (∀ j, (getN (operand_add g n v) j).op = (getN g j).op ∧
      (getN (operand_add g n v) j).mate = (getN g j).mate) ∧
    (∀ j, j ≠ n → (getN (operand_add g n v) j).operands = (getN g j).operands) ∧
    (n < g.nodes.length →
      (getN (operand_add g n v) n).operands = (getN g n).operands ++ [v]) := by
  have hlenA : (refAdd g v n).nodes.length = g.nodes.length := by
    simp [refAdd, setNode]
  unfold operand_add
  dsimp only
  refine ⟨?_, rfl, ?_, ?_, ?_⟩
  · rw [setNode_len, hlenA]
  · intro j
    by_cases hj : j = n
    · rw [hj]
      by_cases hr : n < g.nodes.length
      · rw [getN_setNode_self _ _ _ (by rw [hlenA]; exact hr)]
        obtain ⟨q1, q2, q3⟩ := getN_refAdd g v n n
        exact ⟨q1, q2⟩
      · rw [setNode_oob _ _ _ (by rw [hlenA]; exact hr)]
        obtain ⟨q1, q2, q3⟩ := getN_refAdd g v n n
        exact ⟨q1, q2⟩
    · rw [getN_setNode_ne _ _ _ _ hj]
      obtain ⟨q1, q2, q3⟩ := getN_refAdd g v n j
      exact ⟨q1, q2⟩
  · intro j hj
    rw [getN_setNode_ne _ _ _ _ hj]
    exact (getN_refAdd g v n j).2.2
  · intro hr
    rw [getN_setNode_self _ _ _ (by rw [hlenA]; exact hr)]
    show (getN (refAdd g v n) n).operands ++ [v] = _
    rw [(getN_refAdd g v n n).2.2]

theorem operands_set_pres (g : KGraph) (n : Nat) (ops : List (Nat × Nat)) :
    (operands_set g n ops).nodes.length = g.nodes.length ∧
    (operands_set g n ops).exitIdx = g.exitIdx ∧
    (∀ j, (getN (operands_set g n ops) j).op = (getN g j).op ∧
      (getN (operands_set g n ops) j).mate = (getN g j).mate) ∧
    (∀ j, j ≠ n → (getN (operands_set g n ops) j).operands = (getN g j).operands) ∧
    (n < g.nodes.length → (getN (operands_set g n ops) n).operands = ops) := by
  unfold operands_set
  dsimp only
  set g1 := (getN g n).operands.foldl (fun h o => refRemove h o n) g with hg1
  set g2 := ops.foldl (fun h o => refAdd h o n) g1 with hg2
  obtain ⟨r1, r2, r3⟩ := foldRemove_pres n (getN g n).operands g
  rw [← hg1] at r1 r2 r3
  obtain ⟨a1, a2, a3⟩ := foldAdd_pres n ops g1
  rw [← hg2] at a1 a2 a3
  have hlen2 : g2.nodes.length = g.nodes.length := by rw [a1, r1]
  refine ⟨?_, ?_, ?_, ?_, ?_⟩
  · rw [setNode_len, hlen2]
  · rw [setNode_exit, a2, r2]
  · intro j
    by_cases hj : j = n
    · rw [hj]
      by_cases hr : n < g.nodes.length
      · rw [getN_setNode_self _ _ _ (by rw [hlen2]; exact hr)]
        obtain ⟨p1, p2, p3⟩ := a3 n
        obtain ⟨q1, q2, q3⟩ := r3 n
        exact ⟨p1.trans q1, p2.trans q2⟩
      · rw [setNode_oob _ _ _ (by rw [hlen2]; exact hr)]
        obtain ⟨p1, p2, p3⟩ := a3 n
        obtain ⟨q1, q2, q3⟩ := r3 n
        exact ⟨p1.trans q1, p2.trans q2⟩
    · rw [getN_setNode_ne _ _ _ _ hj]
      obtain ⟨p1, p2, p3⟩ := a3 j
      obtain ⟨q1, q2, q3⟩ := r3 j
      exact ⟨p1.trans q1, p2.trans q2⟩
  · intro j hj
    rw [getN_setNode_ne _ _ _ _ hj]
    exact ((a3 j).2.2).trans ((r3 j).2.2)
  · intro hr
    rw [getN_setNode_self _ _ _ (by rw [hlen2]; exact hr)]

theorem KMono_refl (g : KGraph) : KMono g g :=
  ⟨rfl, rfl, fun n => ⟨rfl, rfl, ⟨[], by simp⟩⟩⟩

theorem KMono_trans {g h k : KGraph} (h1 : KMono g h) (h2 : KMono h k) :
    KMono g k := by
  obtain ⟨e1, l1, f1⟩ := h1
  obtain ⟨e2, l2, f2⟩ := h2
  refine ⟨e1.trans e2, l1.trans l2, fun n => ?_⟩
  obtain ⟨p1, p2, x1, hx1⟩ := f1 n
  obtain ⟨q1, q2, x2, hx2⟩ := f2 n
  exact ⟨p1.trans q1, p2.trans q2, x1 ++ x2, by rw [hx2, hx1, List.append_assoc]⟩

theorem KMono_operand_add (g : KGraph) (n : Nat) (v : Nat × Nat) :
    KMono g (operand_add g n v) := by
  have hlenA : (refAdd g v n).nodes.length = g.nodes.length := by
    simp [refAdd, setNode]
  obtain ⟨h1, h2, h3, h4, h5⟩ := operand_add_pres g n v
  refine ⟨h2.symm, h1.symm, fun j => ?_⟩
  obtain ⟨p1, p2⟩ := h3 j
  refine ⟨p1.symm, p2.symm, ?_⟩
  by_cases hj : j = n
  · rw [hj]
    by_cases hr : n < g.nodes.length
    · exact ⟨[v], h5 hr⟩
    · refine ⟨[], ?_⟩
      rw [List.append_nil]
      show (getN (setNode (refAdd g v n) n
        (fun nd => { nd with operands := nd.operands ++ [v] })) n).operands = _
      rw [setNode_oob _ _ _ (by rw [hlenA]; exact hr)]
      exact (getN_refAdd g v n n).2.2
  · exact ⟨[], by rw [h4 j hj, List.append_nil]⟩

/-- Every block pushed by the worklist walk is the mate of a non-entry
operand of the popped node. -/
theorem matesOf_mem (g : KGraph) :
    ∀ (ops : List (Nat × Nat)) (l : List Nat), matesOf g ops = some l →
      ∀ m ∈ l, ∃ o ∈ ops, (getN g o.1).op ≠ GOp.entry ∧
        (getN g o.1).mate = some m := by
  intro ops
  induction ops with
  | nil =>
      intro l h m hm
      have hl : l = [] := by
        have h2 : (some [] : Option (List Nat)) = some l := h
        injection h2 with h2
        exact h2.symm
      subst hl
      simp at hm
  | cons o t ih =>
      intro l h m hm
      have hrw : matesOf g (o :: t)
          = match matesOf g t with
            | Option.none => Option.none
            | some l2 =>
                if (getN g o.1).op == GOp.entry then some l2
                else
                  match (getN g o.1).mate with
                  | some mm => some (mm :: l2)
                  | Option.none => Option.none := rfl
      rw [hrw] at h
      rcases hmt : matesOf g t with _ | l2
      · rw [hmt] at h; exact absurd h (by simp)
      · rw [hmt] at h
        dsimp only at h
        rcases hop : ((getN g o.1).op == GOp.entry) with _ | _
        · rw [hop] at h
          rw [if_neg (by simp)] at h
          rcases hmm : (getN g o.1).mate with _ | m0
          · rw [hmm] at h; exact absurd h (by simp)
          · rw [hmm] at h
            injection h with h2
            subst h2
            rcases List.mem_cons.mp hm with rfl | hm2
            · refine ⟨o, List.mem_cons_self o t, ?_, hmm⟩
              intro hc
              rw [hc] at hop
              simp at hop
            · obtain ⟨o2, ho2, hne, hmate⟩ := ih l2 hmt m hm2
              exact ⟨o2, List.mem_cons_of_mem o ho2, hne, hmate⟩
        · rw [hop] at h
          rw [if_pos rfl] at h
          injection h with h2
          subst h2
          obtain ⟨o2, ho2, hne, hmate⟩ := ih l2 hmt m hm
          exact ⟨o2, List.mem_cons_of_mem o ho2, hne, hmate⟩

/-- Soundness of the worklist walk: under a property closed under the
walk step, every block erased from the unseen list satisfies it, and the
surviving unseen list is a sublist of the original. -/
theorem kaBfs_sound (g : KGraph) (P : Nat → Prop)
    (hstep : ∀ n, P n → ∀ pushes,
      matesOf g (getN g n).operands = some pushes → ∀ m ∈ pushes, P m) :
    ∀ (fuel : Nat) (q unseen : List Nat), (∀ n ∈ q, P n) →
      ∀ u2, kaBfs g fuel q unseen = some u2 →
        (∀ b ∈ unseen, b ∉ u2 → P b) ∧ u2.Sublist unseen := by
  intro fuel
  induction fuel with
  | zero =>
      intro q unseen hq u2 h
      exact absurd h (by simp [kaBfs])
  | succ f ih =>
      intro q unseen hq u2 h
      rcases q with _ | ⟨n, rest⟩
      · have h2 : (some unseen : Option (List Nat)) = some u2 := h
        injection h2 with h2
        subst h2
        exact ⟨fun b hb hnb => absurd hb hnb, List.Sublist.refl _⟩
      · have hrw : kaBfs g (f + 1) (n :: rest) unseen
            = if n ∈ unseen then
                match matesOf g (getN g n).operands with
                | Option.none => Option.none
                | some pushes => kaBfs g f (rest ++ pushes) (unseen.erase n)
              else kaBfs g f rest unseen := rfl
        rw [hrw] at h
        by_cases hn : n ∈ unseen
        · rw [if_pos hn] at h
          rcases hp : matesOf g (getN g n).operands with _ | pushes
          · rw [hp] at h; exact absurd h (by simp)
          · rw [hp] at h
            have hq2 : ∀ m ∈ rest ++ pushes, P m := by
              intro m hm
              rcases List.mem_append.mp hm with hm | hm
              · exact hq m (List.mem_cons_of_mem n hm)
              · exact hstep n (hq n (List.mem_cons_self n rest)) pushes hp m hm
            obtain ⟨hP, hsub⟩ := ih (rest ++ pushes) (unseen.erase n) hq2 u2 h
            refine ⟨?_, hsub.trans (List.erase_sublist n unseen)⟩
            intro b hb hbn
            by_cases hbe : b = n
            · subst hbe; exact hq b (List.mem_cons_self b rest)
            · exact hP b ((List.mem_erase_of_ne hbe).mpr hb) hbn
        · rw [if_neg hn] at h
          exact ih rest unseen (fun m hm => hq m (List.mem_cons_of_mem n hm)) u2 h

/-- The pairing invariant gives each enumerated block a terminator mated
back to it. -/
theorem pairInv_mate (g : KGraph) (blocks : List Nat)
    (h : pairInvB g blocks = true) :
    ∀ b ∈ blocks, ∃ t, (getN g b).mate = some t ∧ (getN g t).mate = some b := by
  intro b hb
  have hb2 := List.all_eq_true.mp h b hb
  rcases hmb : (getN g b).mate with _ | t
  · rw [hmb] at hb2; simp at hb2
  · rw [hmb] at hb2
    refine ⟨t, rfl, ?_⟩
    simp only [Bool.and_eq_true, beq_iff_eq] at hb2
    exact hb2.2.2

/-- Soundness of the keepalive-insertion rounds: the graph only gains
exit operands, every block still unseen at the start is reachable from
exit in the final graph, and every operand gained points at a jmp
terminator. -/
theorem kaRounds_sound :
    ∀ (fuel : Nat) (g : KGraph) (unseen : List Nat) (h : KGraph),
      kaRounds g fuel unseen = some h →
      g.exitIdx < g.nodes.length →
      (∀ b ∈ unseen, ∃ t, (getN g b).mate = some t ∧ (getN g t).mate = some b) →
      KMono g h ∧ (∀ b ∈ unseen, ReachExit h b) ∧
      ∃ added, (getN h g.exitIdx).operands
          = (getN g g.exitIdx).operands ++ added ∧
        ∀ o ∈ added, (getN h o.1).op = GOp.jmp := by
  intro fuel
  induction fuel with
  | zero => intro g unseen h hr hex hm; exact absurd hr (by simp [kaRounds])
  | succ f ih =>
      intro g unseen h hr hex hm
      have hrw : kaRounds g (f + 1) unseen
          = if unseen.isEmpty then some g
            else
              match unseen.reverse.find? (fun b =>
                  match (getN g b).mate with
                  | some t => (getN g t).op == GOp.jmp
                  | Option.none => false) with
              | Option.none => Option.none
              | some b =>
                  match (getN g b).mate with
                  | Option.none => Option.none
                  | some t =>
                      let g1 := operand_add g g.exitIdx (t, 0)
                      match kaBfs g1 (kaBfsFuel g1 [b] unseen) [b] unseen with
                      | Option.none => Option.none
                      | some u2 => kaRounds g1 f u2 := rfl
      rw [hrw] at hr
      by_cases hemp : unseen.isEmpty
      · rw [if_pos hemp] at hr
        injection hr with hr
        subst hr
        refine ⟨KMono_refl g, ?_, ⟨[], by simp, by simp⟩⟩
        intro b hb
        rw [List.isEmpty_iff.mp hemp] at hb
        simp at hb
      · rw [if_neg hemp] at hr
        rcases hfind : unseen.reverse.find? (fun b =>
            match (getN g b).mate with
            | some t => (getN g t).op == GOp.jmp
            | Option.none => false) with _ | b
        · rw [hfind] at hr; exact absurd hr (by simp)
        · rw [hfind] at hr
          dsimp only at hr
          rcases hmate : (getN g b).mate with _ | t
          · rw [hmate] at hr; exact absurd hr (by simp)
          · rw [hmate] at hr
            dsimp only at hr
            rcases hbfs : kaBfs (operand_add g g.exitIdx (t, 0))
                (kaBfsFuel (operand_add g g.exitIdx (t, 0)) [b] unseen) [b] unseen
              with _ | u2
            · rw [hbfs] at hr; exact absurd hr (by simp)
            · rw [hbfs] at hr
              dsimp only at hr
              set g1 := operand_add g g.exitIdx (t, 0) with hg1
              have hKgg1 : KMono g g1 := by
                rw [hg1]; exact KMono_operand_add g g.exitIdx (t, 0)
              have hbU : b ∈ unseen :=
                List.mem_reverse.mp (List.mem_of_find?_eq_some hfind)
              have hpred := List.find?_some hfind
              simp only [hmate] at hpred
              have htjmp : (getN g t).op = GOp.jmp := by simpa using hpred
              obtain ⟨-, hsub⟩ := kaBfs_sound g1 (fun _ => True)
                (by intro n hn p hp m hm2; trivial)
                _ [b] unseen (by intro n hn; trivial) u2 hbfs
              have hex1 : g1.exitIdx < g1.nodes.length := by
                rw [hg1, (operand_add_pres g g.exitIdx (t, 0)).2.1,
                  (operand_add_pres g g.exitIdx (t, 0)).1]
                exact hex
              have hmate1 : ∀ bq ∈ u2, ∃ tq, (getN g1 bq).mate = some tq ∧
                  (getN g1 tq).mate = some bq := by
                intro bq hq2
                obtain ⟨tq, ht1, ht2⟩ := hm bq (hsub.subset hq2)
                obtain ⟨-, -, f1⟩ := hKgg1
                exact ⟨tq, by rw [← (f1 bq).2.1]; exact ht1,
                  by rw [← (f1 tq).2.1]; exact ht2⟩
              obtain ⟨hKM1, hreach2, added1, hops1, hjmp1⟩ :=
                ih g1 u2 h hr hex1 hmate1
              have hKM : KMono g h := KMono_trans hKgg1 hKM1
              have hexOps : (getN g1 g.exitIdx).operands
                  = (getN g g.exitIdx).operands ++ [(t, 0)] := by
                rw [hg1]; exact (operand_add_pres g g.exitIdx (t, 0)).2.2.2.2 hex
              refine ⟨hKM, ?_, ⟨(t, 0) :: added1, ?_, ?_⟩⟩
              · intro bq hbq
                by_cases hin : bq ∈ u2
                · exact hreach2 bq hin
                · have hseed : ReachExit h b := by
                    obtain ⟨tb, htb1, htb2⟩ := hm b hbU
                    rw [hmate] at htb1
                    injection htb1 with htb1
                    subst htb1
                    refine ReachExit.ofExit (t, 0) b ?_ ?_
                    · obtain ⟨he1, -, f1⟩ := hKM1
                      have hgex : g.exitIdx = h.exitIdx := by
                        rw [← he1, hg1]; rfl
                      rw [← hgex]
                      obtain ⟨-, -, ext, hext⟩ := f1 g.exitIdx
                      rw [hext, hexOps]
                      simp
                    · obtain ⟨-, -, f1⟩ := hKM
                      rw [← (f1 t).2.1]
                      exact htb2
                  obtain ⟨hPer, -⟩ := kaBfs_sound g1 (ReachExit h)
                    (by
                      intro n hPn pushes hp m hmp
                      obtain ⟨o, ho, hne, hmm2⟩ := matesOf_mem g1 _ pushes hp m hmp
                      obtain ⟨-, -, f1⟩ := hKM1
                      refine ReachExit.step n m o hPn ?_ ?_ ?_
                      · obtain ⟨-, -, ext, hext⟩ := f1 n
                        rw [hext]
                        exact List.mem_append.mpr (Or.inl ho)
                      · rw [← (f1 o.1).1]; exact hne
                      · rw [← (f1 o.1).2.1]; exact hmm2)
                    _ [b] unseen
                    (by
                      intro n hn
                      rw [List.mem_singleton] at hn
                      subst hn
                      exact hseed)
                    u2 hbfs
                  exact hPer bq hbq hin
              · have hgex1 : g1.exitIdx = g.exitIdx := by rw [hg1]; rfl
                rw [hgex1] at hops1
                rw [hops1, hexOps, List.append_assoc]
                rfl
              · intro o ho
                rcases List.mem_cons.mp ho with rfl | ho2
                · show (getN h t).op = GOp.jmp
                  obtain ⟨-, -, f1⟩ := hKM
                  rw [← (f1 t).1]
                  exact htjmp
                · exact hjmp1 o ho2

/-- Every seed of update_keepalive is the mate of a kept (non-keepalive,
non-entry) exit operand. -/
theorem ukSeeds_mem (g : KGraph) :
    ∀ (ops : List (Nat × Nat)) (q : List Nat),
      ops.foldr
        (fun o acc =>
          match acc with
          | Option.none => Option.none
          | some q =>
              if refCount g o = 2 then some q
              else if (getN g o.1).op == GOp.entry then Option.none
              else
                match (getN g o.1).mate with
                | some m => some (m :: q)
                | Option.none => Option.none)
        (some []) = some q →
      ∀ m ∈ q, ∃ o ∈ ops, ¬refCount g o = 2 ∧ (getN g o.1).mate = some m := by
  intro ops
  induction ops with
  | nil =>
      intro q h m hm
      have h2 : (some [] : Option (List Nat)) = some q := h
      injection h2 with h2
      subst h2
      simp at hm
  | cons o t ih =>
      intro q h m hm
      rw [List.foldr_cons] at h
      set racc := t.foldr
        (fun o acc =>
          match acc with
          | Option.none => Option.none
          | some q =>
              if refCount g o = 2 then some q
              else if (getN g o.1).op == GOp.entry then Option.none
              else
                match (getN g o.1).mate with
                | some m => some (m :: q)
                | Option.none => Option.none)
        (some []) with hft
      rcases hracc : racc with _ | q2
      · rw [hracc] at h
        exact absurd h (by simp)
      · rw [hracc] at h
        dsimp only at h
        have hftq2 := hft.symm.trans hracc
        by_cases hrc : refCount g o = 2
        · rw [if_pos hrc] at h
          injection h with h2
          subst h2
          obtain ⟨o2, ho2, hx⟩ := ih _ hftq2 m hm
          exact ⟨o2, List.mem_cons_of_mem o ho2, hx⟩
        · rw [if_neg hrc] at h
          by_cases hop : ((getN g o.1).op == GOp.entry) = true
          · rw [if_pos hop] at h
            exact absurd h (by simp)
          · rw [if_neg hop] at h
            rcases hmm : (getN g o.1).mate with _ | m0
            · rw [hmm] at h
              exact absurd h (by simp)
            · rw [hmm] at h
              injection h with h2
              subst h2
              rcases List.mem_cons.mp hm with rfl | hm2
              · exact ⟨o, List.mem_cons_self o t, hrc, hmm⟩
              · obtain ⟨o2, ho2, hx⟩ := ih _ hftq2 m hm2
                exact ⟨o2, List.mem_cons_of_mem o ho2, hx⟩

/-- Claim C8: under control linearity a control value has one user, or
two with one of them the exit node; get_target returns the unique
non-exit user (the single user when there is one, and the user that is
not the exit node when a keepalive edge doubles the count).  And on a
graph whose enumerated blocks satisfy the pairing invariant,
update_keepalive first drops every existing keepalive operand of exit
(those with use count 2), then inserts keepalive edges only to jmp
terminators until every enumerated block is reachable from exit. -/
theorem c8_control_linearity_keepalive :
    (∀ (g : KGraph) (v : Nat × Nat) (u : Nat),
        refsAt g v = [u] → getTarget g v = some u) ∧
    (∀ (g : KGraph) (v : Nat × Nat) (a bq : Nat),
        refsAt g v = [a, bq] → (getN g a).op = GOp.exit →
        (getN g bq).op ≠ GOp.exit → getTarget g v = some bq) ∧
    (∀ (g : KGraph) (v : Nat × Nat) (a bq : Nat),
        refsAt g v = [a, bq] → (getN g a).op ≠ GOp.exit →
        getTarget g v = some a) ∧
    (∀ (g h : KGraph) (blocks : List Nat),
        g.exitIdx < g.nodes.length →
        pairInvB g blocks = true →
        update_keepalive g blocks = some h →
        (∀ b ∈ blocks, ReachExit h b) ∧
        ∃ added,
          (getN h g.exitIdx).operands
            = (getN g g.exitIdx).operands.filter
                (fun o => !(refCount g o == 2)) ++ added ∧
          ∀ o ∈ added, (getN h o.1).op = GOp.jmp) := by
  refine ⟨?_, ?_, ?_, ?_⟩
  · intro g v u hr
    simp [getTarget, hr, List.find?]
  · intro g v a bq hr ha hb
    have hb2 : ((getN g bq).op == GOp.exit) = false := beq_eq_false_iff_ne.mpr hb
    simp [getTarget, hr, List.find?, ha, hb2]
  · intro g v a bq hr ha
    simp [getTarget, hr, List.find?, ha]
  · intro g h blocks hex hpair huk
    unfold update_keepalive at huk
    dsimp only at huk
    rcases hq0 : (getN g g.exitIdx).operands.foldr
        (fun o acc =>
          match acc with
          | Option.none => Option.none
          | some q =>
              if refCount g o = 2 then some q
              else if (getN g o.1).op == GOp.entry then Option.none
              else
                match (getN g o.1).mate with
                | some m => some (m :: q)
                | Option.none => Option.none)
        (some []) with _ | q0
    · rw [hq0] at huk
      exact absurd huk (by simp)
    · rw [hq0] at huk
      dsimp only at huk
      set g1 := (if (getN g g.exitIdx).operands.any (fun o => refCount g o == 2) then
          operands_set g g.exitIdx
            ((getN g g.exitIdx).operands.filter (fun o => !(refCount g o == 2)))
        else g) with hg1
      rcases hbfs : kaBfs g1 (kaBfsFuel g1 q0 blocks) q0 blocks with _ | u1
      · rw [hbfs] at huk
        exact absurd huk (by simp)
      · rw [hbfs] at huk
        dsimp only at huk
        have hg1len : g1.nodes.length = g.nodes.length := by
          rw [hg1]
          by_cases hany : (getN g g.exitIdx).operands.any
              (fun o => refCount g o == 2)
          · rw [if_pos hany]; exact (operands_set_pres g g.exitIdx _).1
          · rw [if_neg hany]
        have hg1exit : g1.exitIdx = g.exitIdx := by
          rw [hg1]
          by_cases hany : (getN g g.exitIdx).operands.any
              (fun o => refCount g o == 2)
          · rw [if_pos hany]; exact (operands_set_pres g g.exitIdx _).2.1
          · rw [if_neg hany]
        have hg1om : ∀ j, (getN g1 j).op = (getN g j).op ∧
            (getN g1 j).mate = (getN g j).mate := by
          intro j
          rw [hg1]
          by_cases hany : (getN g g.exitIdx).operands.any
              (fun o => refCount g o == 2)
          · rw [if_pos hany]; exact (operands_set_pres g g.exitIdx _).2.2.1 j
          · rw [if_neg hany]; exact ⟨rfl, rfl⟩
        have hg1exOps : (getN g1 g.exitIdx).operands
            = (getN g g.exitIdx).operands.filter
                (fun o => !(refCount g o == 2)) := by
          rw [hg1]
          by_cases hany : (getN g g.exitIdx).operands.any
              (fun o => refCount g o == 2)
          · rw [if_pos hany]
            exact (operands_set_pres g g.exitIdx _).2.2.2.2 hex
          · rw [if_neg hany]
            refine (List.filter_eq_self.mpr ?_).symm
            intro o ho
            have h2 : ∀ x ∈ (getN g g.exitIdx).operands,
                ¬(refCount g x == 2) = true := by simpa using hany
            simpa using h2 o ho
        have hexops1 : g1.exitIdx < g1.nodes.length := by
          rw [hg1exit, hg1len]; exact hex
        obtain ⟨-, hsub1⟩ := kaBfs_sound g1 (fun _ => True)
          (by intro n hn p hp m hm2; trivial)
          _ q0 blocks (by intro n hn; trivial) u1 hbfs
        have hmateu1 : ∀ b ∈ u1, ∃ t, (getN g1 b).mate = some t ∧
            (getN g1 t).mate = some b := by
          intro b hb
          obtain ⟨t, h1, h2⟩ := pairInv_mate g blocks hpair b (hsub1.subset hb)
          exact ⟨t, by rw [(hg1om b).2]; exact h1,
            by rw [(hg1om t).2]; exact h2⟩
        obtain ⟨hKM1, hreach1, added, hops, hjmp⟩ :=
          kaRounds_sound (u1.length + 1) g1 u1 h huk hexops1 hmateu1
        constructor
        · have hseeds : ∀ m ∈ q0, ReachExit h m := by
            intro m hmq
            obtain ⟨o, ho, hrc, hmm⟩ := ukSeeds_mem g _ q0 hq0 m hmq
            refine ReachExit.ofExit o m ?_ ?_
            · have hgex : g.exitIdx = h.exitIdx := by rw [← hKM1.1, hg1exit]
              rw [← hgex]
              obtain ⟨-, -, ext, hext⟩ := hKM1.2.2 g.exitIdx
              rw [hext, hg1exOps]
              refine List.mem_append.mpr (Or.inl ?_)
              refine List.mem_filter.mpr ⟨ho, ?_⟩
              simp [hrc]
            · rw [← (hKM1.2.2 o.1).2.1, (hg1om o.1).2]
              exact hmm
          intro b hb
          by_cases hin : b ∈ u1
          · exact hreach1 b hin
          · obtain ⟨hPer, -⟩ := kaBfs_sound g1 (ReachExit h)
              (by
                intro n hPn pushes hp m hmp
                obtain ⟨o, ho, hne, hmm2⟩ := matesOf_mem g1 _ pushes hp m hmp
                refine ReachExit.step n m o hPn ?_ ?_ ?_
                · obtain ⟨-, -, ext, hext⟩ := hKM1.2.2 n
                  rw [hext]
                  exact List.mem_append.mpr (Or.inl ho)
                · rw [← (hKM1.2.2 o.1).1]; exact hne
                · rw [← (hKM1.2.2 o.1).2.1]; exact hmm2)
              _ q0 blocks hseeds u1 hbfs
            exact hPer b hb hin
        · refine ⟨added, ?_, hjmp⟩
          rw [hg1exit] at hops
          rw [hops, hg1exOps]

/-- Claim C8 witness: concrete get_target reads on the keepalive graphs
(one user; two users with exit first; two users with the real user
first), and a run of update_keepalive on keepaliveG that inserts the
keepalive edge (4, 0) and makes both blocks reachable from exit. -/
theorem c8_witness :
    getTarget keepaliveG (1, 0) = some 3 ∧
    getTarget (⟨[⟨.jmp, [], [[2, 1]], Option.none⟩,
        ⟨.block, [], [], Option.none⟩,
        ⟨.exit, [], [], Option.none⟩], 2⟩ : KGraph) (0, 0) = some 1 ∧
    getTarget keepaliveGq (0, 0) = some 1 ∧
    ((∀ b ∈ [1, 2], ReachExit keepaliveGq b) ∧
      ∃ added, (getN keepaliveGq keepaliveG.exitIdx).operands
          = (getN keepaliveG keepaliveG.exitIdx).operands.filter
              (fun o => !(refCount keepaliveG o == 2)) ++ added ∧
        ∀ o ∈ added, (getN keepaliveGq o.1).op = GOp.jmp) := by
  obtain ⟨h1, h2, h3, h4⟩ := c8_control_linearity_keepalive
  exact ⟨h1 keepaliveG (1, 0) 3 (by decide),
    h2 _ (0, 0) 2 1 (by decide) (by decide) (by decide),
    h3 keepaliveGq (0, 0) 1 2 (by decide) (by decide),
    h4 keepaliveG keepaliveGq [1, 2] (by decide) (by decide) (by decide)⟩

/-! Bridges between the Bool well-formedness checkers and their
propositional contents. -/

theorem coherentB_iff (g : KGraph) : coherentB g = true ↔ Coherent g := by
  simp only [coherentB, Coherent, List.all_eq_true, List.mem_range,
    Bool.and_eq_true, decide_eq_true_eq]
  exact ⟨fun h n hn => ⟨(h n hn).1.1, (h n hn).1.2, (h n hn).2⟩,
    fun h n hn => ⟨⟨(h n hn).1, (h n hn).2.1⟩, (h n hn).2.2⟩⟩

theorem pairInvB_iff (g : KGraph) (blocks : List Nat) :
    pairInvB g blocks = true ↔ PairInv g blocks := by
  simp only [pairInvB, List.all_eq_true]
  constructor
  · intro h b hb
    have h2 := h b hb
    rcases hmb : (getN g b).mate with _ | t
    · rw [hmb] at h2; simp at h2
    · rw [hmb] at h2
      simp only [Bool.and_eq_true, beq_iff_eq, Bool.or_eq_true] at h2
      exact ⟨h2.1, t, rfl, h2.2.1, h2.2.2⟩
  · intro h b hb
    obtain ⟨hop, t, hmt, hto, htb⟩ := h b hb
    rw [hmt]
    simp only [Bool.and_eq_true, beq_iff_eq, Bool.or_eq_true]
    exact ⟨hop, hto, htb⟩

theorem getN_oob (g : KGraph) (n : Nat) (h : ¬ n < g.nodes.length) :
    getN g n = defaultGNode := by
  simp [getN, List.getD_eq_getElem?_getD,
    List.getElem?_eq_none (Nat.le_of_not_lt h)]

theorem predPair_of (g : KGraph) (blocks : List Nat)
    (h : predPairB g blocks = true) : PredPair g blocks := by
  intro bq hbq o ho hop pbq hm
  have h2 := List.all_eq_true.mp (List.all_eq_true.mp h bq hbq) o ho
  rw [hop, hm] at h2
  simpa using h2

theorem controlEdges_of (g : KGraph) (h : controlEdgesB g = true) :
    ControlEdges g := by
  intro n o ho hop
  by_cases hn : n < g.nodes.length
  · have h2 := List.all_eq_true.mp
      (List.all_eq_true.mp h n (List.mem_range.mpr hn)) o ho
    rw [hop] at h2
    simpa using h2
  · rw [getN_oob g n hn] at ho
    simp [defaultGNode] at ho

theorem jmpWf_of (g : KGraph) (h : jmpWfB g = true) : JmpWf g := by
  intro n hop
  by_cases hn : n < g.nodes.length
  · have h2 := List.all_eq_true.mp h n (List.mem_range.mpr hn)
    rw [hop] at h2
    simp only [beq_self_eq_true, Bool.not_true, Bool.false_or,
      Bool.and_eq_true, Bool.not_eq_true', decide_eq_true_eq] at h2
    refine ⟨?_, h2.2⟩
    intro hc
    have h3 := h2.1
    rw [hc] at h3
    simp at h3
  · rw [getN_oob g n hn] at hop
    simp [defaultGNode] at hop

/-! Multiplicity bookkeeping for the operand-substitution map of
Pass::replace. -/

theorem count_map_subst_new (oldv newv : Nat × Nat)
    (hne : oldv ≠ newv) :
    ∀ (l : List (Nat × Nat)),
      (l.map (fun o => if o = oldv then newv else o)).count newv
      = l.count newv + l.count oldv := by
  intro l
  induction l with
  | nil => rfl
  | cons a t ih =>
      by_cases ha : a = oldv
      · rw [List.map_cons, if_pos ha, ha]
        rw [List.count_cons, List.count_cons, List.count_cons, ih]
        simp [hne, Ne.symm hne]
        omega
      · rw [List.map_cons, if_neg ha]
        rw [List.count_cons, List.count_cons, List.count_cons, ih]
        have hao : (a == oldv) = false := beq_eq_false_iff_ne.mpr ha
        rw [hao]
        simp
        omega

theorem count_map_subst_old (oldv newv : Nat × Nat)
    (hne : oldv ≠ newv) :
    ∀ (l : List (Nat × Nat)),
      (l.map (fun o => if o = oldv then newv else o)).count oldv
      = 0 := by
  intro l
  induction l with
  | nil => rfl
  | cons a t ih =>
      by_cases ha : a = oldv
      · rw [List.map_cons, if_pos ha]
        rw [List.count_cons, ih]
        simp [Ne.symm hne]
      · rw [List.map_cons, if_neg ha]
        rw [List.count_cons, ih]
        have h1 : (a == oldv) = false := beq_eq_false_iff_ne.mpr ha
        rw [h1]
        simp

theorem count_map_subst_other (oldv newv v : Nat × Nat)
    (hvo : v ≠ oldv) (hvn : v ≠ newv) :
    ∀ (l : List (Nat × Nat)),
      (l.map (fun o => if o = oldv then newv else o)).count v
      = l.count v := by
  intro l
  induction l with
  | nil => rfl
  | cons a t ih =>
      by_cases ha : a = oldv
      · rw [List.map_cons, if_pos ha, ha]
        rw [List.count_cons, List.count_cons, ih]
        have h1 : (newv == v) = false := beq_eq_false_iff_ne.mpr (Ne.symm hvn)
        have h2 : (oldv == v) = false := beq_eq_false_iff_ne.mpr (Ne.symm hvo)
        rw [h1, h2]
      · rw [List.map_cons, if_neg ha]
        rw [List.count_cons, List.count_cons, ih]

/-! Anatomy of the modelled Pass::replace. -/

theorem getD_set_self2 {α : Type} (l : List α) (i : Nat) (x d : α)
    (h : i < l.length) : (l.set i x).getD i d = x := by
  rw [List.getD_eq_getElem?_getD, List.getElem?_set_self h]
  rfl

theorem getD_set_ne2 {α : Type} (l : List α) (i j : Nat) (x d : α) (h : j ≠ i) :
    (l.set i x).getD j d = l.getD j d := by
  rw [List.getD_eq_getElem?_getD, List.getElem?_set_ne (fun hh => h hh.symm),
    ← List.getD_eq_getElem?_getD]

theorem getD_mem2 {α : Type} (l : List α) (k : Nat) (d : α) (h : k < l.length) :
    l.getD k d ∈ l := by
  rw [List.getD_eq_getElem?_getD, List.getElem?_eq_getElem h]
  exact List.getElem_mem h

theorem getN_mapSubst (g : KGraph) (F : GNode → GNode) (j : Nat)
    (h : j < g.nodes.length) :
    getN { g with nodes := g.nodes.map F } j = F (getN g j) := by
  simp [getN, List.getD_eq_getElem?_getD, List.getElem?_eq_getElem h,
    List.getElem?_map]

theorem getN_mapSubst_ge (g : KGraph) (F : GNode → GNode) (j : Nat)
    (h : ¬ j < g.nodes.length) :
    getN { g with nodes := g.nodes.map F } j = getN g j := by
  have h2 : ¬ j < (g.nodes.map F).length := by simpa using h
  rw [getN_oob g j h]
  show getN ⟨g.nodes.map F, g.exitIdx⟩ j = defaultGNode
  exact getN_oob ⟨g.nodes.map F, g.exitIdx⟩ j h2

theorem passReplace_len (g : KGraph) (oldv newv : Nat × Nat) :
    (passReplace g oldv newv).nodes.length = g.nodes.length := by
  unfold passReplace
  by_cases hne : oldv = newv
  · rw [if_pos hne]
  · rw [if_neg hne]
    dsimp only
    rw [setNode_len, setNode_len]
    simp

theorem passReplace_exit (g : KGraph) (oldv newv : Nat × Nat) :
    (passReplace g oldv newv).exitIdx = g.exitIdx := by
  unfold passReplace
  by_cases hne : oldv = newv
  · rw [if_pos hne]
  · rw [if_neg hne]
    dsimp only
    rw [setNode_exit, setNode_exit]

theorem passReplace_fields (g : KGraph) (oldv newv : Nat × Nat) (j : Nat) :
    (getN (passReplace g oldv newv) j).op = (getN g j).op ∧
    (getN (passReplace g oldv newv) j).mate = (getN g j).mate ∧
    (getN (passReplace g oldv newv) j).refs.length
      = (getN g j).refs.length := by
  unfold passReplace
  by_cases hne : oldv = newv
  · rw [if_pos hne]; exact ⟨rfl, rfl, rfl⟩
  · rw [if_neg hne]
    dsimp only
    set F := fun nd : GNode =>
      { nd with operands := nd.operands.map (fun o => if o = oldv then newv else o) }
      with hF
    set g1 := { g with nodes := g.nodes.map F } with hg1
    have hf1 : ∀ i, (getN g1 i).op = (getN g i).op ∧
        (getN g1 i).mate = (getN g i).mate ∧ (getN g1 i).refs = (getN g i).refs := by
      intro i
      by_cases hi : i < g.nodes.length
      · rw [hg1, getN_mapSubst g F i hi]; exact ⟨rfl, rfl, rfl⟩
      · rw [hg1, getN_mapSubst_ge g F i hi]; exact ⟨rfl, rfl, rfl⟩
    set g2 := setNode g1 oldv.1
      (fun nd => { nd with refs := nd.refs.set oldv.2 [] }) with hg2
    have hf2 : ∀ i, (getN g2 i).op = (getN g1 i).op ∧
        (getN g2 i).mate = (getN g1 i).mate ∧
        (getN g2 i).refs.length = (getN g1 i).refs.length := by
      intro i
      by_cases hi : i = oldv.1
      · rw [hi]
        by_cases hr : oldv.1 < g1.nodes.length
        · rw [hg2, getN_setNode_self _ _ _ hr]
          exact ⟨rfl, rfl, by simp⟩
        · rw [hg2, setNode_oob _ _ _ hr]
          exact ⟨rfl, rfl, rfl⟩
      · rw [hg2, getN_setNode_ne _ _ _ _ hi]
        exact ⟨rfl, rfl, rfl⟩
    set f3 := fun nd : GNode => { nd with refs := nd.refs.set newv.2 (nd.refs.getD newv.2 [] ++ refsAt g oldv) } with hf3d
    have hf3 : ∀ i, (getN (setNode g2 newv.1 f3) i).op = (getN g2 i).op ∧
        (getN (setNode g2 newv.1 f3) i).mate = (getN g2 i).mate ∧
        (getN (setNode g2 newv.1 f3) i).refs.length
          = (getN g2 i).refs.length := by
      intro i
      by_cases hi : i = newv.1
      · rw [hi]
        by_cases hr : newv.1 < g2.nodes.length
        · rw [getN_setNode_self _ _ _ hr, hf3d]
          exact ⟨rfl, rfl, by simp⟩
        · rw [setNode_oob _ _ _ hr]
          exact ⟨rfl, rfl, rfl⟩
      · rw [getN_setNode_ne _ _ _ _ hi]
        exact ⟨rfl, rfl, rfl⟩
    obtain ⟨a1, a2, a3⟩ := hf3 j
    obtain ⟨b1, b2, b3⟩ := hf2 j
    obtain ⟨c1, c2, c3⟩ := hf1 j
    exact ⟨a1.trans (b1.trans c1), a2.trans (b2.trans c2),
      a3.trans (b3.trans (by rw [c3]))⟩

theorem getD_oob {α : Type} (l : List α) (k : Nat) (d : α)
    (h : ¬ k < l.length) : l.getD k d = d := by
  rw [List.getD_eq_getElem?_getD, List.getElem?_eq_none (Nat.le_of_not_lt h)]
  rfl

theorem passReplace_operands (g : KGraph) (oldv newv : Nat × Nat)
    (hne : oldv ≠ newv) (j : Nat) :
    (getN (passReplace g oldv newv) j).operands
      = (getN g j).operands.map (fun o => if o = oldv then newv else o) := by
  unfold passReplace
  rw [if_neg hne]
  dsimp only
  set F := fun nd : GNode =>
    { nd with operands := nd.operands.map (fun o => if o = oldv then newv else o) }
    with hF
  set g1 := { g with nodes := g.nodes.map F } with hg1
  have h1 : (getN g1 j).operands
      = (getN g j).operands.map (fun o => if o = oldv then newv else o) := by
    by_cases hj : j < g.nodes.length
    · rw [hg1, getN_mapSubst g F j hj, hF]
    · rw [hg1, getN_mapSubst_ge g F j hj, getN_oob g j hj]
      rfl
  set g2 := setNode g1 oldv.1
    (fun nd => { nd with refs := nd.refs.set oldv.2 [] }) with hg2
  have h2 : (getN g2 j).operands = (getN g1 j).operands := by
    by_cases hi : j = oldv.1
    · rw [hi]
      by_cases hr : oldv.1 < g1.nodes.length
      · rw [hg2, getN_setNode_self _ _ _ hr]
      · rw [hg2, setNode_oob _ _ _ hr]
    · rw [hg2, getN_setNode_ne _ _ _ _ hi]
  set f3 := fun nd : GNode => { nd with refs := nd.refs.set newv.2 (nd.refs.getD newv.2 [] ++ refsAt g oldv) } with hf3d
  have h3 : (getN (setNode g2 newv.1 f3) j).operands = (getN g2 j).operands := by
    by_cases hi : j = newv.1
    · rw [hi]
      by_cases hr : newv.1 < g2.nodes.length
      · rw [getN_setNode_self _ _ _ hr, hf3d]
      · rw [setNode_oob _ _ _ hr]
    · rw [getN_setNode_ne _ _ _ _ hi]
  rw [h3, h2, h1]

theorem passReplace_refs_common (g : KGraph) (oldv newv : Nat × Nat)
    (hne : oldv ≠ newv) :
    ∀ j, (getN (passReplace g oldv newv) j).refs
      = (if j = newv.1 ∧ newv.1 < g.nodes.length then
          ((if j = oldv.1 ∧ oldv.1 < g.nodes.length then
              (getN g j).refs.set oldv.2 []
            else (getN g j).refs).set newv.2
            ((if j = oldv.1 ∧ oldv.1 < g.nodes.length then
                (getN g j).refs.set oldv.2 []
              else (getN g j).refs).getD newv.2 [] ++ refsAt g oldv))
        else
          (if j = oldv.1 ∧ oldv.1 < g.nodes.length then
            (getN g j).refs.set oldv.2 []
          else (getN g j).refs)) := by
  intro j
  unfold passReplace
  rw [if_neg hne]
  dsimp only
  set F := fun nd : GNode =>
    { nd with operands := nd.operands.map (fun o => if o = oldv then newv else o) }
    with hF
  set g1 := { g with nodes := g.nodes.map F } with hg1
  have hlen1 : g1.nodes.length = g.nodes.length := by rw [hg1]; simp
  have h1 : ∀ i, (getN g1 i).refs = (getN g i).refs := by
    intro i
    by_cases hi : i < g.nodes.length
    · rw [hg1, getN_mapSubst g F i hi]
    · rw [hg1, getN_mapSubst_ge g F i hi]
  set g2 := setNode g1 oldv.1
    (fun nd => { nd with refs := nd.refs.set oldv.2 [] }) with hg2
  have hlen2 : g2.nodes.length = g.nodes.length := by
    rw [hg2, setNode_len, hlen1]
  have h2 : ∀ i, (getN g2 i).refs
      = if i = oldv.1 ∧ oldv.1 < g.nodes.length then
          (getN g i).refs.set oldv.2 []
        else (getN g i).refs := by
    intro i
    by_cases hi : i = oldv.1
    · by_cases hr : oldv.1 < g.nodes.length
      · rw [if_pos ⟨hi, hr⟩, hi]
        rw [hg2, getN_setNode_self _ _ _ (by rw [hlen1]; exact hr)]
        show ((getN g1 oldv.1).refs).set oldv.2 [] = _
        rw [h1]
      · rw [if_neg (fun hc => hr hc.2), hi]
        rw [hg2, setNode_oob _ _ _ (by rw [hlen1]; exact hr)]
        rw [h1]
    · rw [if_neg (fun hc => hi hc.1)]
      rw [hg2, getN_setNode_ne _ _ _ _ hi]
      rw [h1]
  set f3 := fun nd : GNode => { nd with refs := nd.refs.set newv.2 (nd.refs.getD newv.2 [] ++ refsAt g oldv) } with hf3d
  by_cases hj : j = newv.1
  · rw [hj]
    by_cases hr : newv.1 < g.nodes.length
    · rw [if_pos ⟨rfl, hr⟩]
      rw [getN_setNode_self _ _ _ (by rw [hlen2]; exact hr), hf3d]
      show ((getN g2 newv.1).refs).set newv.2
          ((getN g2 newv.1).refs.getD newv.2 [] ++ refsAt g oldv) = _
      rw [h2 newv.1]
    · rw [if_neg (fun hc => hr hc.2)]
      rw [setNode_oob _ _ _ (by rw [hlen2]; exact hr)]
      exact h2 newv.1
  · rw [if_neg (fun hc => hj hc.1)]
    rw [getN_setNode_ne _ _ _ _ hj]
    exact h2 j

theorem passReplace_refsAt_old (g : KGraph) (oldv newv : Nat × Nat)
    (hne : oldv ≠ newv) : refsAt (passReplace g oldv newv) oldv = [] := by
  have h := passReplace_refs_common g oldv newv hne oldv.1
  show (getN (passReplace g oldv newv) oldv.1).refs.getD oldv.2 [] = []
  rw [h]
  by_cases h1 : oldv.1 = newv.1 ∧ newv.1 < g.nodes.length
  · rw [if_pos h1]
    have hs : oldv.2 ≠ newv.2 := by
      intro hc; exact hne (Prod.ext h1.1 hc)
    rw [getD_set_ne2 _ _ _ _ _ hs]
    by_cases h3 : oldv.2 < (getN g oldv.1).refs.length
    · rw [if_pos ⟨rfl, h1.1 ▸ h1.2⟩, getD_set_self2 _ _ _ _ h3]
    · rw [if_pos ⟨rfl, h1.1 ▸ h1.2⟩, getD_oob _ _ _ (by simpa using h3)]
  · rw [if_neg h1]
    by_cases h2 : oldv.1 < g.nodes.length
    · rw [if_pos ⟨rfl, h2⟩]
      by_cases h3 : oldv.2 < (getN g oldv.1).refs.length
      · rw [getD_set_self2 _ _ _ _ h3]
      · rw [getD_oob _ _ _ (by simpa using h3)]
    · rw [if_neg (fun hc => h2 hc.2)]
      rw [getN_oob g oldv.1 h2]
      simp [defaultGNode]

theorem passReplace_refsAt_new (g : KGraph) (oldv newv : Nat × Nat)
    (hne : oldv ≠ newv) (hb1 : newv.1 < g.nodes.length)
    (hb2 : newv.2 < (getN g newv.1).refs.length) :
    refsAt (passReplace g oldv newv) newv = refsAt g newv ++ refsAt g oldv := by
  have h := passReplace_refs_common g oldv newv hne newv.1
  show (getN (passReplace g oldv newv) newv.1).refs.getD newv.2 [] = _
  rw [h, if_pos ⟨rfl, hb1⟩]
  by_cases h2 : newv.1 = oldv.1 ∧ oldv.1 < g.nodes.length
  · rw [if_pos h2]
    have hs : newv.2 ≠ oldv.2 := by
      intro hc; exact hne (Prod.ext h2.1.symm hc.symm)
    rw [getD_set_self2 _ _ _ _ (by simpa using hb2)]
    rw [getD_set_ne2 _ _ _ _ _ hs]
    rfl
  · rw [if_neg h2]
    rw [getD_set_self2 _ _ _ _ hb2]
    rfl

theorem passReplace_refsAt_other (g : KGraph) (oldv newv v : Nat × Nat)
    (hne : oldv ≠ newv) (hvo : v ≠ oldv) (hvn : v ≠ newv) :
    refsAt (passReplace g oldv newv) v = refsAt g v := by
  have h := passReplace_refs_common g oldv newv hne v.1
  show (getN (passReplace g oldv newv) v.1).refs.getD v.2 [] = _
  rw [h]
  by_cases h1 : v.1 = newv.1 ∧ newv.1 < g.nodes.length
  · rw [if_pos h1]
    have hs : v.2 ≠ newv.2 := by
      intro hc; exact hvn (Prod.ext h1.1 hc)
    rw [getD_set_ne2 _ _ _ _ _ hs]
    by_cases h2 : v.1 = oldv.1 ∧ oldv.1 < g.nodes.length
    · rw [if_pos h2]
      have hs2 : v.2 ≠ oldv.2 := by
        intro hc; exact hvo (Prod.ext h2.1 hc)
      rw [getD_set_ne2 _ _ _ _ _ hs2]
      rfl
    · rw [if_neg h2]
      rfl
  · rw [if_neg h1]
    by_cases h2 : v.1 = oldv.1 ∧ oldv.1 < g.nodes.length
    · rw [if_pos h2]
      have hs2 : v.2 ≠ oldv.2 := by
        intro hc; exact hvo (Prod.ext h2.1 hc)
      rw [getD_set_ne2 _ _ _ _ _ hs2]
      rfl
    · rw [if_neg h2]
      rfl

/-- Pass::replace preserves operand/use coherence: substituted operand
multiplicities match the moved use lists. -/
theorem passReplace_coherent (g : KGraph) (oldv newv : Nat × Nat)
    (hg : Coherent g)
    (hb1 : newv.1 < g.nodes.length)
    (hb2 : newv.2 < (getN g newv.1).refs.length) :
    Coherent (passReplace g oldv newv) := by
  by_cases hne : oldv = newv
  · unfold passReplace; rw [if_pos hne]; exact hg
  · intro n hn
    rw [passReplace_len] at hn
    obtain ⟨hA, hB, hC⟩ := hg n hn
    refine ⟨?_, ?_, ?_⟩
    · intro v hv
      rw [passReplace_operands g oldv newv hne n] at hv
      obtain ⟨o, ho, hvo⟩ := List.mem_map.mp hv
      by_cases hoo : o = oldv
      · rw [hoo, if_pos rfl] at hvo
        subst hvo
        constructor
        · rw [passReplace_len]; exact hb1
        · rw [(passReplace_fields g oldv newv newv.1).2.2]; exact hb2
      · rw [if_neg hoo] at hvo
        subst hvo
        obtain ⟨ha1, ha2⟩ := hA o ho
        exact ⟨by rw [passReplace_len]; exact ha1,
          by rw [(passReplace_fields g oldv newv o.1).2.2]; exact ha2⟩
    · intro l hl u hu
      rw [passReplace_len]
      rw [passReplace_refs_common g oldv newv hne n] at hl
      by_cases h1 : n = newv.1 ∧ newv.1 < g.nodes.length
      · rw [if_pos h1] at hl
        rcases List.mem_or_eq_of_mem_set hl with hl2 | hl2
        · by_cases h2 : n = oldv.1 ∧ oldv.1 < g.nodes.length
          · rw [if_pos h2] at hl2
            rcases List.mem_or_eq_of_mem_set hl2 with hl3 | hl3
            · exact hB l hl3 u hu
            · rw [hl3] at hu; simp at hu
          · rw [if_neg h2] at hl2
            exact hB l hl2 u hu
        · subst hl2
          rcases List.mem_append.mp hu with hu2 | hu2
          · by_cases h2 : n = oldv.1 ∧ oldv.1 < g.nodes.length
            · rw [if_pos h2] at hu2
              have hsl : newv.2 ≠ oldv.2 := by
                intro hc
                exact hne (Prod.ext (h2.1.symm.trans h1.1) hc.symm)
              rw [getD_set_ne2 _ _ _ _ _ hsl] at hu2
              by_cases h3 : newv.2 < (getN g n).refs.length
              · exact hB _ (getD_mem2 _ _ _ h3) u hu2
              · rw [getD_oob _ _ _ h3] at hu2; simp at hu2
            · rw [if_neg h2] at hu2
              by_cases h3 : newv.2 < (getN g n).refs.length
              · exact hB _ (getD_mem2 _ _ _ h3) u hu2
              · rw [getD_oob _ _ _ h3] at hu2; simp at hu2
          · by_cases h3 : oldv.1 < g.nodes.length
            · by_cases h4 : oldv.2 < (getN g oldv.1).refs.length
              · exact (hg oldv.1 h3).2.1 _ (getD_mem2 _ _ _ h4) u hu2
              · have he : refsAt g oldv = [] := getD_oob _ _ _ h4
                rw [he] at hu2; simp at hu2
            · have he : refsAt g oldv = [] := by
                unfold refsAt
                rw [getN_oob g oldv.1 h3]
                simp [defaultGNode]
              rw [he] at hu2; simp at hu2
      · rw [if_neg h1] at hl
        by_cases h2 : n = oldv.1 ∧ oldv.1 < g.nodes.length
        · rw [if_pos h2] at hl
          rcases List.mem_or_eq_of_mem_set hl with hl2 | hl2
          · exact hB l hl2 u hu
          · rw [hl2] at hu; simp at hu
        · rw [if_neg h2] at hl
          exact hB l hl u hu
    · intro m hm k hk
      rw [passReplace_len] at hm
      rw [(passReplace_fields g oldv newv m).2.2] at hk
      rw [passReplace_operands g oldv newv hne n]
      show _ = (refsAt (passReplace g oldv newv) (m, k)).count n
      by_cases hcase1 : (m, k) = oldv
      · rw [hcase1, passReplace_refsAt_old g oldv newv hne]
        rw [count_map_subst_old oldv newv hne]
        rfl
      · by_cases hcase2 : (m, k) = newv
        · rw [hcase2, passReplace_refsAt_new g oldv newv hne hb1 hb2]
          rw [count_map_subst_new oldv newv hne]
          rw [List.count_append]
          have e1 : (getN g n).operands.count newv = (refsAt g newv).count n :=
            hC newv.1 hb1 newv.2 hb2
          have e2 : (getN g n).operands.count oldv = (refsAt g oldv).count n := by
            by_cases h3 : oldv.1 < g.nodes.length
            · by_cases h4 : oldv.2 < (getN g oldv.1).refs.length
              · exact hC oldv.1 h3 oldv.2 h4
              · have hnotin : oldv ∉ (getN g n).operands := by
                  intro hc; exact h4 (hA oldv hc).2
                rw [List.count_eq_zero.mpr hnotin]
                have he : refsAt g oldv = [] := getD_oob _ _ _ h4
                rw [he]; rfl
            · have hnotin : oldv ∉ (getN g n).operands := by
                intro hc; exact h3 (hA oldv hc).1
              rw [List.count_eq_zero.mpr hnotin]
              have he : refsAt g oldv = [] := by
                unfold refsAt
                rw [getN_oob g oldv.1 h3]
                simp [defaultGNode]
              rw [he]; rfl
          rw [e1, e2]
        · rw [passReplace_refsAt_other g oldv newv (m, k) hne hcase1 hcase2]
          rw [count_map_subst_other oldv newv (m, k) hcase1 hcase2]
          exact hC m hm k hk

theorem refsAt_refAdd_self (g : KGraph) (v : Nat × Nat) (user : Nat)
    (h1 : v.1 < g.nodes.length) (h2 : v.2 < (getN g v.1).refs.length) :
    refsAt (refAdd g v user) v = refsAt g v ++ [user] := by
  unfold refsAt refAdd
  rw [getN_setNode_self _ _ _ h1]
  show ((getN g v.1).refs.set v.2 ((getN g v.1).refs.getD v.2 [] ++ [user])).getD
      v.2 [] = _
  rw [getD_set_self2 _ _ _ _ h2]

theorem refsAt_refAdd_other (g : KGraph) (v w : Nat × Nat) (user : Nat)
    (hw : w ≠ v) : refsAt (refAdd g v user) w = refsAt g w := by
  unfold refsAt refAdd
  by_cases hr : v.1 < g.nodes.length
  · by_cases hj : w.1 = v.1
    · rw [hj, getN_setNode_self _ _ _ hr]
      show ((getN g v.1).refs.set v.2
          ((getN g v.1).refs.getD v.2 [] ++ [user])).getD w.2 [] = _
      have hs : w.2 ≠ v.2 := fun hc => hw (Prod.ext hj hc)
      rw [getD_set_ne2 _ _ _ _ _ hs]
    · rw [getN_setNode_ne _ _ _ _ hj]
  · rw [setNode_oob _ _ _ hr]

theorem refsAt_refRemove_self (g : KGraph) (v : Nat × Nat) (user : Nat)
    (h1 : v.1 < g.nodes.length) (h2 : v.2 < (getN g v.1).refs.length) :
    refsAt (refRemove g v user) v = (refsAt g v).erase user := by
  unfold refsAt refRemove
  rw [getN_setNode_self _ _ _ h1]
  show ((getN g v.1).refs.set v.2
      (((getN g v.1).refs.getD v.2 []).erase user)).getD v.2 [] = _
  rw [getD_set_self2 _ _ _ _ h2]

theorem refsAt_refRemove_other (g : KGraph) (v w : Nat × Nat) (user : Nat)
    (hw : w ≠ v) : refsAt (refRemove g v user) w = refsAt g w := by
  unfold refsAt refRemove
  by_cases hr : v.1 < g.nodes.length
  · by_cases hj : w.1 = v.1
    · rw [hj, getN_setNode_self _ _ _ hr]
      show ((getN g v.1).refs.set v.2
          (((getN g v.1).refs.getD v.2 []).erase user)).getD w.2 [] = _
      have hs : w.2 ≠ v.2 := fun hc => hw (Prod.ext hj hc)
      rw [getD_set_ne2 _ _ _ _ _ hs]
    · rw [getN_setNode_ne _ _ _ _ hj]
  · rw [setNode_oob _ _ _ hr]

theorem count_set (l : List (Nat × Nat)) :
    ∀ (i : Nat) (v x : Nat × Nat), i < l.length →
      (l.set i v).count x + (if l.getD i (0, 0) = x then 1 else 0)
        = l.count x + (if v = x then 1 else 0) := by
  induction l with
  | nil => intro i v x h; simp at h
  | cons a t ih =>
      intro i v x h
      cases i with
      | zero =>
          show (v :: t).count x + (if a = x then 1 else 0) = _
          rw [List.count_cons, List.count_cons]
          by_cases hax : a = x <;> by_cases hvx : v = x <;>
            simp [hax, hvx] <;> omega
      | succ i2 =>
          show (a :: t.set i2 v).count x + (if t.getD i2 (0, 0) = x then 1 else 0)
            = _
          rw [List.count_cons, List.count_cons]
          have := ih i2 v x (by simpa using h)
          omega

theorem refAdd_refs_len (g : KGraph) (v : Nat × Nat) (user j : Nat) :
    (getN (refAdd g v user) j).refs.length = (getN g j).refs.length := by
  unfold refAdd
  by_cases hj : j = v.1
  · rw [hj]
    by_cases hr : v.1 < g.nodes.length
    · rw [getN_setNode_self _ _ _ hr]; simp
    · rw [setNode_oob _ _ _ hr]
  · rw [getN_setNode_ne _ _ _ _ hj]

theorem refRemove_refs_len (g : KGraph) (v : Nat × Nat) (user j : Nat) :
    (getN (refRemove g v user) j).refs.length = (getN g j).refs.length := by
  unfold refRemove
  by_cases hj : j = v.1
  · rw [hj]
    by_cases hr : v.1 < g.nodes.length
    · rw [getN_setNode_self _ _ _ hr]; simp
    · rw [setNode_oob _ _ _ hr]
  · rw [getN_setNode_ne _ _ _ _ hj]

theorem refAdd_len (g : KGraph) (v : Nat × Nat) (user : Nat) :
    (refAdd g v user).nodes.length = g.nodes.length := by
  unfold refAdd; rw [setNode_len]

theorem refRemove_len (g : KGraph) (v : Nat × Nat) (user : Nat) :
    (refRemove g v user).nodes.length = g.nodes.length := by
  unfold refRemove; rw [setNode_len]

theorem operand_set_fields (g : KGraph) (n i : Nat) (v : Nat × Nat) (j : Nat) :
    (operand_set g n i v).nodes.length = g.nodes.length ∧
    (operand_set g n i v).exitIdx = g.exitIdx ∧
    (getN (operand_set g n i v) j).op = (getN g j).op ∧
    (getN (operand_set g n i v) j).mate = (getN g j).mate ∧
    (getN (operand_set g n i v) j).refs.length = (getN g j).refs.length ∧
    (j ≠ n → (getN (operand_set g n i v) j).operands = (getN g j).operands) := by
  unfold operand_set
  dsimp only
  by_cases hov : (getN g n).operands.getD i (0, 0) = v
  · rw [if_pos hov]; exact ⟨rfl, rfl, rfl, rfl, rfl, fun _ => rfl⟩
  · rw [if_neg hov]
    set g1 := refRemove g ((getN g n).operands.getD i (0, 0)) n with hg1
    set g2 := refAdd g1 v n with hg2
    have hlen1 : g1.nodes.length = g.nodes.length := by rw [hg1, refRemove_len]
    have hlen2 : g2.nodes.length = g1.nodes.length := by rw [hg2, refAdd_len]
    have hstep : ∀ jq, (getN (setNode g2 n (fun nd =>
        { nd with operands := nd.operands.set i v })) jq).op = (getN g2 jq).op ∧
        (getN (setNode g2 n (fun nd =>
        { nd with operands := nd.operands.set i v })) jq).mate
          = (getN g2 jq).mate ∧
        (getN (setNode g2 n (fun nd =>
        { nd with operands := nd.operands.set i v })) jq).refs
          = (getN g2 jq).refs ∧
        (jq ≠ n → (getN (setNode g2 n (fun nd =>
        { nd with operands := nd.operands.set i v })) jq).operands
          = (getN g2 jq).operands) := by
      intro jq
      by_cases hj : jq = n
      · rw [hj]
        by_cases hr : n < g2.nodes.length
        · rw [getN_setNode_self _ _ _ hr]
          exact ⟨rfl, rfl, rfl, fun hc => absurd rfl hc⟩
        · rw [setNode_oob _ _ _ hr]
          exact ⟨rfl, rfl, rfl, fun _ => rfl⟩
      · rw [getN_setNode_ne _ _ _ _ hj]
        exact ⟨rfl, rfl, rfl, fun _ => rfl⟩
    obtain ⟨s1, s2, s3, s4⟩ := hstep j
    obtain ⟨a1, a2, a3⟩ := getN_refAdd g1 v n j
    obtain ⟨r1, r2, r3⟩ := getN_refRemove g ((getN g n).operands.getD i (0, 0)) n j
    rw [← hg1] at r1 r2 r3
    rw [← hg2] at a1 a2 a3
    refine ⟨?_, rfl, ?_, ?_, ?_, ?_⟩
    · rw [setNode_len, hlen2, hlen1]
    · rw [s1, a1, r1]
    · rw [s2, a2, r2]
    · rw [s3, hg2, refAdd_refs_len, hg1, refRemove_refs_len]
    · intro hj
      rw [s4 hj, a3, r3]

theorem operand_set_operands_self (g : KGraph) (n i : Nat) (v : Nat × Nat)
    (hn : n < g.nodes.length) :
    (getN (operand_set g n i v) n).operands
      = if (getN g n).operands.getD i (0, 0) = v then (getN g n).operands
        else (getN g n).operands.set i v := by
  unfold operand_set
  dsimp only
  by_cases hov : (getN g n).operands.getD i (0, 0) = v
  · rw [if_pos hov, if_pos hov]
  · rw [if_neg hov, if_neg hov]
    set g1 := refRemove g ((getN g n).operands.getD i (0, 0)) n with hg1
    set g2 := refAdd g1 v n with hg2
    have hr : n < g2.nodes.length := by
      rw [hg2, refAdd_len, hg1, refRemove_len]; exact hn
    rw [getN_setNode_self _ _ _ hr]
    show (getN g2 n).operands.set i v = _
    rw [hg2, (getN_refAdd g1 v n n).2.2, hg1,
      (getN_refRemove g ((getN g n).operands.getD i (0, 0)) n n).2.2]

theorem operand_set_refsAt (g : KGraph) (n i : Nat) (v : Nat × Nat)
    (hov : (getN g n).operands.getD i (0, 0) ≠ v)
    (ho1 : ((getN g n).operands.getD i (0, 0)).1 < g.nodes.length)
    (ho2 : ((getN g n).operands.getD i (0, 0)).2
      < (getN g ((getN g n).operands.getD i (0, 0)).1).refs.length)
    (hv1 : v.1 < g.nodes.length)
    (hv2 : v.2 < (getN g v.1).refs.length) :
    refsAt (operand_set g n i v) ((getN g n).operands.getD i (0, 0))
      = (refsAt g ((getN g n).operands.getD i (0, 0))).erase n ∧
    refsAt (operand_set g n i v) v = refsAt g v ++ [n] ∧
    ∀ w, w ≠ (getN g n).operands.getD i (0, 0) → w ≠ v →
      refsAt (operand_set g n i v) w = refsAt g w := by
  unfold operand_set
  dsimp only
  rw [if_neg hov]
  set old := (getN g n).operands.getD i (0, 0) with holdd
  set g1 := refRemove g old n with hg1
  set g2 := refAdd g1 v n with hg2
  have hfin : ∀ w : Nat × Nat, refsAt (setNode g2 n (fun nd =>
      { nd with operands := nd.operands.set i v })) w = refsAt g2 w := by
    intro w
    unfold refsAt
    by_cases hj : w.1 = n
    · rw [hj]
      by_cases hr : n < g2.nodes.length
      · rw [getN_setNode_self _ _ _ hr]
      · rw [setNode_oob _ _ _ hr]
    · rw [getN_setNode_ne _ _ _ _ hj]
  refine ⟨?_, ?_, ?_⟩
  · rw [hfin old, hg2, refsAt_refAdd_other g1 v old n hov, hg1,
      refsAt_refRemove_self g old n ho1 ho2]
  · rw [hfin v, hg2, refsAt_refAdd_self g1 v n
      (by rw [hg1, refRemove_len]; exact hv1)
      (by rw [hg1, refRemove_refs_len]; exact hv2), hg1,
      refsAt_refRemove_other g old v n (Ne.symm hov)]
  · intro w hwo hwv
    rw [hfin w, hg2, refsAt_refAdd_other g1 v w n hwv, hg1,
      refsAt_refRemove_other g old w n hwo]

theorem refs_mem_refAdd (g : KGraph) (v : Nat × Nat) (user j : Nat)
    (l : List Nat) (hl : l ∈ (getN (refAdd g v user) j).refs) :
    l ∈ (getN g j).refs ∨ l = (getN g v.1).refs.getD v.2 [] ++ [user] := by
  unfold refAdd at hl
  by_cases hj : j = v.1
  · subst hj
    by_cases hr : v.1 < g.nodes.length
    · rw [getN_setNode_self _ _ _ hr] at hl
      rcases List.mem_or_eq_of_mem_set hl with h | h
      · exact Or.inl h
      · exact Or.inr h
    · rw [setNode_oob _ _ _ hr] at hl
      exact Or.inl hl
  · rw [getN_setNode_ne _ _ _ _ hj] at hl
    exact Or.inl hl

theorem refs_mem_refRemove (g : KGraph) (v : Nat × Nat) (user j : Nat)
    (l : List Nat) (hl : l ∈ (getN (refRemove g v user) j).refs) :
    l ∈ (getN g j).refs ∨ l = ((getN g v.1).refs.getD v.2 []).erase user := by
  unfold refRemove at hl
  by_cases hj : j = v.1
  · subst hj
    by_cases hr : v.1 < g.nodes.length
    · rw [getN_setNode_self _ _ _ hr] at hl
      rcases List.mem_or_eq_of_mem_set hl with h | h
      · exact Or.inl h
      · exact Or.inr h
    · rw [setNode_oob _ _ _ hr] at hl
      exact Or.inl hl
  · rw [getN_setNode_ne _ _ _ _ hj] at hl
    exact Or.inl hl

/-- Node::operand_set preserves operand/use coherence when the slot and
the new value are in range. -/
theorem operand_set_coherent (g : KGraph) (n i : Nat) (v : Nat × Nat)
    (hg : Coherent g) (hn : n < g.nodes.length)
    (hi : i < (getN g n).operands.length)
    (hv1 : v.1 < g.nodes.length) (hv2 : v.2 < (getN g v.1).refs.length) :
    Coherent (operand_set g n i v) := by
  by_cases hov : (getN g n).operands.getD i (0, 0) = v
  · unfold operand_set
    dsimp only
    rw [if_pos hov]
    exact hg
  · have hgetd : ∀ (jq k : Nat), jq < g.nodes.length →
        ∀ u ∈ (getN g jq).refs.getD k [], u < g.nodes.length := by
      intro jq k hjq u hu
      by_cases hk : k < (getN g jq).refs.length
      · exact (hg jq hjq).2.1 _ (getD_mem2 _ _ _ hk) u hu
      · rw [getD_oob _ _ _ hk] at hu; simp at hu
    have hold_mem : (getN g n).operands.getD i (0, 0) ∈ (getN g n).operands :=
      getD_mem2 _ _ _ hi
    obtain ⟨ho1, ho2⟩ := (hg n hn).1 _ hold_mem
    obtain ⟨hrOld, hrNew, hrOther⟩ :=
      operand_set_refsAt g n i v hov ho1 ho2 hv1 hv2
    intro m2 hm2
    rw [(operand_set_fields g n i v 0).1] at hm2
    refine ⟨?_, ?_, ?_⟩
    · intro w hw
      by_cases hm2n : m2 = n
      · rw [hm2n, operand_set_operands_self g n i v hn, if_neg hov] at hw
        rcases List.mem_or_eq_of_mem_set hw with h | h
        · obtain ⟨hb1, hb2⟩ := (hg n hn).1 w h
          exact ⟨by rw [(operand_set_fields g n i v 0).1]; exact hb1,
            by rw [(operand_set_fields g n i v w.1).2.2.2.2.1]; exact hb2⟩
        · rw [h]
          exact ⟨by rw [(operand_set_fields g n i v 0).1]; exact hv1,
            by rw [(operand_set_fields g n i v v.1).2.2.2.2.1]; exact hv2⟩
      · rw [(operand_set_fields g n i v m2).2.2.2.2.2 hm2n] at hw
        obtain ⟨hb1, hb2⟩ := (hg m2 hm2).1 w hw
        exact ⟨by rw [(operand_set_fields g n i v 0).1]; exact hb1,
          by rw [(operand_set_fields g n i v w.1).2.2.2.2.1]; exact hb2⟩
    · intro l hl u hu
      rw [(operand_set_fields g n i v 0).1]
      have hl2 : l ∈ (getN (refAdd (refRemove g
          ((getN g n).operands.getD i (0, 0)) n) v n) m2).refs := by
        revert hl
        unfold operand_set
        dsimp only
        rw [if_neg hov]
        intro hl
        by_cases hj : m2 = n
        · rw [hj] at hl
          by_cases hr : n < (refAdd (refRemove g
              ((getN g n).operands.getD i (0, 0)) n) v n).nodes.length
          · rw [getN_setNode_self _ _ _ hr] at hl
            rw [hj]
            exact hl
          · rw [setNode_oob _ _ _ hr] at hl
            rw [hj]
            exact hl
        · rw [getN_setNode_ne _ _ _ _ hj] at hl
          exact hl
      rcases refs_mem_refAdd _ v n m2 l hl2 with hl3 | hl3
      · rcases refs_mem_refRemove g _ n m2 l hl3 with hl4 | hl4
        · exact (hg m2 hm2).2.1 l hl4 u hu
        · rw [hl4] at hu
          exact hgetd _ _ ho1 u (List.mem_of_mem_erase hu)
      · rw [hl3] at hu
        rcases List.mem_append.mp hu with hu2 | hu2
        · have he : (getN (refRemove g ((getN g n).operands.getD i (0, 0)) n)
              v.1).refs.getD v.2 [] = refsAt g v := by
            show refsAt (refRemove g ((getN g n).operands.getD i (0, 0)) n) v = _
            exact refsAt_refRemove_other g _ v n (Ne.symm hov)
          rw [he] at hu2
          exact hgetd _ _ hv1 u hu2
        · rw [List.mem_singleton.mp hu2]
          exact hn
    · intro m hm k hk
      rw [(operand_set_fields g n i v 0).1] at hm
      rw [(operand_set_fields g n i v m).2.2.2.2.1] at hk
      show _ = (refsAt (operand_set g n i v) (m, k)).count m2
      by_cases hwold : ((m, k) : Nat × Nat) = (getN g n).operands.getD i (0, 0)
      · rw [hwold, hrOld, List.count_erase]
        have hcc2 : ((getN g n).operands.getD i (0, 0)).1 < g.nodes.length →
            True := fun _ => trivial
        by_cases hm2n : m2 = n
        · rw [hm2n, operand_set_operands_self g n i v hn, if_neg hov]
          have hcs := count_set (getN g n).operands i v
            ((getN g n).operands.getD i (0, 0)) hi
          rw [if_pos rfl, if_neg (fun hc => hov hc.symm)] at hcs
          have hcc3 : List.count ((getN g n).operands.getD i (0, 0))
              (getN g n).operands
              = (refsAt g ((getN g n).operands.getD i (0, 0))).count n :=
            (hg n hn).2.2 _ ho1 _ ho2
          have hif : (if (n == n) = true then 1 else 0) = 1 := by simp
          rw [hif]
          omega
        · rw [(operand_set_fields g n i v m2).2.2.2.2.2 hm2n]
          have hb : (n == m2) = false := beq_eq_false_iff_ne.mpr (Ne.symm hm2n)
          rw [hb]
          have hif : (if (false : Bool) = true then 1 else 0) = 0 := by simp
          rw [hif]
          have hcc3 : List.count ((getN g n).operands.getD i (0, 0))
              (getN g m2).operands
              = (refsAt g ((getN g n).operands.getD i (0, 0))).count m2 :=
            (hg m2 hm2).2.2 _ ho1 _ ho2
          omega
      · by_cases hwv : ((m, k) : Nat × Nat) = v
        · rw [hwv, hrNew, List.count_append]
          by_cases hm2n : m2 = n
          · rw [hm2n, operand_set_operands_self g n i v hn, if_neg hov]
            have hcs := count_set (getN g n).operands i v v hi
            rw [if_pos rfl, if_neg hov] at hcs
            have hcc3 : List.count v (getN g n).operands
                = (refsAt g v).count n := (hg n hn).2.2 _ hv1 _ hv2
            have hone : List.count n [n] = 1 := by simp
            omega
          · rw [(operand_set_fields g n i v m2).2.2.2.2.2 hm2n]
            have hcc3 : List.count v (getN g m2).operands
                = (refsAt g v).count m2 := (hg m2 hm2).2.2 _ hv1 _ hv2
            have hzero : List.count m2 [n] = 0 := by
              simp [List.count_singleton]
              exact fun hc => hm2n hc.symm
            omega
        · rw [hrOther (m, k) hwold hwv]
          by_cases hm2n : m2 = n
          · rw [hm2n, operand_set_operands_self g n i v hn, if_neg hov]
            have hcs := count_set (getN g n).operands i v (m, k) hi
            rw [if_neg (fun hc => hwold hc.symm), if_neg (fun hc => hwv hc.symm)]
              at hcs
            have hcc3 : List.count (m, k) (getN g n).operands
                = (refsAt g (m, k)).count n := (hg n hn).2.2 m hm k hk
            omega
          · rw [(operand_set_fields g n i v m2).2.2.2.2.2 hm2n]
            exact (hg m2 hm2).2.2 m hm k hk

theorem map_subst_self (v : Nat × Nat) (l : List (Nat × Nat)) :
    l.map (fun o => if o = v then v else o) = l := by
  induction l with
  | nil => rfl
  | cons a t ih =>
      rw [List.map_cons, ih]
      by_cases h : a = v
      · rw [if_pos h, h]
      · rw [if_neg h]

theorem passReplace_operands_all (g : KGraph) (oldv newv : Nat × Nat) (j : Nat) :
    (getN (passReplace g oldv newv) j).operands
      = (getN g j).operands.map (fun o => if o = oldv then newv else o) := by
  by_cases hne : oldv = newv
  · unfold passReplace
    rw [if_pos hne]
    subst hne
    rw [map_subst_self]
  · exact passReplace_operands g oldv newv hne j

theorem setMate_fields (g : KGraph) (n m j : Nat) :
    (setMate g n m).nodes.length = g.nodes.length ∧
    (setMate g n m).exitIdx = g.exitIdx ∧
    (getN (setMate g n m) j).op = (getN g j).op ∧
    (getN (setMate g n m) j).operands = (getN g j).operands ∧
    (getN (setMate g n m) j).refs = (getN g j).refs ∧
    (j ≠ n → (getN (setMate g n m) j).mate = (getN g j).mate) := by
  unfold setMate
  refine ⟨setNode_len g n _, setNode_exit g n _, ?_, ?_, ?_, ?_⟩
  · by_cases hj : j = n
    · by_cases hr : n < g.nodes.length
      · rw [hj, getN_setNode_self _ _ _ hr]
      · rw [hj, setNode_oob _ _ _ hr]
    · rw [getN_setNode_ne _ _ _ _ hj]
  · by_cases hj : j = n
    · by_cases hr : n < g.nodes.length
      · rw [hj, getN_setNode_self _ _ _ hr]
      · rw [hj, setNode_oob _ _ _ hr]
    · rw [getN_setNode_ne _ _ _ _ hj]
  · by_cases hj : j = n
    · by_cases hr : n < g.nodes.length
      · rw [hj, getN_setNode_self _ _ _ hr]
      · rw [hj, setNode_oob _ _ _ hr]
    · rw [getN_setNode_ne _ _ _ _ hj]
  · intro hj
    rw [getN_setNode_ne _ _ _ _ hj]

theorem setMate_mate_self (g : KGraph) (n m : Nat) (hn : n < g.nodes.length) :
    (getN (setMate g n m) n).mate = some m := by
  unfold setMate
  rw [getN_setNode_self _ _ _ hn]

theorem setMate_coherent (g : KGraph) (n m : Nat) (hg : Coherent g) :
    Coherent (setMate g n m) := by
  intro j hj
  rw [(setMate_fields g n m 0).1] at hj
  obtain ⟨h1, h2, h3⟩ := hg j hj
  refine ⟨?_, ?_, ?_⟩
  · intro v hv
    rw [(setMate_fields g n m j).2.2.2.1] at hv
    obtain ⟨a, b2⟩ := h1 v hv
    exact ⟨by rw [(setMate_fields g n m 0).1]; exact a,
      by rw [(setMate_fields g n m v.1).2.2.2.2.1]; exact b2⟩
  · intro l hl u hu
    rw [(setMate_fields g n m j).2.2.2.2.1] at hl
    rw [(setMate_fields g n m 0).1]
    exact h2 l hl u hu
  · intro m2 hm2 k hk
    rw [(setMate_fields g n m 0).1] at hm2
    rw [(setMate_fields g n m m2).2.2.2.2.1] at hk
    rw [(setMate_fields g n m j).2.2.2.1, (setMate_fields g n m m2).2.2.2.2.1]
    exact h3 m2 hm2 k hk

theorem lt_of_getN_op_ne (g : KGraph) (x : Nat)
    (h : (getN g x).op ≠ GOp.effect) : x < g.nodes.length := by
  by_contra hc
  rw [getN_oob g x hc] at h
  exact h rfl

theorem coherent_user_mem (g : KGraph) (hg : Coherent g) (bq : Nat)
    (hbq : bq < g.nodes.length) (o : Nat × Nat)
    (ho : o ∈ (getN g bq).operands) : bq ∈ refsAt g o := by
  obtain ⟨h1, h2⟩ := (hg bq hbq).1 o ho
  have hcount : (getN g bq).operands.count o = (refsAt g o).count bq :=
    (hg bq hbq).2.2 o.1 h1 o.2 h2
  have hpos : 0 < (getN g bq).operands.count o := List.count_pos_iff.mpr ho
  exact List.count_pos_iff.mp (hcount ▸ hpos)

theorem nodup_getD_not_mem_eraseIdx (l : List Nat) :
    ∀ i : Nat, l.Nodup → i < l.length → l.getD i 0 ∉ l.eraseIdx i := by
  induction l with
  | nil => intro i _ hi; simp at hi
  | cons a t ih =>
      intro i hnd hi
      obtain ⟨hna, hndt⟩ := List.nodup_cons.mp hnd
      cases i with
      | zero => simpa using hna
      | succ i2 =>
          intro hmem
          have hi2 : i2 < t.length := by simpa using hi
          rw [show (a :: t).eraseIdx (i2 + 1) = a :: t.eraseIdx i2 from rfl]
            at hmem
          rcases List.mem_cons.mp hmem with h | h
          · have h2 : t.getD i2 0 = a := h
            exact hna (h2 ▸ getD_mem2 t i2 0 hi2)
          · exact ih i2 hndt hi2 h

/-- The empty-block folding branch of Block::simplify_graph preserves the
loop invariant. -/
theorem fold_step_inv (g : KGraph) (blocks : List Nat) (i : Nat) (b e : Nat)
    (hbdef : blocks.getD i 0 = b) (hi : i < blocks.length)
    (hmate : (getN g b).mate = some e)
    (hlen1 : (getN g b).operands.length = 1)
    (hope : (getN g e).op = GOp.jmp)
    (hrc : refCount g (e, 0) = 1)
    (hInv : SGInv g blocks) :
    SGInv
      (operand_set (passReplace g (e, 0) ((getN g b).operands.getD 0 (0, 0)))
        b 0 (e, 0))
      (blocks.eraseIdx i) := by
  obtain ⟨hco, hnd, hpair, hpred, hce, hjw⟩ := hInv
  have hbmem : b ∈ blocks := hbdef ▸ getD_mem2 blocks i 0 hi
  obtain ⟨hopb, t, hmt, hoptj, hmtb⟩ := hpair b hbmem
  rw [hmate] at hmt
  have hte : t = e := (Option.some.inj hmt).symm
  rw [hte] at hmtb
  have hblt : b < g.nodes.length := lt_of_getN_op_ne g b (by rw [hopb]; decide)
  have helt : e < g.nodes.length := lt_of_getN_op_ne g e (by rw [hope]; decide)
  have h0lt : 0 < (getN g b).operands.length := by omega
  have hv0mem : (getN g b).operands.getD 0 (0, 0) ∈ (getN g b).operands :=
    getD_mem2 _ _ _ h0lt
  obtain ⟨hv01, hv02⟩ := (hco b hblt).1 _ hv0mem
  have hrefs0 : 0 < (getN g e).refs.length := by
    by_contra hc
    have hz : refsAt g (e, 0) = [] := getD_oob _ _ _ (by simpa using hc)
    rw [refCount, hz] at hrc
    simp at hrc
  have hgb : (getN g b).operands = [(getN g b).operands.getD 0 (0, 0)] := by
    obtain ⟨a, ha⟩ := List.length_eq_one.mp hlen1
    simp [ha]
  set v0 := (getN g b).operands.getD 0 (0, 0) with hv0d
  set g1 := passReplace g (e, 0) v0 with hg1d
  set gF := operand_set g1 b 0 (e, 0) with hgFd
  have hlen1q : g1.nodes.length = g.nodes.length := by
    rw [hg1d]; exact passReplace_len g (e, 0) v0
  have hopF : ∀ j, (getN gF j).op = (getN g j).op := by
    intro j
    rw [hgFd, (operand_set_fields g1 b 0 (e, 0) j).2.2.1, hg1d,
      (passReplace_fields g (e, 0) v0 j).1]
  have hmateF : ∀ j, (getN gF j).mate = (getN g j).mate := by
    intro j
    rw [hgFd, (operand_set_fields g1 b 0 (e, 0) j).2.2.2.1, hg1d,
      (passReplace_fields g (e, 0) v0 j).2.1]
  have hrlF : ∀ j, (getN gF j).refs.length = (getN g j).refs.length := by
    intro j
    rw [hgFd, (operand_set_fields g1 b 0 (e, 0) j).2.2.2.2.1, hg1d,
      (passReplace_fields g (e, 0) v0 j).2.2]
  have hops1 : ∀ j, (getN g1 j).operands
      = (getN g j).operands.map (fun o => if o = (e, 0) then v0 else o) := by
    intro j
    rw [hg1d]
    exact passReplace_operands_all g (e, 0) v0 j
  have hopsF_ne : ∀ j, j ≠ b → (getN gF j).operands
      = (getN g j).operands.map (fun o => if o = (e, 0) then v0 else o) := by
    intro j hj
    rw [hgFd, (operand_set_fields g1 b 0 (e, 0) j).2.2.2.2.2 hj, hops1 j]
  have hopsF_b : (getN gF b).operands = [(e, 0)] := by
    rw [hgFd, operand_set_operands_self g1 b 0 (e, 0) (by rw [hlen1q]; exact hblt)]
    rw [hops1 b, hgb]
    simp only [List.map_cons, List.map_nil, ite_self, List.getD_cons_zero]
    by_cases hc : v0 = (e, 0)
    · rw [if_pos hc, hc]
    · rw [if_neg hc]
      rfl
  refine ⟨?_, ?_, ?_, ?_, ?_, ?_⟩
  · have hco1 : Coherent g1 := by
      rw [hg1d]
      exact passReplace_coherent g (e, 0) v0 hco hv01 hv02
    rw [hgFd]
    refine operand_set_coherent g1 b 0 (e, 0) hco1
      (by rw [hlen1q]; exact hblt) ?_ ?_ ?_
    · rw [hops1 b, List.length_map]
      omega
    · show e < g1.nodes.length
      rw [hlen1q]
      exact helt
    · show 0 < (getN g1 e).refs.length
      rw [hg1d, (passReplace_fields g (e, 0) v0 e).2.2]
      exact hrefs0
  · exact List.Nodup.sublist (List.eraseIdx_sublist blocks i) hnd
  · intro bq hbq
    have hbqb : bq ∈ blocks := (List.eraseIdx_sublist blocks i).subset hbq
    obtain ⟨ho1, t2, h2, h3, h4⟩ := hpair bq hbqb
    exact ⟨by rw [hopF]; exact ho1, t2, by rw [hmateF]; exact h2,
      by rw [hopF]; exact h3, by rw [hmateF]; exact h4⟩
  · intro bq hbq o ho hjmp pbq hm
    have hbqb : bq ∈ blocks := (List.eraseIdx_sublist blocks i).subset hbq
    rw [hopF] at hjmp
    rw [hmateF] at hm
    rw [hopF pbq, hmateF pbq]
    by_cases hqb : bq = b
    · rw [hqb, hopsF_b] at ho
      have ho2 : o = (e, 0) := List.mem_singleton.mp ho
      rw [ho2] at hm ⊢
      have hm2 : (getN g e).mate = some pbq := hm
      rw [hmtb] at hm2
      have hpbq : pbq = b := (Option.some.inj hm2).symm
      rw [hpbq]
      exact ⟨hopb, hmate⟩
    · rw [hopsF_ne bq hqb] at ho
      obtain ⟨o2, ho2, hsub⟩ := List.mem_map.mp ho
      by_cases h0 : o2 = (e, 0)
      · rw [if_pos h0] at hsub
        rw [← hsub] at hjmp hm ⊢
        exact hpred b hbmem v0 hv0mem hjmp pbq hm
      · rw [if_neg h0] at hsub
        rw [← hsub] at hjmp hm ⊢
        exact hpred bq hbqb o2 ho2 hjmp pbq hm
  · intro n o ho hjmp
    rw [hopF] at hjmp
    rw [hopF n]
    by_cases hnb : n = b
    · rw [hnb]
      exact Or.inl hopb
    · rw [hopsF_ne n hnb] at ho
      obtain ⟨o2, ho2, hsub⟩ := List.mem_map.mp ho
      by_cases h0 : o2 = (e, 0)
      · exact hce n o2 ho2 (by rw [h0]; exact hope)
      · rw [if_neg h0] at hsub
        rw [← hsub] at hjmp
        exact hce n o2 ho2 hjmp
  · intro n hop
    rw [hopF] at hop
    obtain ⟨hne2, hle2⟩ := hjw n hop
    refine ⟨?_, by rw [hrlF]; exact hle2⟩
    by_cases hnb : n = b
    · rw [hnb] at hop
      rw [hopb] at hop
      exact absurd hop (by decide)
    · rw [hopsF_ne n hnb]
      intro hc
      exact hne2 (List.map_eq_nil.mp hc)

/-- The sole-successor merging branch of Block::simplify_graph preserves
the loop invariant. -/
theorem merge_step_inv (g : KGraph) (blocks : List Nat) (i : Nat)
    (b e pb : Nat)
    (hbdef : blocks.getD i 0 = b) (hi : i < blocks.length)
    (hmate : (getN g b).mate = some e)
    (hlen1 : (getN g b).operands.length = 1)
    (hopj : (getN g ((getN g b).operands.getD 0 (0, 0)).1).op = GOp.jmp)
    (hrc : refCount g ((getN g b).operands.getD 0 (0, 0)) = 1)
    (hpbm : (getN g ((getN g b).operands.getD 0 (0, 0)).1).mate = some pb)
    (hInv : SGInv g blocks) :
    SGInv
      (setMate
        (setMate
          (passReplace g (b, 0)
            ((getN g ((getN g b).operands.getD 0 (0, 0)).1).operands.getD 0
              (0, 0)))
          e pb)
        pb e)
      (blocks.eraseIdx i) := by
  obtain ⟨hco, hnd, hpair, hpred, hce, hjw⟩ := hInv
  have hbmem : b ∈ blocks := hbdef ▸ getD_mem2 blocks i 0 hi
  obtain ⟨hopb, t, hmt, hoptj, hmtb⟩ := hpair b hbmem
  rw [hmate] at hmt
  have hte : t = e := (Option.some.inj hmt).symm
  rw [hte] at hmtb hoptj
  have hblt : b < g.nodes.length := lt_of_getN_op_ne g b (by rw [hopb]; decide)
  have helt : e < g.nodes.length := by
    refine lt_of_getN_op_ne g e ?_
    rcases hoptj with h | h <;> rw [h] <;> decide
  have h0lt : 0 < (getN g b).operands.length := by omega
  have hv0mem : (getN g b).operands.getD 0 (0, 0) ∈ (getN g b).operands :=
    getD_mem2 _ _ _ h0lt
  obtain ⟨hv01, hv02⟩ := (hco b hblt).1 _ hv0mem
  set v0 := (getN g b).operands.getD 0 (0, 0) with hv0d
  obtain ⟨hjne, hjle⟩ := hjw v0.1 hopj
  have hv02z : v0.2 = 0 := by omega
  have hv0eta : v0 = (v0.1, 0) := Prod.ext rfl hv02z
  obtain ⟨hoppb, hmpb⟩ := hpred b hbmem v0 hv0mem hopj pb hpbm
  have hpblt : pb < g.nodes.length :=
    lt_of_getN_op_ne g pb (by rw [hoppb]; decide)
  have hepb : e ≠ pb := by
    intro hc
    rw [hc, hoppb] at hoptj
    rcases hoptj with h | h <;> exact absurd h (by decide)
  have hbuser : b ∈ refsAt g v0 := coherent_user_mem g hco b hblt v0 hv0mem
  have hrc2 : (refsAt g v0).length = 1 := hrc
  have hrefs_b : refsAt g v0 = [b] := by
    obtain ⟨a, ha⟩ := List.length_eq_one.mp hrc2
    rw [ha] at hbuser ⊢
    rw [List.mem_singleton.mp hbuser]
  have hjne2 : 0 < (getN g v0.1).operands.length := List.length_pos.mpr hjne
  have hv1mem : (getN g v0.1).operands.getD 0 (0, 0) ∈ (getN g v0.1).operands :=
    getD_mem2 _ _ _ hjne2
  obtain ⟨hv11, hv12⟩ := (hco v0.1 hv01).1 _ hv1mem
  set v1 := (getN g v0.1).operands.getD 0 (0, 0) with hv1d
  have hv1nj : (getN g v1.1).op ≠ GOp.jmp := by
    intro hc
    rcases hce v0.1 v1 hv1mem hc with h | h
    · rw [hopj] at h
      exact absurd h (by decide)
    · rw [hopj] at h
      exact absurd h (by decide)
  set g1 := passReplace g (b, 0) v1 with hg1d
  set gF := setMate (setMate g1 e pb) pb e with hgFd
  have hlen1q : g1.nodes.length = g.nodes.length := by
    rw [hg1d]; exact passReplace_len g (b, 0) v1
  have hlen2q : (setMate g1 e pb).nodes.length = g.nodes.length := by
    rw [(setMate_fields g1 e pb 0).1]; exact hlen1q
  have hopF : ∀ j, (getN gF j).op = (getN g j).op := by
    intro j
    rw [hgFd, (setMate_fields (setMate g1 e pb) pb e j).2.2.1,
      (setMate_fields g1 e pb j).2.2.1, hg1d,
      (passReplace_fields g (b, 0) v1 j).1]
  have hrlF : ∀ j, (getN gF j).refs.length = (getN g j).refs.length := by
    intro j
    rw [hgFd, (setMate_fields (setMate g1 e pb) pb e j).2.2.2.2.1,
      (setMate_fields g1 e pb j).2.2.2.2.1, hg1d,
      (passReplace_fields g (b, 0) v1 j).2.2]
  have hopsF : ∀ j, (getN gF j).operands
      = (getN g j).operands.map (fun o => if o = (b, 0) then v1 else o) := by
    intro j
    rw [hgFd, (setMate_fields (setMate g1 e pb) pb e j).2.2.2.1,
      (setMate_fields g1 e pb j).2.2.2.1, hg1d]
    exact passReplace_operands_all g (b, 0) v1 j
  have hmateF_other : ∀ j, j ≠ e → j ≠ pb →
      (getN gF j).mate = (getN g j).mate := by
    intro j hje hjpb
    rw [hgFd, (setMate_fields (setMate g1 e pb) pb e j).2.2.2.2.2 hjpb,
      (setMate_fields g1 e pb j).2.2.2.2.2 hje, hg1d,
      (passReplace_fields g (b, 0) v1 j).2.1]
  have hmateF_pb : (getN gF pb).mate = some e := by
    rw [hgFd]
    exact setMate_mate_self (setMate g1 e pb) pb e
      (by rw [hlen2q]; exact hpblt)
  have hmateF_e : (getN gF e).mate = some pb := by
    rw [hgFd, (setMate_fields (setMate g1 e pb) pb e e).2.2.2.2.2 hepb]
    exact setMate_mate_self g1 e pb (by rw [hlen1q]; exact helt)
  have hbnotin : b ∉ blocks.eraseIdx i :=
    hbdef ▸ nodup_getD_not_mem_eraseIdx blocks i hnd hi
  refine ⟨?_, ?_, ?_, ?_, ?_, ?_⟩
  · have hco1 : Coherent g1 := by
      rw [hg1d]
      exact passReplace_coherent g (b, 0) v1 hco hv11 hv12
    rw [hgFd]
    exact setMate_coherent _ pb e (setMate_coherent g1 e pb hco1)
  · exact List.Nodup.sublist (List.eraseIdx_sublist blocks i) hnd
  · intro bq hbq
    have hbqb : bq ∈ blocks := (List.eraseIdx_sublist blocks i).subset hbq
    have hbqne : bq ≠ b := fun hc => hbnotin (hc ▸ hbq)
    obtain ⟨ho1, t2, h2, h3, h4⟩ := hpair bq hbqb
    by_cases hqpb : bq = pb
    · refine ⟨?_, e, ?_, ?_, ?_⟩
      · rw [hopF, hqpb]
        exact hoppb
      · rw [hqpb]
        exact hmateF_pb
      · rw [hopF]
        exact hoptj
      · rw [hqpb]
        exact hmateF_e
    · have hbqe : bq ≠ e := by
        intro hc
        rw [hc] at ho1
        rcases hoptj with h | h
        · rw [ho1] at h
          exact absurd h (by decide)
        · rw [ho1] at h
          exact absurd h (by decide)
      have htpb : t2 ≠ pb := by
        intro hc
        rw [hc, hoppb] at h3
        rcases h3 with h | h <;> exact absurd h (by decide)
      have hte2 : t2 ≠ e := by
        intro hc
        rw [hc, hmtb] at h4
        exact hbqne (Option.some.inj h4).symm
      refine ⟨by rw [hopF]; exact ho1, t2, ?_, by rw [hopF]; exact h3, ?_⟩
      · rw [hmateF_other bq hbqe hqpb]
        exact h2
      · rw [hmateF_other t2 hte2 htpb]
        exact h4
  · intro bq hbq o ho hjmp pbq hm
    have hbqb : bq ∈ blocks := (List.eraseIdx_sublist blocks i).subset hbq
    have hbqne : bq ≠ b := fun hc => hbnotin (hc ▸ hbq)
    have hopbq : (getN g bq).op = GOp.block := (hpair bq hbqb).1
    have hbqlt : bq < g.nodes.length :=
      lt_of_getN_op_ne g bq (by rw [hopbq]; decide)
    rw [hopF] at hjmp
    rw [hopsF bq] at ho
    obtain ⟨o2, ho2, hsub⟩ := List.mem_map.mp ho
    by_cases h0 : o2 = (b, 0)
    · rw [if_pos h0] at hsub
      rw [← hsub] at hjmp
      exact absurd hjmp hv1nj
    · rw [if_neg h0] at hsub
      rw [← hsub] at hjmp hm ⊢
      by_cases hoe : o2.1 = e
      · rw [hoe] at hm
        rw [hmateF_e] at hm
        have hpbq : pbq = pb := (Option.some.inj hm).symm
        rw [hpbq]
        refine ⟨by rw [hopF]; exact hoppb, ?_⟩
        rw [hoe]
        exact hmateF_pb
      · have hopbne : o2.1 ≠ pb := by
          intro hc
          rw [hc, hoppb] at hjmp
          exact absurd hjmp (by decide)
        rw [hmateF_other o2.1 hoe hopbne] at hm
        obtain ⟨hc1, hc2⟩ := hpred bq hbqb o2 ho2 hjmp pbq hm
        have hpbqe : pbq ≠ e := by
          intro hc
          rw [hc] at hc1
          rcases hoptj with h | h
          · rw [hc1] at h
            exact absurd h (by decide)
          · rw [hc1] at h
            exact absurd h (by decide)
        have hpbqpb : pbq ≠ pb := by
          intro hc
          rw [hc, hmpb] at hc2
          have ho21 : o2.1 = v0.1 := (Option.some.inj hc2).symm
          obtain ⟨hb1, hb2⟩ := (hco bq hbqlt).1 o2 ho2
          rw [ho21] at hb2
          have ho22 : o2.2 = 0 := by omega
          have ho2v0 : o2 = v0 := by
            rw [hv0eta]
            exact Prod.ext ho21 ho22
          have hm3 : bq ∈ refsAt g v0 :=
            ho2v0 ▸ coherent_user_mem g hco bq hbqlt o2 ho2
          rw [hrefs_b] at hm3
          exact hbqne (List.mem_singleton.mp hm3)
        refine ⟨by rw [hopF]; exact hc1, ?_⟩
        rw [hmateF_other pbq hpbqe hpbqpb]
        exact hc2
  · intro n o ho hjmp
    rw [hopF] at hjmp
    rw [hopF n]
    rw [hopsF n] at ho
    obtain ⟨o2, ho2, hsub⟩ := List.mem_map.mp ho
    by_cases h0 : o2 = (b, 0)
    · rw [if_pos h0] at hsub
      rw [← hsub] at hjmp
      exact absurd hjmp hv1nj
    · rw [if_neg h0] at hsub
      rw [← hsub] at hjmp
      exact hce n o2 ho2 hjmp
  · intro n hop
    rw [hopF] at hop
    obtain ⟨hne2, hle2⟩ := hjw n hop
    refine ⟨?_, by rw [hrlF]; exact hle2⟩
    rw [hopsF n]
    intro hc
    exact hne2 (List.map_eq_nil.mp hc)

/-- The rewriting loop of Block::simplify_graph preserves the loop
invariant on every successful run. -/
theorem simplifyLoop_inv :
    ∀ (fuel : Nat) (g : KGraph) (blocks : List Nat) (i : Nat)
      (g2 : KGraph) (blocks2 : List Nat),
      SGInv g blocks →
      simplifyLoop g blocks i fuel = some (g2, blocks2) →
      SGInv g2 blocks2 := by
  intro fuel
  induction fuel with
  | zero =>
      intro g blocks i g2 blocks2 _ hrun
      exact Option.noConfusion hrun
  | succ f ih =>
      intro g blocks i g2 blocks2 hInv hrun
      unfold simplifyLoop at hrun
      by_cases hi : i < blocks.length
      · rw [if_pos hi] at hrun
        dsimp only at hrun
        rcases hm : (getN g (blocks.getD i 0)).mate with _ | e
        · rw [hm] at hrun
          exact Option.noConfusion hrun
        · rw [hm] at hrun
          dsimp only at hrun
          by_cases h1 : (getN g (blocks.getD i 0)).operands.length = 1 ∧
              (getN g e).op = GOp.jmp ∧ refCount g (e, 0) = 1 ∧
              (getN g e).operands.getD 0 (0, 0) = (blocks.getD i 0, 0)
          · rw [if_pos h1] at hrun
            exact ih _ _ _ _ _
              (fold_step_inv g blocks i (blocks.getD i 0) e rfl hi hm
                h1.1 h1.2.1 h1.2.2.1 hInv)
              hrun
          · rw [if_neg h1] at hrun
            by_cases h2 : (getN g (blocks.getD i 0)).operands.length = 1 ∧
                (getN g ((getN g (blocks.getD i 0)).operands.getD 0
                  (0, 0)).1).op = GOp.jmp ∧
                refCount g ((getN g (blocks.getD i 0)).operands.getD 0
                  (0, 0)) = 1
            · rw [if_pos h2] at hrun
              rcases hm2 : (getN g ((getN g (blocks.getD i 0)).operands.getD 0
                  (0, 0)).1).mate with _ | pb
              · rw [hm2] at hrun
                exact Option.noConfusion hrun
              · rw [hm2] at hrun
                dsimp only at hrun
                exact ih _ _ _ _ _
                  (merge_step_inv g blocks i (blocks.getD i 0) e pb rfl hi hm
                    h2.1 h2.2.1 h2.2.2 hm2 hInv)
                  hrun
            · rw [if_neg h2] at hrun
              exact ih _ _ _ _ _ hInv hrun
      · rw [if_neg hi] at hrun
        have hp : g = g2 ∧ blocks = blocks2 := by
          have hq := Option.some.inj hrun
          exact ⟨congrArg Prod.fst hq, congrArg Prod.snd hq⟩
        rw [← hp.1, ← hp.2]
        exact hInv

/-- **C9.** Block::simplify_graph preserves the block/terminator pairing
invariant and operand/use coherence: starting from a coherent graph whose
enumerated blocks are distinct, properly paired with jmp or if
terminators, whose consumed jmp values are paired to their own blocks,
whose control edges are consumed only by block or exit nodes, and whose
jmp nodes are well shaped, a successful run of simplify_graph (folding
empty single-predecessor single-successor blocks and merging a block
into its sole predecessor) yields a graph in which every remaining
enumerated block is still mated to its terminator and back, and every
operand edge is still mirrored in the target value's use list. -/
theorem c9_simplify_graph_preserves (g : KGraph) (blocks : List Nat)
    (g2 : KGraph) (blocks2 : List Nat)
    (hco : coherentB g = true) (hnd : blocks.Nodup)
    (hpair : pairInvB g blocks = true)
    (hpred : predPairB g blocks = true)
    (hce : controlEdgesB g = true)
    (hjw : jmpWfB g = true)
    (hrun : simplify_graph g blocks = some (g2, blocks2)) :
    coherentB g2 = true ∧ pairInvB g2 blocks2 = true := by
  have hInv : SGInv g blocks :=
    ⟨(coherentB_iff g).mp hco, hnd, (pairInvB_iff g blocks).mp hpair,
      predPair_of g blocks hpred, controlEdges_of g hce, jmpWf_of g hjw⟩
  have h2 := simplifyLoop_inv (blocks.length + 1) g blocks 0 g2 blocks2 hInv hrun
  exact ⟨(coherentB_iff g2).mpr h2.1, (pairInvB_iff g2 blocks2).mpr h2.2.2.1⟩

/-- Witness for C9: on simplifyG with enumerated blocks [1, 4], block 4
is merged into block 1 and both invariants hold of the result. -/
theorem c9_witness :
    coherentB simplifyGres = true ∧ pairInvB simplifyGres [1] = true :=
  c9_simplify_graph_preserves simplifyG [1, 4] simplifyGres [1]
    (by decide) (by decide) (by decide) (by decide) (by decide) (by decide)
    (by decide)

end RiscvDbt
